import Mathlib

/-!
Shallow embedding of `src/data/code2ast.py` from the multilingual-ast-probe
repository, together with proofs settling the frozen claims about it.

The Python module manipulates `networkx` directed graphs whose nodes carry
the attributes `type`, `is_terminal`, `start`, `end` and whose edges carry
an optional `label` attribute.  We embed such a graph as an association
list of node ids with attributes plus a list of labelled directed edges.
External capabilities (the tree-sitter parser, comment stripping, `scipy`'s
`spearmanr`) are modelled at their interface: the parser's output is the
`PTree` type below, and the Spearman correlation is a function parameter.
-/

namespace Code2Ast

/-- Node attributes, mirroring the networkx node attribute dict
`{type, is_terminal, start, end}` used throughout `code2ast.py`. -/
structure Attr where
  type : String
  is_terminal : Bool
  start : Nat
  stop : Nat
deriving DecidableEq, Repr

/-- Default attributes: networkx allows attribute-less nodes; attribute
lookups on them are modelled by this default (`is_terminal = false`). -/
instance : Inhabited Attr := ⟨⟨"", false, 0, 0⟩⟩

/-- A directed graph with node attributes and optional edge labels, the
embedding of the `networkx.DiGraph` objects built by `code2ast.py`.
`nodes` is kept in insertion order (networkx iterates nodes and edges in
insertion order); an edge `(u, v, lab)` goes from `u` to `v` and carries
the optional `label` attribute `lab`. -/
structure Graph where
  nodes : List (Nat × Attr)
  edges : List (Nat × Nat × Option String)
deriving DecidableEq, Repr

namespace Graph

/-- The list of node ids, in insertion order (`list(G)` in Python). -/
def nodeIds (G : Graph) : List Nat := G.nodes.map Prod.fst

/-- Attribute lookup `G.nodes[n]`; default attributes if absent. -/
def attr (G : Graph) (n : Nat) : Attr :=
  match G.nodes.find? (fun p => p.1 == n) with
  | some p => p.2
  | none => default

/-- `G.out_edges(n)`: edges with source `n`, in insertion order. -/
def outEdges (G : Graph) (n : Nat) : List (Nat × Nat × Option String) :=
  G.edges.filter (fun e => e.1 == n)

/-- `G.in_edges(n)`: edges with target `n`, in insertion order. -/
def inEdges (G : Graph) (n : Nat) : List (Nat × Nat × Option String) :=
  G.edges.filter (fun e => e.2.1 == n)

/-- Membership test `n in G`. -/
def hasNode (G : Graph) (n : Nat) : Bool := G.nodeIds.contains n

/-- `G.add_node(n, **attrs)`: inserts the node, or overwrites the
attributes if the node already exists. -/
def add_node (G : Graph) (n : Nat) (a : Attr) : Graph :=
  if G.hasNode n then
    { G with nodes := G.nodes.map (fun p => if p.1 == n then (n, a) else p) }
  else
    { G with nodes := G.nodes ++ [(n, a)] }

/-- Helper for `add_edge`: networkx silently adds missing endpoints as
attribute-less nodes. -/
def addNodeIfAbsent (G : Graph) (n : Nat) : Graph :=
  if G.hasNode n then G else { G with nodes := G.nodes ++ [(n, default)] }

/-- `G.add_edge(u, v, label=lab)`: adds the endpoints if missing, then
updates the label of an existing `(u, v)` edge in place or appends a new
edge. -/
def add_edge (G : Graph) (u v : Nat) (lab : Option String) : Graph :=
  let G := (G.addNodeIfAbsent u).addNodeIfAbsent v
  if G.edges.any (fun e => e.1 == u && e.2.1 == v) then
    { G with edges := G.edges.map (fun e => if e.1 == u && e.2.1 == v then (u, v, lab) else e) }
  else
    { G with edges := G.edges ++ [(u, v, lab)] }

/-- `G.remove_node(n)`: removes the node and all incident edges. -/
def remove_node (G : Graph) (n : Nat) : Graph :=
  { nodes := G.nodes.filter (fun p => !(p.1 == n)),
    edges := G.edges.filter (fun e => !(e.1 == n) && !(e.2.1 == n)) }

/-- The directed adjacency list underlying `G` (source, target pairs). -/
def adj (G : Graph) : List (Nat × Nat) := G.edges.map (fun e => (e.1, e.2.1))

end Graph

/-! ### Reachability

`code2ast.py` uses `nx.single_source_shortest_path_length` /
`nx.single_source_shortest_path` for the set of nodes reachable from a
given node.  We compute that set by iterating a one-step frontier
expansion to a fixpoint; `ReachL` is the corresponding inductive
reachability relation used in specifications. -/

/-- One expansion step: append the yet-unseen successors of `acc`. -/
def adjStep (adj : List (Nat × Nat)) (acc : List Nat) : List Nat :=
  acc ++ ((adj.filterMap (fun e => if e.1 ∈ acc then some e.2 else none)).filter
    (fun v => v ∉ acc)).dedup

/-- Nodes reachable from `u` in at most `k` steps along `adj`. -/
def ball (adj : List (Nat × Nat)) (u : Nat) : Nat → List Nat
  | 0 => [u]
  | k + 1 => adjStep adj (ball adj u k)

/-- Reachability along a directed adjacency list. -/
inductive ReachL (adj : List (Nat × Nat)) (u : Nat) : Nat → Prop
  | refl : ReachL adj u u
  | step {v w : Nat} : ReachL adj u v → (v, w) ∈ adj → ReachL adj u w

/-- The set of nodes reachable from `s` in `G`
(the keys of `nx.single_source_shortest_path_length(G, s)`). -/
def reachable (G : Graph) (s : Nat) : List Nat :=
  ball G.adj s G.adj.length

theorem mem_adjStep_iff {adj : List (Nat × Nat)} {acc : List Nat} {v : Nat} :
    v ∈ adjStep adj acc ↔ v ∈ acc ∨ ∃ w, w ∈ acc ∧ (w, v) ∈ adj := by
  unfold adjStep
  simp only [List.mem_append, List.mem_dedup, List.mem_filter, List.mem_filterMap]
  constructor
  · rintro (h | ⟨⟨⟨w, t⟩, hmem, hif⟩, -⟩)
    · exact Or.inl h
    · by_cases hw : w ∈ acc
      · simp only [hw, if_pos] at hif
        exact Or.inr ⟨w, hw, by simpa [← Option.some_inj.mp hif] using hmem⟩
      · simp [hw] at hif
  · rintro (h | ⟨w, hw, hadj⟩)
    · exact Or.inl h
    · by_cases hv : v ∈ acc
      · exact Or.inl hv
      · refine Or.inr ⟨⟨⟨w, v⟩, hadj, ?_⟩, by simpa using hv⟩
        simp [hw]

theorem adjStep_sub {adj : List (Nat × Nat)} {acc : List Nat} : acc ⊆ adjStep adj acc := by
  intro v hv; exact mem_adjStep_iff.mpr (Or.inl hv)

theorem ball_mono_succ {adj : List (Nat × Nat)} {u : Nat} (k : Nat) :
    ball adj u k ⊆ ball adj u (k + 1) := by
  simpa [ball] using @adjStep_sub adj (ball adj u k)

theorem mem_ball_self {adj : List (Nat × Nat)} {u : Nat} (k : Nat) : u ∈ ball adj u k := by
  induction k with
  | zero => simp [ball]
  | succ k ih => exact ball_mono_succ k ih

theorem mem_ball_succ_iff {adj : List (Nat × Nat)} {u v : Nat} {k : Nat} :
    v ∈ ball adj u (k + 1) ↔ v ∈ ball adj u k ∨ ∃ w, w ∈ ball adj u k ∧ (w, v) ∈ adj := by
  simp [ball, mem_adjStep_iff]

theorem reachL_of_mem_ball {adj : List (Nat × Nat)} {u v : Nat} :
    ∀ {k : Nat}, v ∈ ball adj u k → ReachL adj u v := by
  intro k
  induction k generalizing v with
  | zero => intro h; simp [ball] at h; subst h; exact ReachL.refl
  | succ k ih =>
    intro h
    rcases mem_ball_succ_iff.mp h with h | ⟨w, hw, hadj⟩
    · exact ih h
    · exact ReachL.step (ih hw) hadj

theorem adjStep_closed {adj : List (Nat × Nat)} {acc : List Nat}
    (h : adjStep adj acc = acc) {w v : Nat} (hw : w ∈ acc) (hadj : (w, v) ∈ adj) : v ∈ acc := by
  have : v ∈ adjStep adj acc := mem_adjStep_iff.mpr (Or.inr ⟨w, hw, hadj⟩)
  rwa [h] at this

theorem ball_nodup {adj : List (Nat × Nat)} {u : Nat} : ∀ k, (ball adj u k).Nodup := by
  intro k
  induction k with
  | zero => simp [ball]
  | succ k ih =>
    show (adjStep adj (ball adj u k)).Nodup
    unfold adjStep
    refine List.Nodup.append ih (List.nodup_dedup _) ?_
    intro a ha hb
    simp only [List.mem_dedup, List.mem_filter] at hb
    exact absurd ha (by simpa using hb.2)

theorem ball_subset_targets {adj : List (Nat × Nat)} {u : Nat} :
    ∀ k, ball adj u k ⊆ u :: adj.map (·.2) := by
  intro k
  induction k with
  | zero => simp [ball]
  | succ k ih =>
    intro v hv
    rcases mem_ball_succ_iff.mp hv with h | ⟨w, -, hadj⟩
    · exact ih h
    · exact List.mem_cons_of_mem _ (List.mem_map.mpr ⟨(w, v), hadj, rfl⟩)

theorem ball_length_le {adj : List (Nat × Nat)} {u : Nat} (k : Nat) :
    (ball adj u k).length ≤ adj.length + 1 := by
  have h1 : (ball adj u k).toFinset.card = (ball adj u k).length :=
    List.toFinset_card_of_nodup (ball_nodup k)
  have h2 : (ball adj u k).toFinset ⊆ (u :: adj.map (·.2)).toFinset := by
    intro a ha
    rw [List.mem_toFinset] at ha ⊢
    exact ball_subset_targets k ha
  calc (ball adj u k).length = (ball adj u k).toFinset.card := h1.symm
    _ ≤ (u :: adj.map (·.2)).toFinset.card := Finset.card_le_card h2
    _ ≤ (u :: adj.map (·.2)).length := List.toFinset_card_le _
    _ = adj.length + 1 := by simp

theorem ball_stable_propagate {adj : List (Nat × Nat)} {u : Nat} {k : Nat}
    (h : ball adj u (k + 1) = ball adj u k) :
    ∀ m, k ≤ m → ball adj u m = ball adj u k := by
  have key : ∀ d, ball adj u (k + d) = ball adj u k := by
    intro d
    induction d with
    | zero => rfl
    | succ d ih =>
      show adjStep adj (ball adj u (k + d)) = ball adj u k
      rw [ih]; exact h
  intro m hm
  have hmk : m = k + (m - k) := by omega
  rw [hmk, key]

theorem ball_sublist_succ {adj : List (Nat × Nat)} {u : Nat} (k : Nat) :
    List.Sublist (ball adj u k) (ball adj u (k + 1)) := by
  show List.Sublist (ball adj u k) (adjStep adj (ball adj u k))
  unfold adjStep
  exact List.sublist_append_left _ _

theorem ball_exists_stable {adj : List (Nat × Nat)} {u : Nat} :
    ∃ k ≤ adj.length, ball adj u (k + 1) = ball adj u k := by
  by_contra hcon
  push_neg at hcon
  have grow : ∀ k, k ≤ adj.length + 1 → k + 1 ≤ (ball adj u k).length := by
    intro k
    induction k with
    | zero => intro _; simp [ball]
    | succ k ih =>
      intro hk
      have hne : ball adj u (k + 1) ≠ ball adj u k := hcon k (by omega)
      have hsubl := @ball_sublist_succ adj u k
      have hlt : (ball adj u k).length < (ball adj u (k + 1)).length := by
        rcases Nat.lt_or_ge (ball adj u k).length (ball adj u (k + 1)).length with h | h
        · exact h
        · have heq : (ball adj u k).length = (ball adj u (k + 1)).length :=
            Nat.le_antisymm hsubl.length_le h
          exact absurd (hsubl.eq_of_length heq).symm hne
      have hk1 := ih (by omega)
      omega
  have h1 := grow (adj.length + 1) (le_refl _)
  have h2 := @ball_length_le adj u (adj.length + 1)
  omega

theorem ball_total_closed {adj : List (Nat × Nat)} {u : Nat} :
    adjStep adj (ball adj u adj.length) = ball adj u adj.length := by
  obtain ⟨k, hk, hstable⟩ := @ball_exists_stable adj u
  have h1 : ball adj u adj.length = ball adj u k := ball_stable_propagate hstable _ hk
  have h2 : ball adj u (adj.length + 1) = ball adj u k :=
    ball_stable_propagate hstable _ (by omega)
  show ball adj u (adj.length + 1) = ball adj u adj.length
  rw [h1, h2]

theorem mem_ball_of_reachL {adj : List (Nat × Nat)} {u v : Nat}
    (h : ReachL adj u v) : v ∈ ball adj u adj.length := by
  induction h with
  | refl => exact mem_ball_self _
  | step hr hadj ih => exact adjStep_closed ball_total_closed ih hadj

theorem mem_reachable_iff {G : Graph} {s v : Nat} :
    v ∈ reachable G s ↔ ReachL G.adj s v :=
  ⟨reachL_of_mem_ball, mem_ball_of_reachL⟩

theorem ReachL.mono {adj adj' : List (Nat × Nat)} {u v : Nat}
    (hsub : adj ⊆ adj') (h : ReachL adj u v) : ReachL adj' u v := by
  induction h with
  | refl => exact ReachL.refl
  | step hr hadj ih => exact ReachL.step ih (hsub hadj)

theorem ReachL.trans {adj : List (Nat × Nat)} {u v w : Nat}
    (h1 : ReachL adj u v) (h2 : ReachL adj v w) : ReachL adj u w := by
  induction h2 with
  | refl => exact h1
  | step hr hadj ih => exact ReachL.step ih hadj

/-! ### The functions of `code2ast.py` -/

/-- Stable ascending sort of node ids by their `start` attribute
(`nodes.sort(key=lambda n: G.nodes[n]['start'])`). -/
def sortByStart (G : Graph) (l : List Nat) : List Nat :=
  l.insertionSort (fun a b => (G.attr a).start ≤ (G.attr b).start)

/-- `get_candidate(G, level, start)` (code2ast.py lines 36-47): among the
terminals reachable from `level` whose `start` is `< start`, the one with
the smallest `start`; `None` if there is none. -/
def get_candidate (G : Graph) (level start : Nat) : Option Nat :=
  let nodes := reachable G level
  let nodes := nodes.filter (fun n => (G.attr n).is_terminal)
  let nodes := nodes.filter (fun n => decide ((G.attr n).start < start))
  if nodes.isEmpty then none
  else (sortByStart G nodes).head?

/-- The head-search loop of `select_head`, fuelled (Python's `while True`
climbs parents; running out of fuel or of in-edges models the `IndexError`
raised when the loop escapes past the root, which never happens on valid
trees). -/
def select_headAux (G : Graph) (start : Nat) : Nat → Nat → Option Nat
  | 0, _ => none
  | fuel + 1, father =>
    match get_candidate G father start with
    | some cand => some cand
    | none =>
      match G.inEdges father with
      | [] => none
      | e :: _ => select_headAux G start fuel e.1

/-- `select_head(G, n)` (code2ast.py lines 51-57). -/
def select_head (G : Graph) (n : Nat) : Option Nat :=
  match G.inEdges n with
  | [] => none
  | e :: _ => select_headAux G (G.attr n).start (G.nodes.length + 1) e.1

/-- `get_root_dep_tree(G)` (code2ast.py lines 61-65): the terminal with
the smallest `start` (Python indexes `nodes[0]` after sorting; the empty
case, an `IndexError`, is modelled by the junk value `0`). -/
def get_root_dep_tree (G : Graph) : Nat :=
  let nodes := (G.nodes.filter (fun p => p.2.is_terminal)).map (·.1)
  (sortByStart G nodes).headD 0

/-- `get_token(code, start, end)`: the byte slice `bytes(code)[start:end]`
(we keep tokens as byte lists; the final UTF-8 decode is external and
injective on the slices produced by the parser). -/
def get_token (code : List UInt8) (start stop : Nat) : List UInt8 :=
  (code.take stop).drop start

/-- `get_tokens_dep(T, code)` (code2ast.py lines 69-71). -/
def get_tokens_dep (T : Graph) (code : List UInt8) : List (List UInt8) :=
  (sortByStart T (T.nodes.map (·.1))).map
    (fun t => get_token code (T.attr t).start (T.attr t).stop)

/-- Substring test: `pat in s` on Python strings, over the character
lists of the two strings. -/
def containsSub (pat l : List Char) : Bool :=
  (List.range (l.length + 1)).any (fun i => ((l.drop i).take pat.length) == pat)

/-- The string-node test of `solve_string_problems`:
`G.nodes[n]['type'] == 'string' or 'string_literal' in G.nodes[n]['type']`. -/
def stringTypeB (a : Attr) : Bool :=
  a.type == "string" || containsSub "string_literal".data a.type.data

/-- Mark a node as terminal (`G.nodes[n]['is_terminal'] = True`). -/
def Graph.setTerminal (G : Graph) (n : Nat) : Graph :=
  { G with nodes := G.nodes.map (fun p => if p.1 == n then (p.1, { p.2 with is_terminal := true }) else p) }

/-- The body run for one string node in `solve_string_problems`: remove
every node reachable from `n` except `n` itself, then mark `n` terminal. -/
def collapseString (g : Graph) (n : Nat) : Graph :=
  let g2 := (reachable g n).foldl (fun h v => if v ≠ n then h.remove_node v else h) g
  g2.setTerminal n

/-- The loop of `solve_string_problems` over an explicit processing list
(the Python loop body, including the `if n not in G: continue` skip). -/
def solveStringsAux (L : List Nat) (G : Graph) : Graph :=
  L.foldl (fun g n => if g.hasNode n then collapseString g n else g) G

/-- The non-terminal string nodes collected up front by
`solve_string_problems`. -/
def stringsOf (G : Graph) : List Nat :=
  (G.nodes.filter (fun p => stringTypeB p.2 && !p.2.is_terminal)).map (·.1)

/-- `solve_string_problems(G)` (code2ast.py lines 74-83). -/
def solve_string_problems (G : Graph) : Graph :=
  solveStringsAux (stringsOf G) G

/-- The primitive parse tree produced by the external tree-sitter parser:
each node exposes `type`, `start_byte`, `end_byte` and ordered children. -/
inductive PTree where
  | node (type : String) (start_byte end_byte : Nat) (children : List PTree)

def PTree.type : PTree → String
  | .node t _ _ _ => t

def PTree.start_byte : PTree → Nat
  | .node _ s _ _ => s

def PTree.end_byte : PTree → Nat
  | .node _ _ e _ => e

def PTree.children : PTree → List PTree
  | .node _ _ _ cs => cs

/-- `get_id(G)` (code2ast.py lines 10-13): `max(list(G)) + 1`, or `0` for
an empty graph. -/
def get_id (G : Graph) : Nat :=
  if G.nodes.isEmpty then 0 else (G.nodeIds.foldl max 0) + 1

mutual
/-- `get_graph_from_tree(node, G, id_father)` (code2ast.py lines 17-27). -/
def get_graph_from_tree : PTree → Graph → Nat → Graph
  | .node _ _ _ cs, G, id_father => get_graph_from_tree_list cs G id_father

/-- The `for child in node.children` loop of `get_graph_from_tree`. -/
def get_graph_from_tree_list : List PTree → Graph → Nat → Graph
  | [], G, _ => G
  | child :: rest, G, id_father =>
    let is_terminal_child := child.children.isEmpty
    let id_child := get_id G
    let G1 := G.add_node id_child
      ⟨child.type, is_terminal_child, child.start_byte, child.end_byte⟩
    let G2 := G1.add_edge id_father id_child none
    let G3 := get_graph_from_tree child G2 id_child
    get_graph_from_tree_list rest G3 id_father
end

/-- The graph-construction part of `code2ast` (code2ast.py lines 89-101,
`lang='python'` branch): comment stripping and parsing are external, so the
input here is the parser's primitive tree. -/
def code2ast_build (root : PTree) : Graph :=
  let G : Graph := ⟨[], []⟩
  let G := G.add_node 0 ⟨root.type, false, root.start_byte, root.end_byte⟩
  get_graph_from_tree root G 0

/-- `code2ast` after the final `solve_string_problems(G)` (line 182). -/
def code2ast (root : PTree) : Graph :=
  solve_string_problems (code2ast_build root)

/-- The list `[n for n in list(G.nodes) if root != n and G.nodes[n]['is_terminal']]`
built by `enrich_ast_with_deps`: the non-root terminals in node order. -/
def depTargets (G : Graph) : List Nat :=
  (G.nodes.filter (fun p => decide (get_root_dep_tree G ≠ p.1) && p.2.is_terminal)).map
    Prod.fst

/-- The loop body of `enrich_ast_with_deps` for one non-root terminal.
(When `select_head` fails Python raises and produces no graph; that branch
is unreachable on valid trees and modelled as a skip.) -/
def enrichBody (g : Graph) (n : Nat) : Graph :=
  match select_head g n with
  | some h => g.add_edge h n (some "dependency")
  | none => g

/-- `enrich_ast_with_deps(G)` (code2ast.py lines 208-213): adds an edge
labelled `'dependency'` from the selected head to every non-root terminal. -/
def enrich_ast_with_deps (G : Graph) : Graph :=
  (depTargets G).foldl enrichBody G

/-- Python truthiness of `G[n1][n2].get("label", 'dependency')` used as
the `filter_edge` of `get_dependency_tree`: a present label is truthy iff
it is a non-empty string; an absent label defaults to the truthy string
`'dependency'`. -/
def truthyLabel : Option String → Bool
  | some s => s ≠ ""
  | none => true

/-- `get_dependency_tree(G)` (code2ast.py lines 218-221): the subgraph on
terminal nodes with the (always-truthy in practice) edge filter. -/
def get_dependency_tree (G : Graph) : Graph :=
  { nodes := G.nodes.filter (fun p => p.2.is_terminal),
    edges := G.edges.filter (fun e =>
      (G.attr e.1).is_terminal && (G.attr e.2.1).is_terminal && truthyLabel e.2.2) }

/-- The symmetrised adjacency of `nx.Graph(T)`. -/
def symAdj (T : Graph) : List (Nat × Nat) :=
  T.adj ++ T.adj.map (fun e => (e.2, e.1))

/-- Breadth-first hop distance along an adjacency list: the least `k` with
`v ∈ ball adj u k`, none if `v` is unreachable within the stabilised
radius (i.e. unreachable). -/
def bdist (adj : List (Nat × Nat)) (u v : Nat) : Option Nat :=
  (List.range (adj.length + 1)).find? (fun k => (ball adj u k).contains v)

/-- One entry of `nx.floyd_warshall_numpy(nx.Graph(T), ...)`: the undirected
shortest-path length; the unreachable case (`inf` in numpy) is modelled by
a value larger than any realisable distance. -/
def floyd_entry (T : Graph) (u v : Nat) : Nat :=
  match bdist (symAdj T) u v with
  | some k => k
  | none => 2 * T.edges.length + 2

/-- `get_matrix_and_tokens_dep(T, code)` (code2ast.py lines 225-229). -/
def get_matrix_and_tokens_dep (T : Graph) (code : List UInt8) :
    List (List Nat) × List (List UInt8) :=
  let ns := sortByStart T (T.nodes.map (·.1))
  (ns.map (fun i => ns.map (fun j => floyd_entry T i j)), get_tokens_dep T code)

/-- Undirected weighted graphs (`nx.Graph` with `weight` edge attributes)
as used by `get_tree_from_distances` / `minimum_spanning_tree` /
`get_uas`; nodes carry the `type` attribute (a token). -/
structure UGraph where
  nodes : List (Nat × List UInt8)
  edges : List (Nat × Nat × Nat)
deriving DecidableEq, Repr

/-- `g.add_edge(i, j, weight=w)` on an undirected graph: the edge is keyed
by the unordered pair (canonicalised as `(min, max)`); an existing edge's
weight is overwritten in place. -/
def UGraph.uadd_edge (g : UGraph) (i j w : Nat) : UGraph :=
  let u := min i j
  let v := max i j
  if g.edges.any (fun e => e.1 == u && e.2.1 == v) then
    { g with edges := g.edges.map (fun e => if e.1 == u && e.2.1 == v then (u, v, w) else e) }
  else
    { g with edges := g.edges ++ [(u, v, w)] }

/-- Both orientations of an undirected edge list. -/
def usym (es : List (Nat × Nat × Nat)) : List (Nat × Nat) :=
  es.map (fun e => (e.1, e.2.1)) ++ es.map (fun e => (e.2.1, e.1))

/-- Undirected connectivity over an edge list (the union-find test inside
Kruskal's algorithm, behaviourally). -/
def uconnected (es : List (Nat × Nat × Nat)) (u v : Nat) : Bool :=
  (ball (usym es) u (usym es).length).contains v

/-- Stable sort of edges by weight (`sorted(G.edges(data=True), key=weight)`
inside networkx's Kruskal implementation). -/
def sortEdgesByWeight (es : List (Nat × Nat × Nat)) : List (Nat × Nat × Nat) :=
  es.insertionSort (fun a b => a.2.2 ≤ b.2.2)

/-- `nx.minimum_spanning_tree` (default Kruskal): scan edges by ascending
weight, keeping an edge iff its endpoints are not yet connected. -/
def minimum_spanning_tree (g : UGraph) : UGraph :=
  { nodes := g.nodes,
    edges := (sortEdgesByWeight g.edges).foldl
      (fun acc e => if uconnected acc e.1 e.2.1 then acc else acc ++ [e]) [] }

/-- Entry `distances[i][j]` (out-of-range never occurs on the square
matrices this is applied to). -/
def dmat (d : List (List Nat)) (i j : Nat) : Nat := (d.getD i []).getD j 0

/-- `get_tree_from_distances(distances, tokens)` (code2ast.py lines
292-300): complete weighted graph on the token indices, then its minimum
spanning tree. -/
def get_tree_from_distances (distances : List (List Nat)) (tokens : List (List UInt8)) :
    UGraph :=
  let G0 : UGraph := ⟨tokens.enum, []⟩
  let n := tokens.length
  let G1 := (List.range n).foldl (fun g i =>
    (List.range n).foldl (fun g j => g.uadd_edge i j (dmat distances i j)) g) G0
  minimum_spanning_tree G1

/-- `T.has_edge(s, t)` on an undirected graph: unordered membership. -/
def UGraph.has_edge (T : UGraph) (u v : Nat) : Bool :=
  T.edges.any (fun e => (e.1 == u && e.2.1 == v) || (e.1 == v && e.2.1 == u))

/-- `get_uas(T_true, T_pred)` (code2ast.py lines 304-313).  `none` models
the two `assert` failures (node/edge count mismatch) and the
`ZeroDivisionError` on zero predicted edges; otherwise the fraction of
predicted edges present in the true tree. -/
def get_uas (T_true T_pred : UGraph) : Option ℚ :=
  if T_true.nodes.length = T_pred.nodes.length ∧ T_true.edges.length = T_pred.edges.length then
    let count := (T_pred.edges.filter (fun e => T_true.has_edge e.1 e.2.1)).length
    let i := T_pred.edges.length
    if i = 0 then none
    else some ((count : ℚ) / (i : ℚ))
  else none

/-- `get_spear(d_true, d_pred)` (code2ast.py lines 317-319).  `corr`
models the external `scipy.stats.spearmanr(..).correlation` (`none` for
the NaN of a constant row); the function just zips the two matrices
row-wise and maps the correlation over the pairs. -/
def get_spear (corr : List ℚ → List ℚ → Option ℚ) (d_true d_pred : List (List ℚ)) :
    List (Option ℚ) :=
  (d_true.zip d_pred).map (fun pg => corr pg.1 pg.2)

/-- `has_terminals(G, n)` (code2ast.py lines 323-327): whether `n` has a
terminal direct successor. -/
def has_terminals (G : Graph) (n : Nat) : Bool :=
  !((G.outEdges n).filter (fun e => (G.attr e.2.1).is_terminal)).isEmpty

/-- The worklist `[n for n in g if not has_terminals(g, n) and not
g.nodes[n]['is_terminal']]` recomputed by each iteration of
`remove_useless_non_terminals`. -/
def uselessList (g : Graph) : List Nat :=
  (g.nodes.filter (fun p => !has_terminals g p.1 && !p.2.is_terminal)).map (·.1)

/-- The body of the `for _, v in edges_out` loop of
`remove_useless_non_terminals`: extend the accumulated label with the
out-edge's label if present, and wire `u` to the child with it. -/
def rewireBody (u : Nat) (p : Graph × String) (eo : Nat × Nat × Option String) :
    Graph × String :=
  let lab2 := match eo.2.2 with
    | some s => p.2 ++ "-" ++ s
    | none => p.2
  (p.1.add_edge u eo.2.1 (some lab2), lab2)

/-- One iteration of the `remove_useless_non_terminals` loop body, removing
node `n`: re-wire the (first) parent edge to each child, concatenating
labels with `-` — note the Python `label` variable accumulates across the
`for _, v in edges_out` loop — then delete `n`. -/
def removeStep (g : Graph) (n : Nat) : Graph :=
  let edges_in := g.inEdges n
  let edges_out := g.outEdges n
  let label := (g.attr n).type
  let g0 :=
    match edges_in with
    | [] => g
    | (u, _, labin) :: _ =>
      let label1 := match labin with
        | some s => s ++ "-" ++ label
        | none => label
      (edges_out.foldl (rewireBody u) (g, label1)).1
  g0.remove_node n

/-- The fuelled `while` loop of `remove_useless_non_terminals`. -/
def removeLoop : Nat → Graph → Graph
  | 0, g => g
  | fuel + 1, g =>
    match uselessList g with
    | [] => g
    | n :: _ => removeLoop fuel (removeStep g n)

/-- `remove_useless_non_terminals(G)` (code2ast.py lines 330-350): each
iteration removes one node, so `len(G)` iterations always reach the
fixpoint. -/
def remove_useless_non_terminals (G : Graph) : Graph :=
  removeLoop G.nodes.length G

/-! ### The constituency graph builder (claim C10) -/

mutual
/-- The attributes recorded for a primitive node and (recursively) its
descendants, in pre-order: `is_terminal` is "has no children". -/
def preorderAttrs : PTree → List Attr
  | .node ty s e cs => ⟨ty, cs.isEmpty, s, e⟩ :: preorderAttrsList cs

/-- Pre-order attributes of a forest. -/
def preorderAttrsList : List PTree → List Attr
  | [] => []
  | c :: rest => preorderAttrs c ++ preorderAttrsList rest
end

theorem foldl_max_range' (m : Nat) :
    ∀ (s a : Nat), 0 < m → (List.range' s m).foldl max a = max a (s + m - 1) := by
  induction m with
  | zero => intro s a h; omega
  | succ m ih =>
    intro s a _
    rw [List.range'_succ, List.foldl_cons]
    rcases Nat.eq_zero_or_pos m with hm | hm
    · subst hm; simp
    · rw [ih (s + 1) (max a s) hm]
      omega

/-- `get_id` of a graph whose ids are exactly `0, …, len-1`. -/
theorem get_id_of_range {G : Graph} (h : G.nodeIds = List.range' 0 G.nodes.length) :
    get_id G = G.nodes.length := by
  unfold get_id
  rcases Nat.eq_zero_or_pos G.nodes.length with h0 | h0
  · have : G.nodes = [] := List.length_eq_zero.mp h0
    simp [this]
  · have hne : ¬ G.nodes.isEmpty = true := by
      cases hG : G.nodes with
      | nil => rw [hG] at h0; simp at h0
      | cons a l => simp [hG]
    rw [if_neg hne, h, foldl_max_range' _ _ _ h0]
    omega

theorem mem_nodeIds_of_range {G : Graph} (h : G.nodeIds = List.range' 0 G.nodes.length)
    {k : Nat} (hk : k < G.nodes.length) : G.hasNode k = true := by
  unfold Graph.hasNode
  rw [List.elem_iff, h]
  rw [List.mem_range'_1]
  omega

theorem not_mem_nodeIds_of_range {G : Graph} (h : G.nodeIds = List.range' 0 G.nodes.length) :
    G.hasNode G.nodes.length = false := by
  unfold Graph.hasNode
  rw [Bool.eq_false_iff]
  intro hc
  rw [List.elem_iff, h] at hc
  rw [List.mem_range'_1] at hc
  omega

/-- Adding a fresh node appends it. -/
theorem add_node_fresh {G : Graph} {n : Nat} {a : Attr} (h : G.hasNode n = false) :
    (G.add_node n a).nodes = G.nodes ++ [(n, a)] := by
  unfold Graph.add_node
  rw [h]
  simp

/-- `add_edge` with both endpoints present does not change the node list. -/
theorem addNodeIfAbsent_of_mem {G : Graph} {n : Nat} (h : G.hasNode n = true) :
    G.addNodeIfAbsent n = G := by
  unfold Graph.addNodeIfAbsent
  rw [h]
  simp

theorem add_edge_nodes {G : Graph} {u v : Nat} {lab : Option String}
    (hu : G.hasNode u = true) (hv : G.hasNode v = true) :
    (G.add_edge u v lab).nodes = G.nodes := by
  unfold Graph.add_edge
  rw [addNodeIfAbsent_of_mem hu, addNodeIfAbsent_of_mem hv]
  dsimp only
  split <;> rfl

theorem range'_append_zero (m n : Nat) :
    List.range' 0 m ++ List.range' m n = List.range' 0 (m + n) := by
  have h := List.range'_append 0 m n 1
  simp only [Nat.one_mul, Nat.zero_add] at h
  rw [h, Nat.add_comm]

theorem nodeIds_append (l1 l2 : List (Nat × Attr)) :
    Graph.nodeIds ⟨l1 ++ l2, []⟩ = l1.map (·.1) ++ l2.map (·.1) := by
  simp [Graph.nodeIds]

/-- `preorderAttrs` unfolded through the projections. -/
theorem preorderAttrs_eq (c : PTree) :
    preorderAttrs c =
      ⟨c.type, c.children.isEmpty, c.start_byte, c.end_byte⟩ :: preorderAttrsList c.children := by
  cases c
  rfl

theorem get_graph_from_tree_eq (t : PTree) (G : Graph) (idf : Nat) :
    get_graph_from_tree t G idf = get_graph_from_tree_list t.children G idf := by
  cases t
  rfl

theorem ids_range_append {N : List (Nat × Attr)} {L : List Attr}
    (hN : N.map Prod.fst = List.range' 0 N.length) :
    (N ++ List.enumFrom N.length L).map Prod.fst =
      List.range' 0 (N ++ List.enumFrom N.length L).length := by
  rw [List.map_append, hN, List.enumFrom_map_fst, List.length_append, List.enumFrom_length]
  exact range'_append_zero N.length L.length

mutual
/-- Effect of `get_graph_from_tree` on the node list: it appends the
pre-order enumeration of the descendants, numbered consecutively. -/
theorem ggft_nodes : ∀ (t : PTree) (G : Graph) (idf : Nat),
    G.nodeIds = List.range' 0 G.nodes.length → idf < G.nodes.length →
    (get_graph_from_tree t G idf).nodes =
      G.nodes ++ List.enumFrom G.nodes.length (preorderAttrsList t.children)
  | .node ty s e cs, G, idf, h, hf => by
    rw [get_graph_from_tree_eq]
    exact ggftList_nodes cs G idf h hf

/-- Effect of the `for child in node.children` loop on the node list. -/
theorem ggftList_nodes : ∀ (cs : List PTree) (G : Graph) (idf : Nat),
    G.nodeIds = List.range' 0 G.nodes.length → idf < G.nodes.length →
    (get_graph_from_tree_list cs G idf).nodes =
      G.nodes ++ List.enumFrom G.nodes.length (preorderAttrsList cs)
  | [], G, idf, h, hf => by
    simp [get_graph_from_tree_list, preorderAttrsList]
  | c :: rest, G, idf, h, hf => by
    rw [show get_graph_from_tree_list (c :: rest) G idf =
        get_graph_from_tree_list rest
          (get_graph_from_tree c
            ((G.add_node (get_id G)
              ⟨c.type, c.children.isEmpty, c.start_byte, c.end_byte⟩).add_edge idf (get_id G) none)
            (get_id G)) idf from rfl]
    rw [get_id_of_range h]
    have hfresh : G.hasNode G.nodes.length = false := not_mem_nodeIds_of_range h
    have h1nodes : (G.add_node G.nodes.length
        ⟨c.type, c.children.isEmpty, c.start_byte, c.end_byte⟩).nodes =
        G.nodes ++ [(G.nodes.length, ⟨c.type, c.children.isEmpty, c.start_byte, c.end_byte⟩)] :=
      add_node_fresh hfresh
    have h1shape : (G.add_node G.nodes.length
        ⟨c.type, c.children.isEmpty, c.start_byte, c.end_byte⟩).nodes =
        G.nodes ++ List.enumFrom G.nodes.length
          [(⟨c.type, c.children.isEmpty, c.start_byte, c.end_byte⟩ : Attr)] := h1nodes
    have h1ids : (G.add_node G.nodes.length
        ⟨c.type, c.children.isEmpty, c.start_byte, c.end_byte⟩).nodeIds =
        List.range' 0 (G.add_node G.nodes.length
          ⟨c.type, c.children.isEmpty, c.start_byte, c.end_byte⟩).nodes.length := by
      show (G.add_node G.nodes.length
        ⟨c.type, c.children.isEmpty, c.start_byte, c.end_byte⟩).nodes.map Prod.fst = _
      rw [h1shape]
      exact ids_range_append h
    have h1len : (G.add_node G.nodes.length
        ⟨c.type, c.children.isEmpty, c.start_byte, c.end_byte⟩).nodes.length =
        G.nodes.length + 1 := by
      rw [h1nodes]; simp
    have h2nodes : ((G.add_node G.nodes.length
        ⟨c.type, c.children.isEmpty, c.start_byte, c.end_byte⟩).add_edge
          idf G.nodes.length none).nodes =
        (G.add_node G.nodes.length
          ⟨c.type, c.children.isEmpty, c.start_byte, c.end_byte⟩).nodes := by
      refine add_edge_nodes (mem_nodeIds_of_range h1ids ?_) (mem_nodeIds_of_range h1ids ?_) <;>
        rw [h1len] <;> omega
    have h2ids : ((G.add_node G.nodes.length
        ⟨c.type, c.children.isEmpty, c.start_byte, c.end_byte⟩).add_edge
          idf G.nodes.length none).nodeIds =
        List.range' 0 ((G.add_node G.nodes.length
          ⟨c.type, c.children.isEmpty, c.start_byte, c.end_byte⟩).add_edge
            idf G.nodes.length none).nodes.length := by
      show ((G.add_node G.nodes.length
        ⟨c.type, c.children.isEmpty, c.start_byte, c.end_byte⟩).add_edge
          idf G.nodes.length none).nodes.map Prod.fst = _
      rw [h2nodes]
      exact h1ids
    have h2len : ((G.add_node G.nodes.length
        ⟨c.type, c.children.isEmpty, c.start_byte, c.end_byte⟩).add_edge
          idf G.nodes.length none).nodes.length = G.nodes.length + 1 := by
      rw [h2nodes, h1len]
    have h3 := ggft_nodes c ((G.add_node G.nodes.length
        ⟨c.type, c.children.isEmpty, c.start_byte, c.end_byte⟩).add_edge
          idf G.nodes.length none) G.nodes.length h2ids (by omega)
    rw [h2len, h2nodes, h1nodes] at h3
    have h3shape : (get_graph_from_tree c ((G.add_node G.nodes.length
        ⟨c.type, c.children.isEmpty, c.start_byte, c.end_byte⟩).add_edge
          idf G.nodes.length none) G.nodes.length).nodes =
        (G.nodes ++ [(G.nodes.length, ⟨c.type, c.children.isEmpty, c.start_byte, c.end_byte⟩)]) ++
          List.enumFrom (G.nodes ++ [(G.nodes.length,
            (⟨c.type, c.children.isEmpty, c.start_byte, c.end_byte⟩ : Attr))]).length
            (preorderAttrsList c.children) := by
      rw [h3]
      simp [List.append_assoc]
    have h3ids : (get_graph_from_tree c ((G.add_node G.nodes.length
        ⟨c.type, c.children.isEmpty, c.start_byte, c.end_byte⟩).add_edge
          idf G.nodes.length none) G.nodes.length).nodeIds =
        List.range' 0 (get_graph_from_tree c ((G.add_node G.nodes.length
          ⟨c.type, c.children.isEmpty, c.start_byte, c.end_byte⟩).add_edge
            idf G.nodes.length none) G.nodes.length).nodes.length := by
      show (get_graph_from_tree c ((G.add_node G.nodes.length
        ⟨c.type, c.children.isEmpty, c.start_byte, c.end_byte⟩).add_edge
          idf G.nodes.length none) G.nodes.length).nodes.map Prod.fst = _
      rw [h3shape]
      refine ids_range_append ?_
      rw [List.map_append]
      show G.nodeIds ++ _ = _
      rw [h, List.length_append]
      simp only [List.map_cons, List.map_nil, List.length_singleton]
      rw [List.range'_concat]
      simp
    have h3len : (get_graph_from_tree c ((G.add_node G.nodes.length
        ⟨c.type, c.children.isEmpty, c.start_byte, c.end_byte⟩).add_edge
          idf G.nodes.length none) G.nodes.length).nodes.length =
        G.nodes.length + 1 + (preorderAttrsList c.children).length := by
      rw [h3]
      simp only [List.length_append, List.enumFrom_length, List.length_singleton]
    have h4 := ggftList_nodes rest (get_graph_from_tree c ((G.add_node G.nodes.length
        ⟨c.type, c.children.isEmpty, c.start_byte, c.end_byte⟩).add_edge
          idf G.nodes.length none) G.nodes.length) idf h3ids (by rw [h3len]; omega)
    rw [h4, h3len, h3]
    rw [show preorderAttrsList (c :: rest) = preorderAttrs c ++ preorderAttrsList rest from rfl]
    rw [preorderAttrs_eq c]
    rw [List.enumFrom_append]
    simp [List.enumFrom, List.append_assoc, List.singleton_append, Nat.add_assoc,
      Nat.add_comm, Nat.add_left_comm]
end

/-- **C10, counterexample.**  The claim says every node — including the
root node 0 — has `is_terminal` equal to "the primitive node has no
children".  For a childless primitive root, the builder nevertheless
records `is_terminal = False` (the root attribute is hard-coded in
`code2ast`), refuting the claim at this input. -/
theorem c10_counterexample :
    (PTree.node "module" 0 0 []).children.isEmpty = true ∧
    ((code2ast_build (PTree.node "module" 0 0 [])).attr 0).is_terminal = false := by
  exact ⟨rfl, rfl⟩

/-- **C10, amended.**  The graph built by `code2ast` (construction part,
lines 89-101) lists the primitive tree's nodes in pre-order with
consecutive ids `0, 1, 2, …`; node `0` is the root and carries the
primitive root's `type` and byte span but always `is_terminal = false`,
while every other node records `is_terminal = (no children)` (this is what
`preorderAttrsList` says); and the next id `get_id` hands out is always
`max existing id + 1`, i.e. the node count. -/
theorem c10_code2ast_build_nodes (t : PTree) :
    (code2ast_build t).nodes =
      (0, ⟨t.type, false, t.start_byte, t.end_byte⟩) ::
        List.enumFrom 1 (preorderAttrsList t.children) ∧
    get_id (code2ast_build t) = (code2ast_build t).nodes.length := by
  have h0 : code2ast_build t =
      get_graph_from_tree t ⟨[(0, ⟨t.type, false, t.start_byte, t.end_byte⟩)], []⟩ 0 := rfl
  have hids : (Graph.mk [(0, (⟨t.type, false, t.start_byte, t.end_byte⟩ : Attr))] []).nodeIds =
      List.range' 0 (Graph.mk [(0, (⟨t.type, false, t.start_byte, t.end_byte⟩ : Attr))] []).nodes.length := by
    rfl
  have hshape := ggft_nodes t ⟨[(0, ⟨t.type, false, t.start_byte, t.end_byte⟩)], []⟩ 0 hids
    (by simp)
  rw [h0]
  constructor
  · rw [hshape]
    rfl
  · have hids2 : (get_graph_from_tree t ⟨[(0, ⟨t.type, false, t.start_byte, t.end_byte⟩)], []⟩
        0).nodeIds =
        List.range' 0 (get_graph_from_tree t ⟨[(0, ⟨t.type, false, t.start_byte, t.end_byte⟩)], []⟩
          0).nodes.length := by
      show (get_graph_from_tree t ⟨[(0, ⟨t.type, false, t.start_byte, t.end_byte⟩)], []⟩
        0).nodes.map Prod.fst = _
      rw [hshape]
      exact ids_range_append (by rfl)
    exact get_id_of_range hids2

/-! ### The comparator (claims C4 and C5) -/

/-- **C4, counterexample.**  The claim asserts `get_uas(T, T) == 1.0` for
*every* tree, but on a tree with a single node (hence zero edges) the
division `float(count)/float(i)` raises `ZeroDivisionError`: no score — in
particular not `1.0` — is produced. -/
theorem c4_counterexample :
    get_uas ⟨[(0, [97])], []⟩ ⟨[(0, [97])], []⟩ = none := by
  rfl

/-- **C4, amended.**  For every tree with at least one edge, comparing it
against itself yields exactly `1.0`; and in general, on aligned inputs with
at least one predicted edge, the score is the number of predicted edges
present (as an unordered pair, via `has_edge`) in the true tree divided by
the total number of predicted edges. -/
theorem c4_uas_self_and_formula (T_true T_pred : UGraph)
    (hn : T_true.nodes.length = T_pred.nodes.length)
    (he : T_true.edges.length = T_pred.edges.length)
    (hne : T_pred.edges ≠ []) :
    get_uas T_pred T_pred = some 1 ∧
    get_uas T_true T_pred =
      some (((T_pred.edges.filter (fun e => T_true.has_edge e.1 e.2.1)).length : ℚ) /
        (T_pred.edges.length : ℚ)) := by
  have hlen : T_pred.edges.length ≠ 0 := by
    intro h0
    exact hne (List.length_eq_zero.mp h0)
  constructor
  · unfold get_uas
    rw [if_pos ⟨rfl, rfl⟩, if_neg hlen]
    have hall : T_pred.edges.filter (fun e => T_pred.has_edge e.1 e.2.1) = T_pred.edges := by
      apply List.filter_eq_self.mpr
      intro e he2
      unfold UGraph.has_edge
      apply List.any_eq_true.mpr
      exact ⟨e, he2, by simp⟩
    rw [hall]
    rw [div_self (by exact_mod_cast hlen)]
  · unfold get_uas
    rw [if_pos ⟨hn, he⟩, if_neg hlen]

/-- **C5, counterexample.**  The claim asserts that a Spearman comparison
of matrices of different sizes is aborted with no partial score, and that
`get_spear` never returns fewer coefficients than the larger input.  In
fact `zip` silently truncates: on a 2-row "true" matrix and a 1-row
"predicted" matrix, `get_spear` returns a 1-element partial result. -/
theorem c5_counterexample :
    (get_spear (fun _ _ => some 0) [[(0 : ℚ)], [0]] [[0]]).length = 1 ∧
    1 < ([[(0 : ℚ)], [0]] : List (List ℚ)).length := by
  exact ⟨rfl, by decide⟩

/-- **C5, amended.**  `get_uas` does abort (assertion failure, no score)
when node counts or edge counts differ; `get_spear`, however, performs no
size check at all: it zips the two matrices, so it always returns exactly
`min(len(d_true), len(d_pred))` coefficients — a partial result when the
sizes differ, regardless of the row-correlation function. -/
theorem c5_uas_aborts_spear_truncates :
    (∀ T_true T_pred : UGraph, T_true.nodes.length ≠ T_pred.nodes.length →
      get_uas T_true T_pred = none) ∧
    (∀ T_true T_pred : UGraph, T_true.edges.length ≠ T_pred.edges.length →
      get_uas T_true T_pred = none) ∧
    (∀ (corr : List ℚ → List ℚ → Option ℚ) (d_true d_pred : List (List ℚ)),
      (get_spear corr d_true d_pred).length = min d_true.length d_pred.length) := by
  refine ⟨?_, ?_, ?_⟩
  · intro T_true T_pred hne
    unfold get_uas
    rw [if_neg (fun hc => hne hc.1)]
  · intro T_true T_pred hne
    unfold get_uas
    rw [if_neg (fun hc => hne hc.2)]
  · intro corr d_true d_pred
    unfold get_spear
    rw [List.length_map, List.length_zip]

/-- **C5 witness**: the amended behaviour at concrete inputs. -/
theorem c5_uas_aborts_spear_truncates_witness :
    get_uas ⟨[(0, [97])], []⟩ ⟨[], []⟩ = none ∧
    (get_spear (fun _ _ => some 0) [[(0 : ℚ)], [0]] [[0]]).length = min 2 1 :=
  ⟨c5_uas_aborts_spear_truncates.1 ⟨[(0, [97])], []⟩ ⟨[], []⟩ (by decide),
   c5_uas_aborts_spear_truncates.2.2 (fun _ _ => some 0) [[(0 : ℚ)], [0]] [[0]]⟩

/-- **C4 witness**: the amended claim at a one-edge tree. -/
theorem c4_uas_self_and_formula_witness :
    ((⟨[(0, [97]), (1, [98])], [(0, 1, 1)]⟩ : UGraph).edges ≠ [] ∧
      get_uas ⟨[(0, [97]), (1, [98])], [(0, 1, 1)]⟩
        ⟨[(0, [97]), (1, [98])], [(0, 1, 1)]⟩ = some 1) := by
  refine ⟨by decide, ?_⟩
  exact (c4_uas_self_and_formula ⟨[(0, [97]), (1, [98])], [(0, 1, 1)]⟩
    ⟨[(0, [97]), (1, [98])], [(0, 1, 1)]⟩ rfl rfl (by decide)).1

/-! ### Helper lemmas about graph primitives -/

theorem find?_filter_of_imp {α : Type} (l : List α) (p q : α → Bool)
    (h : ∀ a, p a = true → q a = true) :
    (l.filter q).find? p = l.find? p := by
  induction l with
  | nil => rfl
  | cons a l ih =>
    cases hq : q a with
    | true =>
      rw [List.filter_cons_of_pos hq]
      cases hp : p a with
      | true => rw [List.find?_cons_of_pos _ hp, List.find?_cons_of_pos _ hp]
      | false => rw [List.find?_cons_of_neg _ (by simp [hp]), List.find?_cons_of_neg _ (by simp [hp]), ih]
    | false =>
      rw [List.filter_cons_of_neg (by simp [hq])]
      cases hp : p a with
      | true => exact absurd (h a hp) (by simp [hq])
      | false => rw [List.find?_cons_of_neg _ (by simp [hp]), ih]

theorem map_fst_filter_key (l : List (Nat × Attr)) (p : Nat → Bool) :
    (l.filter (fun q => p q.1)).map Prod.fst = (l.map Prod.fst).filter p := by
  induction l with
  | nil => rfl
  | cons a l ih =>
    by_cases hp : p a.1 = true
    · simp [List.filter_cons, hp, ih]
    · simp [List.filter_cons, hp, ih]

/-- Removing a different node does not change an attribute lookup. -/
theorem attr_remove_node {g : Graph} {n t : Nat} (h : t ≠ n) :
    (g.remove_node n).attr t = g.attr t := by
  unfold Graph.attr Graph.remove_node
  rw [find?_filter_of_imp]
  intro p hp
  have : p.1 = t := by simpa using hp
  simp [this, h]

/-- Node ids after `remove_node`. -/
theorem nodeIds_remove_node (g : Graph) (n : Nat) :
    (g.remove_node n).nodeIds = g.nodeIds.filter (fun m => !(m == n)) := by
  unfold Graph.nodeIds Graph.remove_node
  exact map_fst_filter_key g.nodes (fun m => !(m == n))

/-- Membership in `nodeIds` after `remove_node`. -/
theorem mem_nodeIds_remove_node {g : Graph} {n m : Nat} :
    m ∈ (g.remove_node n).nodeIds ↔ m ∈ g.nodeIds ∧ m ≠ n := by
  rw [nodeIds_remove_node, List.mem_filter]
  simp

/-- `has_terminals` unfolded to an existential over edges. -/
theorem has_terminals_iff {g : Graph} {m : Nat} :
    has_terminals g m = true ↔
      ∃ e ∈ g.edges, e.1 = m ∧ (g.attr e.2.1).is_terminal = true := by
  have hmem : ∀ e, e ∈ (g.edges.filter (fun e => e.1 == m)).filter
      (fun e => (g.attr e.2.1).is_terminal) ↔
      e ∈ g.edges ∧ e.1 = m ∧ (g.attr e.2.1).is_terminal = true := by
    intro e
    rw [List.mem_filter, List.mem_filter]
    constructor
    · rintro ⟨⟨h1, h2⟩, h3⟩
      exact ⟨h1, by simpa using h2, h3⟩
    · rintro ⟨h1, h2, h3⟩
      exact ⟨⟨h1, by simp [h2]⟩, h3⟩
  show (!((g.outEdges m).filter (fun e => (g.attr e.2.1).is_terminal)).isEmpty) = true ↔ _
  rw [show (g.outEdges m) = g.edges.filter (fun e => e.1 == m) from rfl]
  constructor
  · intro h
    have hne : (g.edges.filter (fun e => e.1 == m)).filter
        (fun e => (g.attr e.2.1).is_terminal) ≠ [] := by
      simpa using h
    rcases List.exists_mem_of_ne_nil _ hne with ⟨e, he⟩
    rcases (hmem e).mp he with ⟨h1, h2, h3⟩
    exact ⟨e, h1, h2, h3⟩
  · rintro ⟨e, he, h1, h2⟩
    have : e ∈ (g.edges.filter (fun e => e.1 == m)).filter
        (fun e => (g.attr e.2.1).is_terminal) := (hmem e).mpr ⟨he, h1, h2⟩
    simpa using List.ne_nil_of_mem this

/-- Membership in `uselessList`. -/
theorem mem_uselessList_iff {g : Graph} {n : Nat} :
    n ∈ uselessList g ↔
      ∃ a, (n, a) ∈ g.nodes ∧ has_terminals g n = false ∧ a.is_terminal = false := by
  unfold uselessList
  rw [List.mem_map]
  constructor
  · rintro ⟨p, hp, rfl⟩
    rw [List.mem_filter] at hp
    have h2 := hp.2
    simp only [Bool.and_eq_true, Bool.not_eq_true'] at h2
    exact ⟨p.2, hp.1, h2.1, h2.2⟩
  · rintro ⟨a, ha, h1, h2⟩
    refine ⟨(n, a), ?_, rfl⟩
    rw [List.mem_filter]
    refine ⟨ha, ?_⟩
    simp only [Bool.and_eq_true, Bool.not_eq_true']
    exact ⟨h1, h2⟩

/-! ### Claims C3 and C8: `remove_useless_non_terminals` -/

/-- Edge pairs of `add_edge`: every edge of the result is an old edge (up
to its label) or the added pair. -/
theorem add_edge_pair_sub {g : Graph} {u v a b : Nat} {lab l1 : Option String}
    (h : (a, b, l1) ∈ (g.add_edge u v lab).edges) :
    (∃ l2, (a, b, l2) ∈ g.edges) ∨ (a = u ∧ b = v) := by
  unfold Graph.add_edge at h
  dsimp only at h
  have hedges : ((g.addNodeIfAbsent u).addNodeIfAbsent v).edges = g.edges := by
    unfold Graph.addNodeIfAbsent
    split <;> split <;> rfl
  rw [hedges] at h
  split at h
  · rcases List.mem_map.mp h with ⟨e, he, heq⟩
    by_cases hc : (e.1 == u && e.2.1 == v) = true
    · rw [if_pos hc] at heq
      right
      injection heq with h1 h2
      injection h2 with h2 h3
      exact ⟨h1.symm, h2.symm⟩
    · rw [if_neg hc] at heq
      subst heq
      exact Or.inl ⟨l1, he⟩
  · simp only [List.mem_append, List.mem_singleton] at h
    rcases h with h | h
    · exact Or.inl ⟨l1, h⟩
    · right
      injection h with h1 h2
      injection h2 with h2 h3
      exact ⟨h1, h2⟩

/-- Edge pairs of `add_edge`: every old pair survives (up to its label). -/
theorem add_edge_pair_super {g : Graph} {u v a b : Nat} {lab l2 : Option String}
    (h : (a, b, l2) ∈ g.edges) :
    ∃ l3, (a, b, l3) ∈ (g.add_edge u v lab).edges := by
  unfold Graph.add_edge
  dsimp only
  have hedges : ((g.addNodeIfAbsent u).addNodeIfAbsent v).edges = g.edges := by
    unfold Graph.addNodeIfAbsent
    split <;> split <;> rfl
  rw [hedges]
  split
  · by_cases hc : (a == u && b == v) = true
    · refine ⟨lab, ?_⟩
      apply List.mem_map.mpr
      refine ⟨(a, b, l2), h, ?_⟩
      have hc2 := hc
      simp only [Bool.and_eq_true, beq_iff_eq] at hc2
      simp [hc, hc2.1, hc2.2]
    · refine ⟨l2, ?_⟩
      apply List.mem_map.mpr
      refine ⟨(a, b, l2), h, ?_⟩
      simp only [if_neg hc]
  · exact ⟨l2, List.mem_append_left _ h⟩

/-- The rewiring fold keeps the node list unchanged when the parent is a
node of the graph and every out-edge target is. -/
theorem rewireFold_nodes (u : Nat) :
    ∀ (l : List (Nat × Nat × Option String)) (g' : Graph) (s : String),
    g'.hasNode u = true → (∀ e ∈ l, g'.hasNode e.2.1 = true) →
    ((l.foldl (rewireBody u) (g', s)).1).nodes = g'.nodes
  | [], g', s, _, _ => rfl
  | e :: rest, g', s, hu, hl => by
    rw [List.foldl_cons]
    have hnodes : (rewireBody u (g', s) e).1.nodes = g'.nodes :=
      add_edge_nodes hu (hl e (List.mem_cons_self _ _))
    have hhasNode : ∀ m, (rewireBody u (g', s) e).1.hasNode m = g'.hasNode m := by
      intro m
      unfold Graph.hasNode Graph.nodeIds
      rw [hnodes]
    have := rewireFold_nodes u rest (rewireBody u (g', s) e).1 (rewireBody u (g', s) e).2
      (by rw [hhasNode]; exact hu)
      (fun e2 he2 => by rw [hhasNode]; exact hl e2 (List.mem_cons_of_mem _ he2))
    rw [show rest.foldl (rewireBody u) (rewireBody u (g', s) e) =
        rest.foldl (rewireBody u) ((rewireBody u (g', s) e).1, (rewireBody u (g', s) e).2)
      from rfl] at this
    rw [this, hnodes]

/-- Edge pairs produced by the rewiring fold: old pairs or `u`-to-target
pairs. -/
theorem rewireFold_pair_sub (u : Nat) :
    ∀ (l : List (Nat × Nat × Option String)) (g' : Graph) (s : String)
      {a b : Nat} {l1 : Option String},
    (a, b, l1) ∈ ((l.foldl (rewireBody u) (g', s)).1).edges →
    (∃ l2, (a, b, l2) ∈ g'.edges) ∨ (a = u ∧ ∃ e ∈ l, b = e.2.1)
  | [], g', s, a, b, l1, h => Or.inl ⟨l1, h⟩
  | e :: rest, g', s, a, b, l1, h => by
    rw [List.foldl_cons] at h
    rcases rewireFold_pair_sub u rest (rewireBody u (g', s) e).1 (rewireBody u (g', s) e).2
      (by exact h) with h2 | ⟨h2, e2, he2, hb⟩
    · rcases h2 with ⟨l2, h2⟩
      rcases add_edge_pair_sub h2 with h3 | ⟨h3, h4⟩
      · exact Or.inl h3
      · exact Or.inr ⟨h3, e, List.mem_cons_self _ _, h4⟩
    · exact Or.inr ⟨h2, e2, List.mem_cons_of_mem _ he2, hb⟩

/-- Edge pairs preserved by the rewiring fold. -/
theorem rewireFold_pair_super (u : Nat) :
    ∀ (l : List (Nat × Nat × Option String)) (g' : Graph) (s : String)
      {a b : Nat} {l2 : Option String},
    (a, b, l2) ∈ g'.edges →
    ∃ l3, (a, b, l3) ∈ ((l.foldl (rewireBody u) (g', s)).1).edges
  | [], g', s, a, b, l2, h => ⟨l2, h⟩
  | e :: rest, g', s, a, b, l2, h => by
    rw [List.foldl_cons]
    rcases @add_edge_pair_super g' u e.2.1 a b
      (some (match e.2.2 with | some s2 => s ++ "-" ++ s2 | none => s)) l2 h with ⟨l3, h3⟩
    exact rewireFold_pair_super u rest (rewireBody u (g', s) e).1 (rewireBody u (g', s) e).2 h3

theorem hasNode_iff {g : Graph} {m : Nat} : g.hasNode m = true ↔ m ∈ g.nodeIds :=
  List.elem_iff

theorem attr_congr_nodes {g1 g2 : Graph} (h : g1.nodes = g2.nodes) (t : Nat) :
    g1.attr t = g2.attr t := by
  unfold Graph.attr
  rw [h]

/-- Edge membership after `remove_node`. -/
theorem mem_edges_remove_node {g : Graph} {n : Nat} {e : Nat × Nat × Option String} :
    e ∈ (g.remove_node n).edges ↔ e ∈ g.edges ∧ e.1 ≠ n ∧ e.2.1 ≠ n := by
  unfold Graph.remove_node
  rw [List.mem_filter]
  simp

theorem removeStep_nodes {g : Graph} {n : Nat}
    (hc : ∀ e ∈ g.edges, g.hasNode e.1 = true ∧ g.hasNode e.2.1 = true) :
    (removeStep g n).nodes = g.nodes.filter (fun p => !(p.1 == n)) := by
  unfold removeStep
  dsimp only
  rcases hin : g.inEdges n with _ | ⟨⟨u, m, labin⟩, rest⟩
  · rfl
  · have humem : (u, m, labin) ∈ g.edges :=
      List.mem_of_mem_filter (by rw [show g.edges.filter (fun e => e.2.1 == n) = g.inEdges n from rfl, hin]; exact List.mem_cons_self _ _)
    have hu : g.hasNode u = true := (hc _ humem).1
    have htars : ∀ e ∈ g.outEdges n, g.hasNode e.2.1 = true := fun e he =>
      (hc e (List.mem_of_mem_filter he)).2
    have hfold : ∀ s : String,
        (((g.outEdges n).foldl (rewireBody u) (g, s)).1).nodes = g.nodes := fun s =>
      rewireFold_nodes u (g.outEdges n) g s hu htars
    unfold Graph.remove_node
    rw [hfold]

theorem removeStep_pair_sub {g : Graph} {n a b : Nat} {l1 : Option String}
    (h : (a, b, l1) ∈ (removeStep g n).edges) :
    a ≠ n ∧ b ≠ n ∧ ((∃ l2, (a, b, l2) ∈ g.edges) ∨
      ((∃ li, (a, n, li) ∈ g.edges) ∧ ∃ lo, (n, b, lo) ∈ g.edges)) := by
  unfold removeStep at h
  dsimp only at h
  rcases hin : g.inEdges n with _ | ⟨⟨u, m, labin⟩, rest⟩ <;> rw [hin] at h
  · rcases mem_edges_remove_node.mp h with ⟨hmem, ha, hb⟩
    exact ⟨ha, hb, Or.inl ⟨l1, hmem⟩⟩
  · rcases mem_edges_remove_node.mp h with ⟨hmem, ha, hb⟩
    refine ⟨ha, hb, ?_⟩
    have huedge : (u, m, labin) ∈ g.inEdges n := by
      rw [hin]; exact List.mem_cons_self _ _
    have humem : (u, m, labin) ∈ g.edges := List.mem_of_mem_filter huedge
    have hmn : m = n := by
      have := (List.mem_filter.mp huedge).2
      simpa using this
    rcases rewireFold_pair_sub u (g.outEdges n) g _ hmem with h2 | ⟨h2, e2, he2, hb2⟩
    · exact Or.inl h2
    · right
      constructor
      · subst h2
        exact ⟨labin, by rw [← hmn]; exact humem⟩
      · have he2' : e2 ∈ g.edges := List.mem_of_mem_filter he2
        have he2n : e2.1 = n := by
          have := (List.mem_filter.mp he2).2
          simpa using this
        refine ⟨e2.2.2, ?_⟩
        have he2eq : e2 = (n, b, e2.2.2) := by
          rcases e2 with ⟨x, y, z⟩
          simp only at he2n hb2
          rw [he2n, hb2]
        rw [← he2eq]
        exact he2'

theorem removeStep_pair_super {g : Graph} {n a b : Nat} {l2 : Option String}
    (h : (a, b, l2) ∈ g.edges) (ha : a ≠ n) (hb : b ≠ n) :
    ∃ l3, (a, b, l3) ∈ (removeStep g n).edges := by
  unfold removeStep
  dsimp only
  rcases hin : g.inEdges n with _ | ⟨⟨u, m, labin⟩, rest⟩
  · exact ⟨l2, mem_edges_remove_node.mpr ⟨h, ha, hb⟩⟩
  · clear hin
    rcases rewireFold_pair_super u (g.outEdges n) g
      (match labin with
        | some s2 => s2 ++ "-" ++ (g.attr n).type
        | none => (g.attr n).type)
      h with ⟨l3, h3⟩
    exact ⟨l3, mem_edges_remove_node.mpr ⟨h3, ha, hb⟩⟩

theorem removeStep_attr {g : Graph} {n t : Nat} (ht : t ≠ n)
    (hc : ∀ e ∈ g.edges, g.hasNode e.1 = true ∧ g.hasNode e.2.1 = true) :
    (removeStep g n).attr t = g.attr t := by
  have h1 : (removeStep g n).nodes = g.nodes.filter (fun p => !(p.1 == n)) :=
    removeStep_nodes hc
  have h2 : (removeStep g n).nodes = (g.remove_node n).nodes := by
    rw [h1]; rfl
  rw [attr_congr_nodes h2 t, attr_remove_node ht]

theorem find?_key_of_mem_nodup :
    ∀ {l : List (Nat × Attr)} {m : Nat} {a : Attr},
    (l.map Prod.fst).Nodup → (m, a) ∈ l →
    l.find? (fun p => p.1 == m) = some (m, a)
  | [], m, a, _, h => absurd h (List.not_mem_nil _)
  | p :: l, m, a, hnd, h => by
    rcases List.mem_cons.mp h with heq | hmem
    · rw [← heq]
      rw [List.find?_cons_of_pos _ (by simp)]
    · have hp : ¬ p.1 = m := by
        intro hc
        have h1 : m ∈ l.map Prod.fst := List.mem_map.mpr ⟨(m, a), hmem, rfl⟩
        rw [List.map_cons] at hnd
        have := (List.nodup_cons.mp hnd).1
        rw [hc] at this
        exact this h1
      rw [List.find?_cons_of_neg _ (by simpa using hp)]
      have hnd2 : (l.map Prod.fst).Nodup := by
        rw [List.map_cons] at hnd
        exact (List.nodup_cons.mp hnd).2
      exact find?_key_of_mem_nodup hnd2 hmem

/-- Association lookup in a graph with duplicate-free node ids. -/
theorem attr_of_mem_nodup {g : Graph} {m : Nat} {a : Attr}
    (hG : g.nodeIds.Nodup) (h : (m, a) ∈ g.nodes) : g.attr m = a := by
  unfold Graph.attr
  rw [find?_key_of_mem_nodup hG h]

theorem exists_attr_of_mem_nodeIds {g : Graph} {m : Nat} (h : m ∈ g.nodeIds) :
    ∃ a, (m, a) ∈ g.nodes := by
  rcases List.mem_map.mp h with ⟨p, hp, rfl⟩
  exact ⟨p.2, hp⟩

/-- Loop invariant of `remove_useless_non_terminals`, relating the working
copy `g` to the original graph `G`: the nodes of `g` are the surviving
entries of `G` in order, no node with a terminal child (or terminal node)
is ever removed, the has-a-terminal-child predicate is undisturbed on the
survivors, and `g` is edge-closed. -/
structure RemInv (G g : Graph) : Prop where
  nodes_eq : g.nodes = G.nodes.filter (fun p => decide (p.1 ∈ g.nodeIds))
  keep_good : ∀ p ∈ G.nodes, (p.2.is_terminal || has_terminals G p.1) = true → p.1 ∈ g.nodeIds
  htc_eq : ∀ m ∈ g.nodeIds, has_terminals g m = has_terminals G m
  closed : ∀ e ∈ g.edges, e.1 ∈ g.nodeIds ∧ e.2.1 ∈ g.nodeIds

theorem RemInv.sub_nodes {G g : Graph} (inv : RemInv G g) {p : Nat × Attr}
    (h : p ∈ g.nodes) : p ∈ G.nodes := by
  rw [inv.nodes_eq] at h
  exact List.mem_of_mem_filter h

theorem RemInv.ids_eq {G g : Graph} (inv : RemInv G g) :
    g.nodeIds = G.nodeIds.filter (fun m => decide (m ∈ g.nodeIds)) := by
  show g.nodes.map Prod.fst = _
  rw [inv.nodes_eq]
  exact map_fst_filter_key G.nodes (fun m => decide (m ∈ g.nodeIds))

theorem RemInv.ids_nodup {G g : Graph} (inv : RemInv G g) (hG : G.nodeIds.Nodup) :
    g.nodeIds.Nodup := by
  rw [inv.ids_eq]
  exact List.Nodup.filter _ hG

theorem RemInv.attr_keep {G g : Graph} (inv : RemInv G g) {m : Nat} (h : m ∈ g.nodeIds) :
    g.attr m = G.attr m := by
  show (match g.nodes.find? (fun p => p.1 == m) with
        | some p => p.2 | none => default) = G.attr m
  rw [inv.nodes_eq]
  rw [find?_filter_of_imp]
  · rfl
  · intro a ha
    have : a.1 = m := by simpa using ha
    rw [this]
    simpa using h

/-- The key step: removing the first worklist node preserves the
invariant and strictly shrinks the graph. -/
theorem RemInv.step {G g : Graph} (hG : G.nodeIds.Nodup) (inv : RemInv G g) {n : Nat}
    (hn : n ∈ uselessList g) :
    RemInv G (removeStep g n) ∧ (removeStep g n).nodes.length < g.nodes.length := by
  obtain ⟨a, hmem, hhtc, hterm⟩ := mem_uselessList_iff.mp hn
  have hnid : n ∈ g.nodeIds := List.mem_map.mpr ⟨(n, a), hmem, rfl⟩
  have hgnodup : g.nodeIds.Nodup := inv.ids_nodup hG
  have hattrn : g.attr n = a := attr_of_mem_nodup hgnodup hmem
  have hc : ∀ e ∈ g.edges, g.hasNode e.1 = true ∧ g.hasNode e.2.1 = true := by
    intro e he
    obtain ⟨h1, h2⟩ := inv.closed e he
    exact ⟨hasNode_iff.mpr h1, hasNode_iff.mpr h2⟩
  have hnodes : (removeStep g n).nodes = g.nodes.filter (fun p => !(p.1 == n)) :=
    removeStep_nodes hc
  have hids : (removeStep g n).nodeIds = g.nodeIds.filter (fun m => !(m == n)) := by
    show (removeStep g n).nodes.map Prod.fst = _
    rw [hnodes]
    exact map_fst_filter_key g.nodes (fun m => !(m == n))
  have hmemids : ∀ m, m ∈ (removeStep g n).nodeIds ↔ m ∈ g.nodeIds ∧ m ≠ n := by
    intro m
    rw [hids, List.mem_filter]
    simp
  refine ⟨⟨?_, ?_, ?_, ?_⟩, ?_⟩
  · -- nodes_eq
    rw [hnodes, inv.nodes_eq, List.filter_filter]
    apply List.filter_congr
    intro p hp
    by_cases hpn : p.1 = n
    · have hno : ¬ n ∈ (removeStep g n).nodeIds := fun hcon =>
        ((hmemids n).mp hcon).2 rfl
      simp [hpn, hno]
    · by_cases hpg : p.1 ∈ g.nodeIds
      · have hyes : p.1 ∈ (removeStep g n).nodeIds := (hmemids p.1).mpr ⟨hpg, hpn⟩
        simp [hpn, hpg, hyes]
      · have hno : ¬ p.1 ∈ (removeStep g n).nodeIds := fun hcon =>
          hpg ((hmemids p.1).mp hcon).1
        simp [hpn, hpg, hno]
  · -- keep_good
    intro p hp hgood
    have hold : p.1 ∈ g.nodeIds := inv.keep_good p hp hgood
    refine (hmemids p.1).mpr ⟨hold, ?_⟩
    intro hcon
    -- then p is G's entry for n, and it must coincide with g's entry (n, a)
    have hpa : p = (n, a) := by
      have h1 : (n, a) ∈ G.nodes := inv.sub_nodes hmem
      rcases p with ⟨k, b⟩
      simp only at hcon
      subst hcon
      have : b = a := by
        have hb := attr_of_mem_nodup hG hp
        have ha2 := attr_of_mem_nodup hG h1
        exact hb.symm.trans ha2
      rw [this]
    rw [hpa] at hgood
    simp only [Bool.or_eq_true] at hgood
    rcases hgood with hbad | hbad
    · rw [hterm] at hbad
      cases hbad
    · rw [← inv.htc_eq n hnid, hhtc] at hbad
      cases hbad
  · -- htc_eq
    intro m hm
    obtain ⟨hmold, hmne⟩ := (hmemids m).mp hm
    rw [← inv.htc_eq m hmold]
    cases hg : has_terminals g m with
    | true =>
      rcases has_terminals_iff.mp hg with ⟨e, he, he1, he2⟩
      have htne : e.2.1 ≠ n := by
        intro hcon
        rw [hcon, hattrn] at he2
        rw [hterm] at he2
        cases he2
      rcases @removeStep_pair_super g n e.1 e.2.1 e.2.2
        (by rcases e with ⟨x, y, z⟩; exact he) (by rw [he1]; exact hmne) htne with ⟨l3, h3⟩
      apply (has_terminals_iff (g := removeStep g n)).mpr
      refine ⟨(e.1, e.2.1, l3), h3, he1, ?_⟩
      show ((removeStep g n).attr e.2.1).is_terminal = true
      rw [removeStep_attr htne hc]
      exact he2
    | false =>
      cases hrs : has_terminals (removeStep g n) m with
      | false => rfl
      | true =>
        exfalso
        rcases has_terminals_iff.mp hrs with ⟨e, he, he1, he2⟩
        have hesplit : e = (e.1, e.2.1, e.2.2) := rfl
        rw [hesplit] at he
        obtain ⟨hane, hbne, hcase⟩ := removeStep_pair_sub he
        rw [removeStep_attr hbne hc] at he2
        rcases hcase with ⟨l2, hl2⟩ | ⟨-, lo, hlo⟩
        · have : has_terminals g m = true := has_terminals_iff.mpr
            ⟨(e.1, e.2.1, l2), hl2, he1, he2⟩
          rw [hg] at this
          cases this
        · have : has_terminals g n = true := has_terminals_iff.mpr
            ⟨(n, e.2.1, lo), hlo, rfl, he2⟩
          rw [hhtc] at this
          cases this
  · -- closed
    intro e he
    have hesplit : e = (e.1, e.2.1, e.2.2) := rfl
    rw [hesplit] at he
    obtain ⟨hane, hbne, hcase⟩ := removeStep_pair_sub he
    rcases hcase with ⟨l2, hl2⟩ | ⟨⟨li, hli⟩, lo, hlo⟩
    · obtain ⟨h1, h2⟩ := inv.closed _ hl2
      exact ⟨(hmemids _).mpr ⟨h1, hane⟩, (hmemids _).mpr ⟨h2, hbne⟩⟩
    · obtain ⟨h1, -⟩ := inv.closed _ hli
      obtain ⟨-, h2⟩ := inv.closed _ hlo
      exact ⟨(hmemids _).mpr ⟨h1, hane⟩, (hmemids _).mpr ⟨h2, hbne⟩⟩
  · -- length decreases
    rw [hnodes]
    exact List.length_filter_lt_length_iff_exists.mpr ⟨(n, a), hmem, by simp⟩

/-- Decidable well-formedness: duplicate-free node ids and edge-closure
(the invariants every `networkx` graph satisfies by construction). -/
def wfB (G : Graph) : Bool :=
  decide G.nodeIds.Nodup && G.edges.all (fun e => G.hasNode e.1 && G.hasNode e.2.1)

theorem wfB_nodup {G : Graph} (h : wfB G = true) : G.nodeIds.Nodup := by
  unfold wfB at h
  exact of_decide_eq_true (Bool.and_elim_left h)

theorem wfB_closed {G : Graph} (h : wfB G = true) :
    ∀ e ∈ G.edges, e.1 ∈ G.nodeIds ∧ e.2.1 ∈ G.nodeIds := by
  unfold wfB at h
  have h2 := Bool.and_elim_right h
  intro e he
  have := List.all_eq_true.mp h2 e he
  exact ⟨hasNode_iff.mp (Bool.and_elim_left this), hasNode_iff.mp (Bool.and_elim_right this)⟩

/-- The fuelled loop preserves the invariant and, with enough fuel,
reaches the empty-worklist fixpoint. -/
theorem removeLoop_inv {G : Graph} (hG : G.nodeIds.Nodup) :
    ∀ (fuel : Nat) (g : Graph), RemInv G g → g.nodes.length ≤ fuel →
    RemInv G (removeLoop fuel g) ∧ uselessList (removeLoop fuel g) = []
  | 0, g, inv, hlen => by
    have hnil : g.nodes = [] := List.length_eq_zero.mp (Nat.le_zero.mp hlen)
    refine ⟨inv, ?_⟩
    show uselessList g = []
    unfold uselessList
    rw [hnil]
    rfl
  | fuel + 1, g, inv, hlen => by
    have hred : removeLoop (fuel + 1) g = (match uselessList g with
      | [] => g
      | n :: _ => removeLoop fuel (removeStep g n)) := rfl
    rcases hul : uselessList g with _ | ⟨n, rest⟩
    · rw [hred, hul]
      exact ⟨inv, hul⟩
    · rw [hred, hul]
      have hmem : n ∈ uselessList g := by rw [hul]; exact List.mem_cons_self _ _
      obtain ⟨inv2, hlt⟩ := RemInv.step hG inv hmem
      exact removeLoop_inv hG fuel (removeStep g n) inv2 (by omega)

/-- If the worklist is empty the loop is the identity for any fuel. -/
theorem removeLoop_of_empty {g : Graph} (h : uselessList g = []) :
    ∀ fuel, removeLoop fuel g = g
  | 0 => rfl
  | fuel + 1 => by
    have hred : removeLoop (fuel + 1) g = (match uselessList g with
      | [] => g
      | n :: _ => removeLoop fuel (removeStep g n)) := rfl
    rw [hred, h]

/-- The shared characterisation of `remove_useless_non_terminals` on
well-formed graphs: the surviving nodes are exactly the terminals and the
non-terminals having a terminal child, in order and with their original
attributes, and the result has an empty worklist. -/
theorem remove_useless_spec {G : Graph} (h : wfB G = true) :
    (remove_useless_non_terminals G).nodes =
      G.nodes.filter (fun p => p.2.is_terminal || has_terminals G p.1) ∧
    uselessList (remove_useless_non_terminals G) = [] := by
  have hG := wfB_nodup h
  have base : RemInv G G := by
    refine ⟨?_, ?_, ?_, ?_⟩
    · rw [List.filter_eq_self.mpr]
      intro p hp
      exact decide_eq_true (List.mem_map.mpr ⟨p, hp, rfl⟩)
    · intro p hp _
      exact List.mem_map.mpr ⟨p, hp, rfl⟩
    · intro m _
      rfl
    · exact wfB_closed h
  obtain ⟨invr, hulr⟩ := removeLoop_inv hG G.nodes.length G base (le_refl _)
  rw [show remove_useless_non_terminals G = removeLoop G.nodes.length G from rfl] at *
  refine ⟨?_, hulr⟩
  rw [invr.nodes_eq]
  apply List.filter_congr
  intro p hp
  set r := removeLoop G.nodes.length G with hr
  by_cases hin : p.1 ∈ r.nodeIds
  · rcases exists_attr_of_mem_nodeIds hin with ⟨b, hb⟩
    have hpb : (p.1, b) ∈ G.nodes := invr.sub_nodes hb
    have hba : b = p.2 := by
      have h1 := attr_of_mem_nodup hG hpb
      have h2 := attr_of_mem_nodup hG (show (p.1, p.2) ∈ G.nodes from hp)
      exact h1.symm.trans h2
    have hgood : (p.2.is_terminal || has_terminals G p.1) = true := by
      by_contra hbad
      have hb2 : p.1 ∈ uselessList r := by
        apply mem_uselessList_iff.mpr
        simp only [Bool.or_eq_true, not_or] at hbad
        refine ⟨b, hb, ?_, ?_⟩
        · rw [invr.htc_eq p.1 hin]
          exact Bool.eq_false_iff.mpr hbad.2
        · rw [hba]
          exact Bool.eq_false_iff.mpr hbad.1
      rw [hulr] at hb2
      cases hb2
    simp [hin, hgood]
  · have hgood : ¬ (p.2.is_terminal || has_terminals G p.1) = true := by
      intro hgood
      exact hin (invr.keep_good p hp hgood)
    simp [hin, hgood]

theorem addNodeIfAbsent_edges (g : Graph) (m : Nat) :
    (g.addNodeIfAbsent m).edges = g.edges := by
  unfold Graph.addNodeIfAbsent
  by_cases hc : g.hasNode m = true
  · rw [if_pos hc]
  · rw [if_neg hc]

/-- `add_edge` on a pair not yet present appends the edge, whatever the
node set looks like. -/
theorem add_edge_edges_fresh {g : Graph} {u v : Nat} {lab : Option String}
    (hnew : (g.edges.any (fun e => e.1 == u && e.2.1 == v)) = false) :
    (g.add_edge u v lab).edges = g.edges ++ [(u, v, lab)] := by
  unfold Graph.add_edge
  have he : ((g.addNodeIfAbsent u).addNodeIfAbsent v).edges = g.edges := by
    rw [addNodeIfAbsent_edges, addNodeIfAbsent_edges]
  dsimp only
  rw [he, if_neg (by rw [hnew]; exact Bool.false_ne_true)]

/-- The re-wired child edges in closed form: one edge from `u` to each
child, labelled with the running `-`-concatenation that keeps growing
across successive children (the Python `label` variable). -/
def accRewire (u : Nat) : String → List (Nat × Nat × Option String) →
    List (Nat × Nat × Option String)
  | _, [] => []
  | seed, eo :: rest =>
    let lab2 := match eo.2.2 with
      | some s => seed ++ "-" ++ s
      | none => seed
    (u, eo.2.1, some lab2) :: accRewire u lab2 rest

theorem accRewire_mem (u : Nat) :
    ∀ (seed : String) (outs : List (Nat × Nat × Option String)),
    ∀ x ∈ accRewire u seed outs, x.1 = u ∧ ∃ eo ∈ outs, x.2.1 = eo.2.1
  | _, [], x, hx => absurd hx (List.not_mem_nil x)
  | seed, eo :: rest, x, hx => by
    have hred : accRewire u seed (eo :: rest) =
        (u, eo.2.1, some (match eo.2.2 with
          | some s => seed ++ "-" ++ s
          | none => seed)) :: accRewire u (match eo.2.2 with
          | some s => seed ++ "-" ++ s
          | none => seed) rest := rfl
    rw [hred] at hx
    rcases List.mem_cons.mp hx with h1 | h1
    · rw [h1]
      exact ⟨rfl, eo, List.mem_cons_self _ _, rfl⟩
    · obtain ⟨hx1, eo2, heo2, hx2⟩ := accRewire_mem u _ rest x h1
      exact ⟨hx1, eo2, List.mem_cons_of_mem _ heo2, hx2⟩

/-- The `for _, v in edges_out` loop in closed form: it appends exactly
the `accRewire` edges. -/
theorem rewire_fold_edges (u : Nat) :
    ∀ (outs : List (Nat × Nat × Option String)) (g' : Graph) (seed : String),
    (∀ eo ∈ outs, (g'.edges.any (fun e => e.1 == u && e.2.1 == eo.2.1)) = false) →
    ((outs.map (fun e => e.2.1)).Nodup) →
    ((outs.foldl (rewireBody u) (g', seed)).1).edges = g'.edges ++ accRewire u seed outs
  | [], g', seed, _, _ => (List.append_nil _).symm
  | eo :: rest, g', seed, hfresh, hnd => by
    rw [List.foldl_cons]
    have hred : rewireBody u (g', seed) eo =
        (g'.add_edge u eo.2.1 (some (match eo.2.2 with
          | some s => seed ++ "-" ++ s
          | none => seed)),
         (match eo.2.2 with
          | some s => seed ++ "-" ++ s
          | none => seed)) := rfl
    rw [hred]
    have hed : (g'.add_edge u eo.2.1 (some (match eo.2.2 with
        | some s => seed ++ "-" ++ s
        | none => seed))).edges =
        g'.edges ++ [(u, eo.2.1, some (match eo.2.2 with
          | some s => seed ++ "-" ++ s
          | none => seed))] :=
      add_edge_edges_fresh (hfresh eo (List.mem_cons_self _ _))
    have hnd2 : (eo.2.1 :: rest.map (fun e => e.2.1)).Nodup := by
      have h0 : (List.map (fun e => e.2.1) (eo :: rest)).Nodup := hnd
      simpa using h0
    obtain ⟨hnotin, hndrest⟩ := List.nodup_cons.mp hnd2
    have hfresh2 : ∀ eo2 ∈ rest,
        ((g'.add_edge u eo.2.1 (some (match eo.2.2 with
          | some s => seed ++ "-" ++ s
          | none => seed))).edges.any
          (fun e => e.1 == u && e.2.1 == eo2.2.1)) = false := by
      intro eo2 heo2
      rw [hed, List.any_append, hfresh eo2 (List.mem_cons_of_mem _ heo2)]
      have hb : (eo.2.1 == eo2.2.1) = false := by
        rcases hbb : (eo.2.1 == eo2.2.1) with _ | _
        · rfl
        · exfalso
          refine hnotin ?_
          rw [show eo.2.1 = eo2.2.1 by simpa using hbb]
          exact List.mem_map.mpr ⟨eo2, heo2, rfl⟩
      simp [hb]
    rw [rewire_fold_edges u rest _ _ hfresh2 hndrest, hed, List.append_assoc]
    rfl

/-- One removal in closed form: the node's incident edges disappear and the
first parent `u` is wired to every child in order, the label starting from
(parent label `-`) the node's type and accumulating each present child
label with `-` across successive children. -/
theorem removeStep_rewire (g : Graph) (n u : Nat) (labin : Option String)
    (rest : List (Nat × Nat × Option String))
    (hin : g.inEdges n = (u, n, labin) :: rest)
    (hun : u ≠ n)
    (hnd : ((g.outEdges n).map (fun e => e.2.1)).Nodup)
    (hch : ∀ eo ∈ g.outEdges n, eo.2.1 ≠ n)
    (hfresh : ∀ eo ∈ g.outEdges n,
      (g.edges.any (fun e => e.1 == u && e.2.1 == eo.2.1)) = false) :
    (removeStep g n).edges =
      g.edges.filter (fun e => !(e.1 == n) && !(e.2.1 == n)) ++
        accRewire u (match labin with
          | some s => s ++ "-" ++ (g.attr n).type
          | none => (g.attr n).type) (g.outEdges n) := by
  have hred : removeStep g n = ((match g.inEdges n with
      | [] => g
      | (u', _, labin') :: _ =>
        ((g.outEdges n).foldl (rewireBody u')
          (g, match labin' with
            | some s => s ++ "-" ++ (g.attr n).type
            | none => (g.attr n).type)).1)).remove_node n := rfl
  rw [hred, hin]
  clear hin
  show ((((g.outEdges n).foldl (rewireBody u)
      (g, match labin with
        | some s => s ++ "-" ++ (g.attr n).type
        | none => (g.attr n).type)).1).remove_node n).edges = _
  show (((g.outEdges n).foldl (rewireBody u)
      (g, match labin with
        | some s => s ++ "-" ++ (g.attr n).type
        | none => (g.attr n).type)).1).edges.filter
      (fun e => !(e.1 == n) && !(e.2.1 == n)) = _
  rw [rewire_fold_edges u (g.outEdges n) g _ hfresh hnd, List.filter_append]
  congr 1
  apply List.filter_eq_self.mpr
  intro x hx
  obtain ⟨hx1, eo, heo, hx2⟩ := accRewire_mem u _ (g.outEdges n) x hx
  have h1 : (x.1 == n) = false := by
    rcases hb : (x.1 == n) with _ | _
    · rfl
    · exact absurd (by rw [← hx1]; simpa using hb) hun
  have h2 : (x.2.1 == n) = false := by
    rcases hb : (x.2.1 == n) with _ | _
    · rfl
    · exact absurd (by rw [← hx2]; simpa using hb) (hch eo heo)
  rw [h1, h2]
  rfl

/-- Concrete three-node chain `A → B → t` with `A, B` non-terminal and `t`
terminal: `A` has a terminal descendant but no terminal child. -/
def exChain : Graph :=
  ⟨[(0, ⟨"A", false, 0, 9⟩), (1, ⟨"B", false, 0, 9⟩), (2, ⟨"t", true, 0, 1⟩)],
   [(0, 1, none), (1, 2, none)]⟩

/-- Concrete graph in which the removable node `1` (type `X`, no terminal
child) has two labelled child edges `a` and `b`: the Python `label`
variable accumulates, producing `X-a-b` on the second child instead of the
per-child `X-b` the claim describes. -/
def exLabel : Graph :=
  ⟨[(0, ⟨"A", false, 0, 9⟩), (1, ⟨"X", false, 0, 9⟩), (2, ⟨"c", false, 0, 4⟩),
    (3, ⟨"d", false, 5, 9⟩), (4, ⟨"t1", true, 0, 1⟩), (5, ⟨"t2", true, 5, 6⟩),
    (6, ⟨"t0", true, 8, 9⟩)],
   [(0, 1, none), (1, 2, some "a"), (1, 3, some "b"), (2, 4, none), (3, 5, none),
    (0, 6, none)]⟩

/-- **C3, counterexample.**  Two refutations at concrete inputs.  (i) The
claim says the loop removes exactly the non-terminals with zero terminal
descendants *anywhere below* them: in `exChain`, node `0` has the terminal
descendant `2` (so the claim says it is kept), yet `has_terminals` only
inspects direct successors, so the code removes node `0`.  (ii) The claim
says each re-wired edge gets label parent-label/type/child-label: in
`exLabel` the second re-wired edge carries `X-a-b` (the label accumulated
across the earlier sibling), not `X-b`. -/
theorem c3_counterexample :
    (ReachL exChain.adj 0 2 ∧ (exChain.attr 2).is_terminal = true ∧
      0 ∉ (remove_useless_non_terminals exChain).nodeIds) ∧
    ((0, 3, some "X-a-b") ∈ (remove_useless_non_terminals exLabel).edges ∧
      (0, 3, some "X-b") ∉ (remove_useless_non_terminals exLabel).edges) := by
  have h01 : ((0 : Nat), (1 : Nat)) ∈ exChain.adj := by decide
  have h12 : ((1 : Nat), (2 : Nat)) ∈ exChain.adj := by decide
  exact ⟨⟨ReachL.step (ReachL.step ReachL.refl h01) h12, rfl, by decide⟩,
    by decide, by decide⟩

/-- **C3, amended.**  On every well-formed input graph the removal loop
removes exactly the non-terminal nodes with no terminal *child* (direct
successor, per `has_terminals`): the surviving nodes are precisely the
terminals and the non-terminals with a terminal child, kept in order with
unchanged attributes, and the loop runs until no removable node is left.
Each removal re-wires the first parent edge to the children in order
(`accRewire`): the label starts from the parent label, `-`, then the
node's type, and each present child label is appended with `-` to the
*accumulated* string, which keeps growing across successive children
rather than being rebuilt per child. -/
theorem c3_remove_useless_characterisation (G : Graph) (h : wfB G = true) :
    ((remove_useless_non_terminals G).nodes =
      G.nodes.filter (fun p => p.2.is_terminal || has_terminals G p.1) ∧
    uselessList (remove_useless_non_terminals G) = []) ∧
    (∀ (g : Graph) (n u : Nat) (labin : Option String)
      (rest : List (Nat × Nat × Option String)),
      g.inEdges n = (u, n, labin) :: rest → u ≠ n →
      ((g.outEdges n).map (fun e => e.2.1)).Nodup →
      (∀ eo ∈ g.outEdges n, eo.2.1 ≠ n) →
      (∀ eo ∈ g.outEdges n,
        (g.edges.any (fun e => e.1 == u && e.2.1 == eo.2.1)) = false) →
      (removeStep g n).edges =
        g.edges.filter (fun e => !(e.1 == n) && !(e.2.1 == n)) ++
          accRewire u (match labin with
            | some s => s ++ "-" ++ (g.attr n).type
            | none => (g.attr n).type) (g.outEdges n)) :=
  ⟨remove_useless_spec h, fun g n u labin rest h1 h2 h3 h4 h5 =>
    removeStep_rewire g n u labin rest h1 h2 h3 h4 h5⟩

/-- **C3 witness**: the amended characterisation evaluated on `exChain`. -/
theorem c3_remove_useless_characterisation_witness :
    wfB exChain = true ∧
    (((remove_useless_non_terminals exChain).nodes =
      exChain.nodes.filter (fun p => p.2.is_terminal || has_terminals exChain p.1) ∧
    uselessList (remove_useless_non_terminals exChain) = []) ∧
    (∀ (g : Graph) (n u : Nat) (labin : Option String)
      (rest : List (Nat × Nat × Option String)),
      g.inEdges n = (u, n, labin) :: rest → u ≠ n →
      ((g.outEdges n).map (fun e => e.2.1)).Nodup →
      (∀ eo ∈ g.outEdges n, eo.2.1 ≠ n) →
      (∀ eo ∈ g.outEdges n,
        (g.edges.any (fun e => e.1 == u && e.2.1 == eo.2.1)) = false) →
      (removeStep g n).edges =
        g.edges.filter (fun e => !(e.1 == n) && !(e.2.1 == n)) ++
          accRewire u (match labin with
            | some s => s ++ "-" ++ (g.attr n).type
            | none => (g.attr n).type) (g.outEdges n))) :=
  ⟨by decide, c3_remove_useless_characterisation exChain (by decide)⟩

/-- **C8.**  `remove_useless_non_terminals` is idempotent on well-formed
graphs (in particular on every tree): its result has an empty worklist, so
a second application's `while` loop exits immediately and returns the
graph unchanged. -/
theorem c8_remove_useless_idempotent (G : Graph) (h : wfB G = true) :
    remove_useless_non_terminals (remove_useless_non_terminals G) =
      remove_useless_non_terminals G := by
  have h2 := (remove_useless_spec h).2
  show removeLoop (remove_useless_non_terminals G).nodes.length
      (remove_useless_non_terminals G) = remove_useless_non_terminals G
  exact removeLoop_of_empty h2 _

/-- **C8 witness**: idempotence evaluated on `exChain`. -/
theorem c8_remove_useless_idempotent_witness :
    wfB exChain = true ∧
    remove_useless_non_terminals (remove_useless_non_terminals exChain) =
      remove_useless_non_terminals exChain :=
  ⟨by decide, c8_remove_useless_idempotent exChain (by decide)⟩

/-! ### Claims C1, C2, C7: the dependency-tree extractor -/

theorem sortByStart_perm (G : Graph) (l : List Nat) : (sortByStart G l).Perm l :=
  List.perm_insertionSort _ l

theorem sortByStart_sorted (G : Graph) (l : List Nat) :
    (sortByStart G l).Sorted (fun a b => (G.attr a).start ≤ (G.attr b).start) := by
  haveI : IsTotal Nat (fun a b => (G.attr a).start ≤ (G.attr b).start) :=
    ⟨fun a b => Nat.le_total _ _⟩
  haveI : IsTrans Nat (fun a b => (G.attr a).start ≤ (G.attr b).start) :=
    ⟨fun a b c => Nat.le_trans⟩
  exact List.sorted_insertionSort _ l

/-- The head of the sorted list is a member of minimal `start`. -/
theorem sortByStart_head_min {G : Graph} {l : List Nat} {c : Nat} {rest : List Nat}
    (h : sortByStart G l = c :: rest) :
    c ∈ l ∧ ∀ m ∈ l, (G.attr c).start ≤ (G.attr m).start := by
  have hperm := sortByStart_perm G l
  rw [h] at hperm
  have hsorted := sortByStart_sorted G l
  rw [h] at hsorted
  constructor
  · exact hperm.mem_iff.mp (List.mem_cons_self _ _)
  · intro m hm
    rcases List.mem_cons.mp (hperm.mem_iff.mpr hm) with heq | hmem
    · rw [heq]
    · exact (List.pairwise_cons.mp hsorted).1 m hmem

/-- The ids of the terminal nodes, in insertion order. -/
def terminalIds (G : Graph) : List Nat :=
  (G.nodes.filter (fun p => p.2.is_terminal)).map Prod.fst

/-- Iterated climb along first in-edges: reaches the root node `0` within
`k` parent steps. -/
def upSteps (G : Graph) : Nat → Nat → Bool
  | 0, f => f == 0
  | k + 1, f =>
    f == 0 ||
      (match G.inEdges f with
        | [] => false
        | e :: _ => upSteps G k e.1)

/-- Decidable validity of a constituency tree as produced by the builder
(and preserved by the terminal collapser): duplicate-free ids, edge
closure, unlabelled edges, root `0` with no in-edges, in-degree one
elsewhere, all nodes reachable from the root, parent chains reaching the
root, `is_terminal` iff no out-edges, at least one terminal, and distinct
`start` offsets on terminals (spans of distinct tokens do not overlap). -/
def validB (G : Graph) : Bool :=
  decide G.nodeIds.Nodup &&
  G.edges.all (fun e => G.hasNode e.1 && G.hasNode e.2.1) &&
  G.edges.all (fun e => e.2.2 == none) &&
  G.hasNode 0 &&
  (G.inEdges 0).isEmpty &&
  G.nodeIds.all (fun n => n == 0 || (G.inEdges n).length == 1) &&
  G.nodeIds.all (fun n => (reachable G 0).contains n) &&
  G.nodeIds.all (fun n => upSteps G G.nodes.length n) &&
  G.nodeIds.all (fun n => (G.attr n).is_terminal == (G.outEdges n).isEmpty) &&
  !(terminalIds G).isEmpty &&
  decide ((terminalIds G).map (fun n => (G.attr n).start)).Nodup

theorem validB_and {G : Graph} (h : validB G = true) :
    G.nodeIds.Nodup ∧
    (∀ e ∈ G.edges, e.1 ∈ G.nodeIds ∧ e.2.1 ∈ G.nodeIds) ∧
    (∀ e ∈ G.edges, e.2.2 = none) ∧
    0 ∈ G.nodeIds ∧
    G.inEdges 0 = [] ∧
    (∀ n ∈ G.nodeIds, n ≠ 0 → (G.inEdges n).length = 1) ∧
    (∀ n ∈ G.nodeIds, n ∈ reachable G 0) ∧
    (∀ n ∈ G.nodeIds, upSteps G G.nodes.length n = true) ∧
    (∀ n ∈ G.nodeIds, (G.attr n).is_terminal = (G.outEdges n).isEmpty) ∧
    terminalIds G ≠ [] ∧
    ((terminalIds G).map (fun n => (G.attr n).start)).Nodup := by
  unfold validB at h
  simp only [Bool.and_eq_true, List.all_eq_true, decide_eq_true_eq, beq_iff_eq,
    Bool.or_eq_true, Bool.not_eq_true'] at h
  obtain ⟨⟨⟨⟨⟨⟨⟨⟨⟨⟨h1, h2⟩, h3⟩, h4⟩, h5⟩, h6⟩, h7⟩, h8⟩, h9⟩, h10⟩, h11⟩ := h
  refine ⟨h1, ?_, h3, ?_, ?_, ?_, ?_, ?_, h9, ?_, h11⟩
  · intro e he
    obtain ⟨ha, hb⟩ := h2 e he
    exact ⟨hasNode_iff.mp ha, hasNode_iff.mp hb⟩
  · exact hasNode_iff.mp h4
  · exact List.isEmpty_iff.mp h5
  · intro n hn hne
    rcases h6 n hn with h | h
    · exact absurd h hne
    · exact h
  · intro n hn
    exact List.elem_iff.mp (h7 n hn)
  · exact h8
  · intro hc
    rw [hc] at h10
    simp at h10

theorem mem_terminalIds_iff {G : Graph} (hG : G.nodeIds.Nodup) {t : Nat} :
    t ∈ terminalIds G ↔ t ∈ G.nodeIds ∧ (G.attr t).is_terminal = true := by
  unfold terminalIds
  constructor
  · intro h
    rcases List.mem_map.mp h with ⟨p, hp, rfl⟩
    have hmem := List.mem_of_mem_filter hp
    refine ⟨List.mem_map.mpr ⟨p, hmem, rfl⟩, ?_⟩
    have := attr_of_mem_nodup hG (show (p.1, p.2) ∈ G.nodes from hmem)
    rw [this]
    exact (List.mem_filter.mp hp).2
  · rintro ⟨h1, h2⟩
    rcases exists_attr_of_mem_nodeIds h1 with ⟨a, ha⟩
    have : G.attr t = a := attr_of_mem_nodup hG ha
    refine List.mem_map.mpr ⟨(t, a), ?_, rfl⟩
    rw [List.mem_filter]
    exact ⟨ha, by rw [← this]; exact h2⟩

theorem terminalIds_sub {G : Graph} {t : Nat} (h : t ∈ terminalIds G) : t ∈ G.nodeIds := by
  rcases List.mem_map.mp h with ⟨p, hp, rfl⟩
  exact List.mem_map.mpr ⟨p, List.mem_of_mem_filter hp, rfl⟩

/-- A node whose attributes report `is_terminal` exists in the graph
(absent nodes read the default attributes, which are non-terminal). -/
theorem mem_nodeIds_of_attr_terminal {G : Graph} {c : Nat}
    (h : (G.attr c).is_terminal = true) : c ∈ G.nodeIds := by
  unfold Graph.attr at h
  rcases hf : G.nodes.find? (fun p => p.1 == c) with _ | p
  · rw [hf] at h
    cases h
  · have hmem := List.mem_of_find?_eq_some hf
    have hkey : p.1 = c := by simpa using List.find?_some hf
    exact List.mem_map.mpr ⟨p, hmem, hkey⟩

/-- The dependency root: it is a terminal of strictly minimal `start`. -/
theorem root_dep_spec {G : Graph} (hne : terminalIds G ≠ [])
    (hdist : (((terminalIds G).map (fun n => (G.attr n).start)).Nodup)) :
    get_root_dep_tree G ∈ terminalIds G ∧
    ∀ t ∈ terminalIds G, t ≠ get_root_dep_tree G →
      (G.attr (get_root_dep_tree G)).start < (G.attr t).start := by
  have hrootdef : get_root_dep_tree G = (sortByStart G (terminalIds G)).headD 0 := rfl
  rcases hsort : sortByStart G (terminalIds G) with _ | ⟨c, rest⟩
  · exfalso
    have := sortByStart_perm G (terminalIds G)
    rw [hsort] at this
    exact hne this.nil_eq.symm
  · obtain ⟨hcmem, hcmin⟩ := sortByStart_head_min hsort
    have hc : get_root_dep_tree G = c := by rw [hrootdef, hsort]; rfl
    rw [hc]
    refine ⟨hcmem, ?_⟩
    intro t ht hnet
    have hle := hcmin t ht
    rcases Nat.lt_or_ge (G.attr c).start (G.attr t).start with hlt | hge
    · exact hlt
    · exfalso
      have heq : (G.attr c).start = (G.attr t).start := Nat.le_antisymm hle hge
      exact hnet (List.inj_on_of_nodup_map hdist ht hcmem heq.symm)

/-- The candidate list inside `get_candidate`. -/
def candList (G : Graph) (level s : Nat) : List Nat :=
  ((reachable G level).filter (fun n => (G.attr n).is_terminal)).filter
    (fun n => decide ((G.attr n).start < s))

theorem mem_candList_iff {G : Graph} {level s m : Nat} :
    m ∈ candList G level s ↔
      m ∈ reachable G level ∧ (G.attr m).is_terminal = true ∧ (G.attr m).start < s := by
  unfold candList
  rw [List.mem_filter, List.mem_filter]
  constructor
  · rintro ⟨⟨h1, h2⟩, h3⟩
    exact ⟨h1, h2, by simpa using h3⟩
  · rintro ⟨h1, h2, h3⟩
    exact ⟨⟨h1, h2⟩, by simpa using h3⟩

theorem get_candidate_none_iff {G : Graph} {level s : Nat} :
    get_candidate G level s = none ↔ candList G level s = [] := by
  show (if (candList G level s).isEmpty then none
    else (sortByStart G (candList G level s)).head?) = none ↔ _
  by_cases h : (candList G level s).isEmpty = true
  · rw [if_pos h]
    simp [List.isEmpty_iff.mp h]
  · rw [if_neg h]
    constructor
    · intro hc
      rcases hsort : sortByStart G (candList G level s) with _ | ⟨c, rest⟩
      · have := sortByStart_perm G (candList G level s)
        rw [hsort] at this
        exact this.nil_eq.symm
      · rw [hsort] at hc
        cases hc
    · intro hc
      exact absurd (by rw [hc]; rfl) h

theorem get_candidate_some_spec {G : Graph} {level s c : Nat}
    (h : get_candidate G level s = some c) :
    c ∈ candList G level s ∧ ∀ m ∈ candList G level s, (G.attr c).start ≤ (G.attr m).start := by
  have hred : get_candidate G level s = (if (candList G level s).isEmpty then none
    else (sortByStart G (candList G level s)).head?) := rfl
  rw [hred] at h
  by_cases he : (candList G level s).isEmpty = true
  · rw [if_pos he] at h
    cases h
  · rw [if_neg he] at h
    rcases hsort : sortByStart G (candList G level s) with _ | ⟨c2, rest⟩
    · rw [hsort] at h
      cases h
    · rw [hsort] at h
      have hc2 : c2 = c := by simpa using h
      rw [← hc2]
      exact sortByStart_head_min hsort

/-- Invariant of the partially-enriched graph `g` over the valid
constituency tree `G0`: same nodes, and the extra edges all point at
terminals and come from terminals. -/
structure EnrichInv (G0 g : Graph) : Prop where
  nodes_eq : g.nodes = G0.nodes
  edges_shape : ∃ extra, g.edges = G0.edges ++ extra ∧
    ∀ e ∈ extra, (G0.attr e.1).is_terminal = true ∧ (G0.attr e.2.1).is_terminal = true

theorem EnrichInv.refl (G0 : Graph) : EnrichInv G0 G0 :=
  ⟨rfl, [], by rw [List.append_nil], fun e he => absurd he (List.not_mem_nil e)⟩

theorem EnrichInv.attr_eq {G0 g : Graph} (inv : EnrichInv G0 g) (m : Nat) :
    g.attr m = G0.attr m :=
  attr_congr_nodes inv.nodes_eq m

theorem EnrichInv.adj_sub {G0 g : Graph} (inv : EnrichInv G0 g) :
    G0.adj ⊆ g.adj := by
  obtain ⟨extra, hsh, -⟩ := inv.edges_shape
  unfold Graph.adj
  rw [hsh, List.map_append]
  exact List.subset_append_left _ _

theorem EnrichInv.inEdges_shape {G0 g : Graph} (inv : EnrichInv G0 g) (f : Nat) :
    ∃ ex2, g.inEdges f = G0.inEdges f ++ ex2 ∧
      ∀ e ∈ ex2, (G0.attr e.2.1).is_terminal = true ∧ e.2.1 = f := by
  obtain ⟨extra, hsh, hprop⟩ := inv.edges_shape
  refine ⟨extra.filter (fun e => e.2.1 == f), ?_, ?_⟩
  · unfold Graph.inEdges
    rw [hsh, List.filter_append]
  · intro e he
    exact ⟨(hprop e (List.mem_of_mem_filter he)).2, by
      have := (List.mem_filter.mp he).2
      simpa using this⟩

theorem EnrichInv.inEdges_of_nonterminal {G0 g : Graph} (inv : EnrichInv G0 g)
    {f : Nat} (hf : (G0.attr f).is_terminal = false) :
    g.inEdges f = G0.inEdges f := by
  obtain ⟨ex2, hsh, hprop⟩ := inv.inEdges_shape f
  have : ex2 = [] := by
    apply List.eq_nil_iff_forall_not_mem.mpr
    intro e he
    obtain ⟨hterm, htgt⟩ := hprop e he
    rw [htgt] at hterm
    rw [hf] at hterm
    cases hterm
  rw [hsh, this, List.append_nil]

theorem ReachL.eq_of_no_out {adj : List (Nat × Nat)} {u v : Nat}
    (h : ∀ w, (u, w) ∉ adj) (hr : ReachL adj u v) : v = u := by
  induction hr with
  | refl => rfl
  | step hr hadj ih => exact absurd (ih ▸ hadj) (h _)

/-- Any reachable terminal below `s` makes the fuelled head search succeed
from any non-terminal ancestor whose parent chain reaches the root. -/
theorem select_headAux_some {G0 g : Graph} (hval : validB G0 = true)
    (inv : EnrichInv G0 g) {s t0 : Nat}
    (ht0 : t0 ∈ terminalIds G0) (hs : (G0.attr t0).start < s) :
    ∀ (k : Nat) (f : Nat), f ∈ G0.nodeIds → (G0.attr f).is_terminal = false →
      upSteps G0 k f = true →
      ∃ c, select_headAux g s (k + 1) f = some c ∧
        (G0.attr c).is_terminal = true ∧ (G0.attr c).start < s := by
  obtain ⟨hnodup, hclosed, hunlab, hroot, hrootin, hindeg, hreach, hup, htermout, htne,
    hdist⟩ := validB_and hval
  have hattr : ∀ m, g.attr m = G0.attr m := inv.attr_eq
  have ht0reach : t0 ∈ reachable g 0 :=
    mem_reachable_iff.mpr
      ((mem_reachable_iff.mp (hreach t0 (terminalIds_sub ht0))).mono inv.adj_sub)
  have hzero : get_candidate g 0 s ≠ none := by
    intro hcn
    have hnil := get_candidate_none_iff.mp hcn
    have hmem : t0 ∈ candList g 0 s := by
      apply mem_candList_iff.mpr
      refine ⟨ht0reach, ?_, ?_⟩
      · rw [hattr]
        exact ((mem_terminalIds_iff hnodup).mp ht0).2
      · rw [hattr]
        exact hs
    rw [hnil] at hmem
    cases hmem
  have hcand_props : ∀ {f c : Nat}, get_candidate g f s = some c →
      (G0.attr c).is_terminal = true ∧ (G0.attr c).start < s := by
    intro f c hc
    obtain ⟨hcm, -⟩ := get_candidate_some_spec hc
    obtain ⟨-, h1, h2⟩ := mem_candList_iff.mp hcm
    rw [hattr] at h1 h2
    exact ⟨h1, h2⟩
  intro k
  induction k with
  | zero =>
    intro f hfmem hfterm hupf
    have hf0 : f = 0 := by simpa [upSteps] using hupf
    subst hf0
    rcases hc : get_candidate g 0 s with _ | c
    · exact absurd hc hzero
    · obtain ⟨h1, h2⟩ := hcand_props hc
      refine ⟨c, ?_, h1, h2⟩
      have hred : select_headAux g s (0 + 1) 0 = (match get_candidate g 0 s with
        | some cand => some cand
        | none =>
          match g.inEdges 0 with
          | [] => none
          | e :: _ => select_headAux g s 0 e.1) := rfl
      rw [hred, hc]
  | succ k ih =>
    intro f hfmem hfterm hupf
    have hred : select_headAux g s (k + 1 + 1) f = (match get_candidate g f s with
      | some cand => some cand
      | none =>
        match g.inEdges f with
        | [] => none
        | e :: _ => select_headAux g s (k + 1) e.1) := rfl
    rcases hc : get_candidate g f s with _ | c
    · have hf0 : f ≠ 0 := by
        intro h0
        exact hzero (h0 ▸ hc)
      have hup2 : (match G0.inEdges f with
          | [] => false
          | e :: _ => upSteps G0 k e.1) = true := by
        have hu : upSteps G0 (k + 1) f = ((f == 0) ||
          (match G0.inEdges f with
            | [] => false
            | e :: _ => upSteps G0 k e.1)) := rfl
        rw [hu, show (f == 0) = false from by simpa using hf0, Bool.false_or] at hupf
        exact hupf
      rcases hie : G0.inEdges f with _ | ⟨e, rest⟩
      · rw [hie] at hup2
        cases hup2
      · rw [hie] at hup2
        have hgin : g.inEdges f = e :: rest := by
          rw [inv.inEdges_of_nonterminal hfterm, hie]
        have hemem : e ∈ G0.edges := by
          refine List.mem_of_mem_filter (p := fun e2 => e2.2.1 == f) ?_
          rw [show G0.edges.filter (fun e2 => e2.2.1 == f) = G0.inEdges f from rfl, hie]
          exact List.mem_cons_self _ _
        have hfin : e.1 ∈ G0.nodeIds := (hclosed e hemem).1
        have hfterm2 : (G0.attr e.1).is_terminal = false := by
          have hout : e ∈ G0.outEdges e.1 := List.mem_filter.mpr ⟨hemem, by simp⟩
          have hoe2 : (G0.outEdges e.1).isEmpty = false := by
            cases hx : G0.outEdges e.1 with
            | nil => rw [hx] at hout; cases hout
            | cons a l => rfl
          rw [htermout e.1 hfin]
          exact hoe2
        obtain ⟨c, hcc, hp1, hp2⟩ := ih e.1 hfin hfterm2 hup2
        refine ⟨c, ?_, hp1, hp2⟩
        rw [hred, hc, hgin]
        exact hcc
    · obtain ⟨h1, h2⟩ := hcand_props hc
      refine ⟨c, ?_, h1, h2⟩
      rw [hred, hc]

/-- `select_head` succeeds on every non-root terminal of a valid tree,
returning a terminal with strictly smaller `start`. -/
theorem select_head_some {G0 g : Graph} (hval : validB G0 = true) (inv : EnrichInv G0 g)
    {n : Nat} (hn : n ∈ terminalIds G0) (hne : n ≠ get_root_dep_tree G0) :
    ∃ c, select_head g n = some c ∧ (G0.attr c).is_terminal = true ∧
      (G0.attr c).start < (G0.attr n).start ∧ c ∈ G0.nodeIds := by
  obtain ⟨hnodup, hclosed, hunlab, hroot, hrootin, hindeg, hreach, hup, htermout, htne,
    hdist⟩ := validB_and hval
  obtain ⟨hrmem, hrmin⟩ := root_dep_spec htne hdist
  have hs : (G0.attr (get_root_dep_tree G0)).start < (G0.attr n).start := hrmin n hn hne
  have hn0 : n ≠ 0 := by
    intro h0
    subst h0
    have hterm0 : (G0.attr 0).is_terminal = true := ((mem_terminalIds_iff hnodup).mp hn).2
    have hoe : (G0.outEdges 0).isEmpty = true := by
      have := htermout 0 (terminalIds_sub hn)
      rw [hterm0] at this
      exact this.symm
    have hoe2 : G0.outEdges 0 = [] := List.isEmpty_iff.mp hoe
    have hnoout : ∀ w, (0, w) ∉ G0.adj := by
      intro w hw
      rcases List.mem_map.mp hw with ⟨e, he, heq⟩
      have he1 : e.1 = 0 := congrArg Prod.fst heq
      have : e ∈ G0.outEdges 0 := List.mem_filter.mpr ⟨he, by simp [he1]⟩
      rw [hoe2] at this
      cases this
    have hrr : ReachL G0.adj 0 (get_root_dep_tree G0) :=
      mem_reachable_iff.mp (hreach _ (terminalIds_sub hrmem))
    exact hne (hrr.eq_of_no_out hnoout).symm
  have hlen : (G0.inEdges n).length = 1 := hindeg n (terminalIds_sub hn) hn0
  rcases List.length_eq_one.mp hlen with ⟨e, he⟩
  obtain ⟨ex2, hginsh, -⟩ := inv.inEdges_shape n
  have hgin : g.inEdges n = e :: ex2 := by rw [hginsh, he]; rfl
  have hemem : e ∈ G0.edges := by
    refine List.mem_of_mem_filter (p := fun e2 => e2.2.1 == n) ?_
    rw [show G0.edges.filter (fun e2 => e2.2.1 == n) = G0.inEdges n from rfl, he]
    exact List.mem_cons_self _ _
  have hfin : e.1 ∈ G0.nodeIds := (hclosed e hemem).1
  have hfterm : (G0.attr e.1).is_terminal = false := by
    have hout : e ∈ G0.outEdges e.1 := List.mem_filter.mpr ⟨hemem, by simp⟩
    have hoe2 : (G0.outEdges e.1).isEmpty = false := by
      cases hx : G0.outEdges e.1 with
      | nil => rw [hx] at hout; cases hout
      | cons a l => rfl
    rw [htermout e.1 hfin]
    exact hoe2
  obtain ⟨c, hcsome, hc1, hc2⟩ := select_headAux_some hval inv hrmem hs
    G0.nodes.length e.1 hfin hfterm (hup e.1 hfin)
  refine ⟨c, ?_, hc1, hc2, mem_nodeIds_of_attr_terminal hc1⟩
  have hred : select_head g n = (match g.inEdges n with
    | [] => none
    | e2 :: _ => select_headAux g (g.attr n).start (g.nodes.length + 1) e2.1) := rfl
  rw [hred, hgin]
  have hglen : g.nodes.length = G0.nodes.length := by rw [inv.nodes_eq]
  rw [hglen, inv.attr_eq n]
  exact hcsome

/-- `add_edge` on a fresh source/target pair with both endpoints present
simply appends the edge. -/
theorem add_edge_new {g : Graph} {u v : Nat} {lab : Option String}
    (hu : g.hasNode u = true) (hv2 : g.hasNode v = true)
    (hnew : ∀ e ∈ g.edges, ¬(e.1 = u ∧ e.2.1 = v)) :
    g.add_edge u v lab = ⟨g.nodes, g.edges ++ [(u, v, lab)]⟩ := by
  unfold Graph.add_edge
  rw [addNodeIfAbsent_of_mem hu, addNodeIfAbsent_of_mem hv2]
  dsimp only
  have hany : ¬ (g.edges.any fun e => e.1 == u && e.2.1 == v) = true := by
    intro hany
    rcases List.any_eq_true.mp hany with ⟨e, he, hcond⟩
    simp only [Bool.and_eq_true, beq_iff_eq] at hcond
    exact hnew e he hcond
  rw [if_neg hany]

theorem depTargets_sub {G : Graph} {n : Nat} (h : n ∈ depTargets G) :
    n ∈ terminalIds G ∧ n ≠ get_root_dep_tree G := by
  rcases List.mem_map.mp h with ⟨p, hp, rfl⟩
  have hmem := List.mem_of_mem_filter hp
  have hcond := (List.mem_filter.mp hp).2
  simp only [Bool.and_eq_true, decide_eq_true_eq] at hcond
  constructor
  · apply List.mem_map.mpr
    refine ⟨p, ?_, rfl⟩
    rw [List.mem_filter]
    exact ⟨hmem, hcond.2⟩
  · exact fun hc => hcond.1 hc.symm

theorem depTargets_nodup {G : Graph} (h : G.nodeIds.Nodup) : (depTargets G).Nodup := by
  have hsub : List.Sublist (depTargets G) G.nodeIds :=
    (List.filter_sublist G.nodes).map Prod.fst
  exact h.sublist hsub

/-- Well-formed dependency-edge lists over `G0`. -/
def GoodDeps (G0 : Graph) (deps : List (Nat × Nat × Option String)) : Prop :=
  ∀ e ∈ deps, (G0.attr e.1).is_terminal = true ∧ (G0.attr e.2.1).is_terminal = true ∧
    (G0.attr e.1).start < (G0.attr e.2.1).start ∧ e.2.2 = some "dependency" ∧
    e.1 ∈ G0.nodeIds ∧ e.2.1 ∈ G0.nodeIds

/-- The enrichment loop appends one good dependency edge per processed
non-root terminal, targeting them in order. -/
theorem enrich_fold {G0 : Graph} (hval : validB G0 = true) :
    ∀ (L : List Nat) (deps : List (Nat × Nat × Option String)),
    GoodDeps G0 deps →
    (∀ n ∈ L, n ∈ terminalIds G0 ∧ n ≠ get_root_dep_tree G0) →
    (∀ n ∈ L, ∀ e ∈ deps, e.2.1 ≠ n) →
    L.Nodup →
    ∃ deps2, L.foldl enrichBody ⟨G0.nodes, G0.edges ++ deps⟩ =
      ⟨G0.nodes, G0.edges ++ (deps ++ deps2)⟩ ∧
      deps2.map (fun e => e.2.1) = L ∧ GoodDeps G0 deps2
  | [], deps, hgood, _, _, _ =>
    ⟨[], by simp, rfl, fun e he => absurd he (List.not_mem_nil e)⟩
  | n :: rest, deps, hgood, hL, hfresh, hnd => by
    have hnodup : G0.nodeIds.Nodup := (validB_and hval).1
    have htermout := (validB_and hval).2.2.2.2.2.2.2.2.1
    have hinv : EnrichInv G0 ⟨G0.nodes, G0.edges ++ deps⟩ :=
      ⟨rfl, deps, rfl, fun e he => ⟨(hgood e he).1, (hgood e he).2.1⟩⟩
    obtain ⟨hterm, hner⟩ := hL n (List.mem_cons_self _ _)
    obtain ⟨c, hcsome, hc1, hc2, hc3⟩ := select_head_some hval hinv hterm hner
    rw [List.foldl_cons]
    have hbody : enrichBody ⟨G0.nodes, G0.edges ++ deps⟩ n =
        ⟨G0.nodes, (G0.edges ++ deps) ++ [(c, n, some "dependency")]⟩ := by
      unfold enrichBody
      rw [hcsome]
      apply add_edge_new
      · exact hasNode_iff.mpr hc3
      · exact hasNode_iff.mpr (terminalIds_sub hterm)
      · rintro e he ⟨hec, hen⟩
        rcases List.mem_append.mp he with hG | hD
        · have hoe : (G0.outEdges c).isEmpty = true := by
            have := htermout c hc3
            rw [hc1] at this
            exact this.symm
          have : e ∈ G0.outEdges c := List.mem_filter.mpr ⟨hG, by simp [hec]⟩
          rw [List.isEmpty_iff.mp hoe] at this
          cases this
        · exact hfresh n (List.mem_cons_self _ _) e hD hen
    rw [hbody]
    have hLrest : ∀ m ∈ rest, m ∈ terminalIds G0 ∧ m ≠ get_root_dep_tree G0 :=
      fun m hm => hL m (List.mem_cons_of_mem _ hm)
    have hfresh2 : ∀ m ∈ rest, ∀ e ∈ deps ++ [(c, n, some "dependency")], e.2.1 ≠ m := by
      intro m hm e he
      rcases List.mem_append.mp he with hD | hNew
      · exact hfresh m (List.mem_cons_of_mem _ hm) e hD
      · have heq2 : e = (c, n, some "dependency") := by simpa using hNew
        subst heq2
        show n ≠ m
        intro hcon
        exact (List.nodup_cons.mp hnd).1 (hcon ▸ hm)
    have hgood2 : GoodDeps G0 (deps ++ [(c, n, some "dependency")]) := by
      intro e he
      rcases List.mem_append.mp he with hD | hNew
      · exact hgood e hD
      · have heq : e = (c, n, some "dependency") := by simpa using hNew
        rw [heq]
        exact ⟨hc1, ((mem_terminalIds_iff hnodup).mp hterm).2, hc2, rfl, hc3,
          terminalIds_sub hterm⟩
    obtain ⟨deps2, heq, hmap, hg2⟩ := enrich_fold hval rest
      (deps ++ [(c, n, some "dependency")]) hgood2 hLrest hfresh2
      (List.nodup_cons.mp hnd).2
    refine ⟨(c, n, some "dependency") :: deps2, ?_, ?_, ?_⟩
    · rw [show (G0.edges ++ deps) ++ [(c, n, some "dependency")] =
          G0.edges ++ (deps ++ [(c, n, some "dependency")]) from (List.append_assoc _ _ _),
        heq]
      congr 1
      simp
    · rw [List.map_cons, hmap]
    · intro e he
      rcases List.mem_cons.mp he with heq2 | hmem
      · rw [heq2]
        exact ⟨hc1, ((mem_terminalIds_iff hnodup).mp hterm).2, hc2, rfl, hc3,
          terminalIds_sub hterm⟩
      · exact hg2 e hmem

/-- The characterisation of `enrich_ast_with_deps` on valid trees. -/
theorem enrich_spec {G0 : Graph} (hval : validB G0 = true) :
    ∃ deps, enrich_ast_with_deps G0 = ⟨G0.nodes, G0.edges ++ deps⟩ ∧
      deps.map (fun e => e.2.1) = depTargets G0 ∧ GoodDeps G0 deps := by
  have hnodup : G0.nodeIds.Nodup := (validB_and hval).1
  obtain ⟨deps2, heq, hmap, hgood⟩ := enrich_fold hval (depTargets G0) []
    (fun e he => absurd he (List.not_mem_nil e))
    (fun n hn => depTargets_sub hn)
    (fun n _ e he => absurd he (List.not_mem_nil e))
    (depTargets_nodup hnodup)
  refine ⟨deps2, ?_, hmap, hgood⟩
  unfold enrich_ast_with_deps
  have h0 : (⟨G0.nodes, G0.edges ++ []⟩ : Graph) = G0 := by
    cases G0
    simp
  rw [h0] at heq
  rw [heq]
  simp

theorem length_filter_map_eq {α β : Type} (f : α → β) (p : β → Bool) (l : List α) :
    ((l.map f).filter p).length = (l.filter (fun a => p (f a))).length := by
  induction l with
  | nil => rfl
  | cons a l ih => by_cases hp : p (f a) = true <;> simp [List.filter_cons, hp, ih]

theorem length_filter_beq_of_nodup {l : List Nat} (h : l.Nodup) (t : Nat) :
    (l.filter (fun x => x == t)).length = if t ∈ l then 1 else 0 := by
  induction l with
  | nil => simp
  | cons a l ih =>
    rw [List.filter_cons]
    by_cases hat : a = t
    · subst hat
      have hnotin : a ∉ l := (List.nodup_cons.mp h).1
      simp [hnotin, ih (List.nodup_cons.mp h).2]
    · have hbeq : (a == t) = false := by simpa using hat
      have hta : ¬ t = a := fun hc => hat hc.symm
      simp [hbeq, ih (List.nodup_cons.mp h).2, hta]

theorem length_filter_ne_of_nodup {l : List Nat} (h : l.Nodup) {t : Nat} (ht : t ∈ l) :
    (l.filter (fun x => !(x == t))).length + 1 = l.length := by
  induction l with
  | nil => cases ht
  | cons a l ih =>
    rw [List.filter_cons]
    by_cases hat : a = t
    · subst hat
      have hnotin : a ∉ l := (List.nodup_cons.mp h).1
      have hall : l.filter (fun x => !(x == a)) = l := by
        apply List.filter_eq_self.mpr
        intro b hb
        have : ¬ b = a := fun hc => hnotin (hc ▸ hb)
        simpa using this
      simp [hall]
    · have hmem : t ∈ l := by
        rcases List.mem_cons.mp ht with h1 | h1
        · exact absurd h1.symm hat
        · exact h1
      have hcond : (!(a == t)) = true := by simpa using hat
      simp only [hcond, if_pos, List.length_cons]
      have := ih (List.nodup_cons.mp h).2 hmem
      omega

theorem terminalIds_nodup {G : Graph} (h : G.nodeIds.Nodup) : (terminalIds G).Nodup :=
  h.sublist ((List.filter_sublist G.nodes).map Prod.fst)

theorem mem_depTargets_iff {G : Graph} (hnodup : G.nodeIds.Nodup) {t : Nat} :
    t ∈ depTargets G ↔ t ∈ terminalIds G ∧ t ≠ get_root_dep_tree G := by
  constructor
  · exact depTargets_sub
  · rintro ⟨h1, h2⟩
    rcases List.mem_map.mp h1 with ⟨p, hp, rfl⟩
    apply List.mem_map.mpr
    refine ⟨p, ?_, rfl⟩
    rw [List.mem_filter]
    refine ⟨List.mem_of_mem_filter hp, ?_⟩
    simp only [Bool.and_eq_true, decide_eq_true_eq]
    exact ⟨fun hc => h2 hc.symm, (List.mem_filter.mp hp).2⟩

/-- The characterisation of `get_dependency_tree ∘ enrich_ast_with_deps`
on valid trees: nodes are the terminals, edges are exactly the added
dependency edges, one targeting each non-root terminal. -/
theorem dep_tree_spec {G0 : Graph} (hval : validB G0 = true) :
    ∃ deps, get_dependency_tree (enrich_ast_with_deps G0) =
        ⟨G0.nodes.filter (fun p => p.2.is_terminal), deps⟩ ∧
      deps.map (fun e => e.2.1) = depTargets G0 ∧ GoodDeps G0 deps := by
  obtain ⟨hnodup, hclosed, hunlab, hroot, hrootin, hindeg, hreach, hup, htermout, htne,
    hdist⟩ := validB_and hval
  obtain ⟨deps, heq, hmap, hgood⟩ := enrich_spec hval
  refine ⟨deps, ?_, hmap, hgood⟩
  rw [heq]
  unfold get_dependency_tree
  have hattr : ∀ m, (Graph.mk G0.nodes (G0.edges ++ deps)).attr m = G0.attr m := fun m => rfl
  congr 1
  rw [show (Graph.mk G0.nodes (G0.edges ++ deps)).edges = G0.edges ++ deps from rfl,
    List.filter_append]
  have h1 : G0.edges.filter (fun e =>
      ((Graph.mk G0.nodes (G0.edges ++ deps)).attr e.1).is_terminal &&
      ((Graph.mk G0.nodes (G0.edges ++ deps)).attr e.2.1).is_terminal &&
      truthyLabel e.2.2) = [] := by
    apply List.filter_eq_nil_iff.mpr
    intro e he
    have hsrc : (G0.attr e.1).is_terminal = false := by
      have hout : e ∈ G0.outEdges e.1 := List.mem_filter.mpr ⟨he, by simp⟩
      have hoe2 : (G0.outEdges e.1).isEmpty = false := by
        cases hx : G0.outEdges e.1 with
        | nil => rw [hx] at hout; cases hout
        | cons a l => rfl
      rw [htermout e.1 (hclosed e he).1]
      exact hoe2
    rw [hattr, hsrc]
    simp
  have h2 : deps.filter (fun e =>
      ((Graph.mk G0.nodes (G0.edges ++ deps)).attr e.1).is_terminal &&
      ((Graph.mk G0.nodes (G0.edges ++ deps)).attr e.2.1).is_terminal &&
      truthyLabel e.2.2) = deps := by
    apply List.filter_eq_self.mpr
    intro e he
    obtain ⟨hs, ht, -, hlab, -, -⟩ := hgood e he
    rw [hattr, hattr, hs, ht, hlab]
    rfl
  rw [h1, h2]
  rfl

theorem depTargets_eq_filter {G : Graph} :
    depTargets G = (terminalIds G).filter (fun m => !(m == get_root_dep_tree G)) := by
  unfold depTargets terminalIds
  rw [← map_fst_filter_key, List.filter_filter]
  apply congrArg
  apply List.filter_congr
  intro a _
  by_cases h : a.1 = get_root_dep_tree G
  · simp [h, Bool.and_comm]
  · have h2 : ¬ get_root_dep_tree G = a.1 := fun hc => h hc.symm
    simp [h, h2, Bool.and_comm]

/-- Nonempty directed paths. -/
inductive StepPlus (adj : List (Nat × Nat)) : Nat → Nat → Prop
  | single {a b : Nat} : (a, b) ∈ adj → StepPlus adj a b
  | tail {a b c : Nat} : StepPlus adj a b → (b, c) ∈ adj → StepPlus adj a c

theorem stepPlus_start_lt {G0 : Graph} {N : List (Nat × Attr)}
    {deps : List (Nat × Nat × Option String)} (hgood : GoodDeps G0 deps) {a b : Nat}
    (h : StepPlus (Graph.adj ⟨N, deps⟩) a b) : (G0.attr a).start < (G0.attr b).start := by
  have hpair : ∀ {x y : Nat}, (x, y) ∈ (Graph.adj ⟨N, deps⟩) →
      (G0.attr x).start < (G0.attr y).start := by
    intro x y hxy
    rcases List.mem_map.mp hxy with ⟨e, he, heq⟩
    have hx : e.1 = x := congrArg Prod.fst heq
    have hy : e.2.1 = y := congrArg Prod.snd heq
    rw [← hx, ← hy]
    exact (hgood e he).2.2.1
  induction h with
  | single hadj => exact hpair hadj
  | tail hsp hadj ih => exact Nat.lt_trans ih (hpair hadj)

/-- **C1.**  On every valid constituency tree, enriching with dependency
edges and taking the terminal subgraph yields a tree: the nodes are
exactly the `n` terminals, there are exactly `n - 1` dependency edges;
the dependency root has no head and every other terminal exactly one; every
terminal is reachable from the dependency root (single connected
component); and there are no cycles. -/
theorem c1_dependency_tree_is_tree (G : Graph) (h : validB G = true) :
    (get_dependency_tree (enrich_ast_with_deps G)).nodeIds = terminalIds G ∧
    (get_dependency_tree (enrich_ast_with_deps G)).edges.length =
      (terminalIds G).length - 1 ∧
    ((get_dependency_tree (enrich_ast_with_deps G)).inEdges
      (get_root_dep_tree G)).length = 0 ∧
    (∀ t ∈ terminalIds G, t ≠ get_root_dep_tree G →
      ((get_dependency_tree (enrich_ast_with_deps G)).inEdges t).length = 1) ∧
    (∀ t ∈ terminalIds G,
      ReachL (get_dependency_tree (enrich_ast_with_deps G)).adj (get_root_dep_tree G) t) ∧
    (∀ a, ¬ StepPlus (get_dependency_tree (enrich_ast_with_deps G)).adj a a) := by
  obtain ⟨hnodup, hclosed, hunlab, hroot, hrootin, hindeg, hreach, hup, htermout, htne,
    hdist⟩ := validB_and h
  obtain ⟨hrmem, hrmin⟩ := root_dep_spec htne hdist
  obtain ⟨deps, heqD, hmap, hgood⟩ := dep_tree_spec h
  rw [heqD]
  have hdepslen : deps.length = (depTargets G).length := by
    rw [← hmap, List.length_map]
  have hinlen : ∀ t : Nat, ((Graph.mk (G.nodes.filter (fun p => p.2.is_terminal)) deps).inEdges
      t).length = if t ∈ depTargets G then 1 else 0 := by
    intro t
    show (deps.filter (fun e => e.2.1 == t)).length = _
    have h1 := length_filter_map_eq (fun e => e.2.1) (fun x => x == t) deps
    rw [hmap] at h1
    rw [← h1]
    exact length_filter_beq_of_nodup (depTargets_nodup hnodup) t
  refine ⟨rfl, ?_, ?_, ?_, ?_, ?_⟩
  · show deps.length = (terminalIds G).length - 1
    rw [hdepslen, depTargets_eq_filter]
    have := length_filter_ne_of_nodup (terminalIds_nodup hnodup) hrmem
    omega
  · rw [hinlen]
    have : get_root_dep_tree G ∉ depTargets G := fun hc => (depTargets_sub hc).2 rfl
    simp [this]
  · intro t ht hne
    rw [hinlen]
    have : t ∈ depTargets G := (mem_depTargets_iff hnodup).mpr ⟨ht, hne⟩
    simp [this]
  · have hreachD : ∀ s, ∀ t ∈ terminalIds G, (G.attr t).start < s →
        ReachL (Graph.adj ⟨G.nodes.filter (fun p => p.2.is_terminal), deps⟩)
          (get_root_dep_tree G) t := by
      intro s
      induction s with
      | zero => intro t _ hlt; omega
      | succ s ih =>
        intro t ht hlt
        by_cases hroott : t = get_root_dep_tree G
        · rw [hroott]
          exact ReachL.refl
        · have htD : t ∈ depTargets G := (mem_depTargets_iff hnodup).mpr ⟨ht, hroott⟩
          have htm : t ∈ deps.map (fun e => e.2.1) := by rw [hmap]; exact htD
          rcases List.mem_map.mp htm with ⟨e, he, heq⟩
          obtain ⟨hs1, hs2, hslt, -, hsmem, -⟩ := hgood e he
          have hterm1 : e.1 ∈ terminalIds G := (mem_terminalIds_iff hnodup).mpr ⟨hsmem, hs1⟩
          rw [heq] at hslt
          have hr1 := ih e.1 hterm1 (by omega)
          refine ReachL.step hr1 ?_
          apply List.mem_map.mpr
          exact ⟨e, he, by rw [heq]⟩
    intro t ht
    exact hreachD ((G.attr t).start + 1) t ht (Nat.lt_succ_self _)
  · intro a hsp
    have := stepPlus_start_lt hgood hsp
    omega

/-- A concrete valid constituency tree: `module → (a, expr → (b, c))`. -/
def exValid : Graph :=
  ⟨[(0, ⟨"module", false, 0, 10⟩), (1, ⟨"a", true, 0, 1⟩), (2, ⟨"expr", false, 2, 9⟩),
    (3, ⟨"b", true, 2, 3⟩), (4, ⟨"c", true, 4, 5⟩)],
   [(0, 1, none), (0, 2, none), (2, 3, none), (2, 4, none)]⟩

/-- **C1 witness**: the tree facts evaluated on `exValid`. -/
theorem c1_dependency_tree_is_tree_witness :
    validB exValid = true ∧
    ((get_dependency_tree (enrich_ast_with_deps exValid)).nodeIds = terminalIds exValid ∧
    (get_dependency_tree (enrich_ast_with_deps exValid)).edges.length =
      (terminalIds exValid).length - 1 ∧
    ((get_dependency_tree (enrich_ast_with_deps exValid)).inEdges
      (get_root_dep_tree exValid)).length = 0 ∧
    (∀ t ∈ terminalIds exValid, t ≠ get_root_dep_tree exValid →
      ((get_dependency_tree (enrich_ast_with_deps exValid)).inEdges t).length = 1) ∧
    (∀ t ∈ terminalIds exValid,
      ReachL (get_dependency_tree (enrich_ast_with_deps exValid)).adj
        (get_root_dep_tree exValid) t) ∧
    (∀ a, ¬ StepPlus (get_dependency_tree (enrich_ast_with_deps exValid)).adj a a)) :=
  ⟨by decide, c1_dependency_tree_is_tree exValid (by decide)⟩

/-- **C7.**  On every valid constituency tree the head-search loop of
`select_head` terminates with a head for every non-root terminal: the
candidate ancestor climbs the finite parent chain and at the latest at the
root finds a terminal with smaller `start` (the dependency root). -/
theorem c7_select_head_terminates (G : Graph) (h : validB G = true) (n : Nat)
    (hn : n ∈ terminalIds G) (hne : n ≠ get_root_dep_tree G) :
    (select_head G n).isSome = true := by
  obtain ⟨c, hc, -⟩ := select_head_some h (EnrichInv.refl G) hn hne
  rw [hc]
  rfl

/-- **C7 witness**: termination on a concrete non-root terminal. -/
theorem c7_select_head_terminates_witness :
    validB exValid = true ∧ 3 ∈ terminalIds exValid ∧ 3 ≠ get_root_dep_tree exValid ∧
    (select_head exValid 3).isSome = true :=
  ⟨by decide, by decide, by decide,
    c7_select_head_terminates exValid (by decide) 3 (by decide) (by decide)⟩

/-! ### Claim C2: the spec-side description of the head rule -/

/-- Modelled from the spec: the chain of candidate ancestors tried
bottom-up (a node, then its parent, and so on), cut off at a missing
in-edge and fuelled by `k`. -/
def ancChain (G : Graph) : Nat → Nat → List Nat
  | 0, f => [f]
  | k + 1, f =>
    f :: (match G.inEdges f with
      | [] => []
      | e :: _ => ancChain G k e.1)

/-- Modelled from the spec: the terminals with `start_byte < s` reachable
from the ancestor `a`. -/
def specCandidates (G : Graph) (a s : Nat) : List Nat :=
  (reachable G a).filter (fun t => (G.attr t).is_terminal && decide ((G.attr t).start < s))

/-- The element with the smallest `start` (first such on ties). -/
def argminStart (G : Graph) : List Nat → Option Nat
  | [] => none
  | m :: rest =>
    some (rest.foldl (fun b x => if (G.attr x).start < (G.attr b).start then x else b) m)

/-- Modelled from the spec: the head of `n` is the terminal with the
smallest `start_byte` among the terminals preceding `n` that are reachable
from the lowest ancestor of `n` having any such terminal, the ancestors
being tried bottom-up starting at `n`'s parent. -/
def specHead (G : Graph) (n : Nat) : Option Nat :=
  match G.inEdges n with
  | [] => none
  | e :: _ =>
    match (ancChain G G.nodes.length e.1).find?
        (fun a => !(specCandidates G a (G.attr n).start).isEmpty) with
    | none => none
    | some a => argminStart G (specCandidates G a (G.attr n).start)

theorem mem_specCandidates_iff {G : Graph} {a s m : Nat} :
    m ∈ specCandidates G a s ↔
      m ∈ reachable G a ∧ (G.attr m).is_terminal = true ∧ (G.attr m).start < s := by
  unfold specCandidates
  rw [List.mem_filter]
  constructor
  · rintro ⟨h1, h2⟩
    simp only [Bool.and_eq_true, decide_eq_true_eq] at h2
    exact ⟨h1, h2.1, h2.2⟩
  · rintro ⟨h1, h2, h3⟩
    refine ⟨h1, ?_⟩
    simp only [Bool.and_eq_true, decide_eq_true_eq]
    exact ⟨h2, h3⟩

theorem specCandidates_nil_iff {G : Graph} {a s : Nat} :
    specCandidates G a s = [] ↔ candList G a s = [] := by
  rw [List.eq_nil_iff_forall_not_mem, List.eq_nil_iff_forall_not_mem]
  constructor
  · intro h m hm
    exact h m (mem_specCandidates_iff.mpr (mem_candList_iff.mp hm))
  · intro h m hm
    exact h m (mem_candList_iff.mpr (mem_specCandidates_iff.mp hm))

theorem argmin_fold_spec (G : Graph) :
    ∀ (rest : List Nat) (b : Nat),
    ((rest.foldl (fun b2 x => if (G.attr x).start < (G.attr b2).start then x else b2) b) = b ∨
      (rest.foldl (fun b2 x => if (G.attr x).start < (G.attr b2).start then x else b2) b) ∈ rest) ∧
    (G.attr (rest.foldl (fun b2 x => if (G.attr x).start < (G.attr b2).start then x else b2)
      b)).start ≤ (G.attr b).start ∧
    ∀ x ∈ rest, (G.attr (rest.foldl
      (fun b2 x => if (G.attr x).start < (G.attr b2).start then x else b2) b)).start ≤
      (G.attr x).start
  | [], b => ⟨Or.inl rfl, Nat.le_refl _, fun x hx => absurd hx (List.not_mem_nil x)⟩
  | x :: rest, b => by
    rw [List.foldl_cons]
    obtain ⟨hmem, hleb, hall⟩ := argmin_fold_spec G rest
      (if (G.attr x).start < (G.attr b).start then x else b)
    by_cases hc : (G.attr x).start < (G.attr b).start
    · rw [if_pos hc] at hmem hleb hall ⊢
      refine ⟨?_, ?_, ?_⟩
      · rcases hmem with h1 | h1
        · exact Or.inr (by rw [h1]; exact List.mem_cons_self _ _)
        · exact Or.inr (List.mem_cons_of_mem _ h1)
      · exact Nat.le_trans hleb (Nat.le_of_lt hc)
      · intro y hy
        rcases List.mem_cons.mp hy with h1 | h1
        · rw [h1]
          exact hleb
        · exact hall y h1
    · rw [if_neg hc] at hmem hleb hall ⊢
      refine ⟨?_, hleb, ?_⟩
      · rcases hmem with h1 | h1
        · exact Or.inl h1
        · exact Or.inr (List.mem_cons_of_mem _ h1)
      · intro y hy
        rcases List.mem_cons.mp hy with h1 | h1
        · rw [h1]
          exact Nat.le_trans hleb (Nat.le_of_not_lt hc)
        · exact hall y h1

theorem argminStart_spec {G : Graph} {l : List Nat} {c : Nat}
    (h : argminStart G l = some c) :
    c ∈ l ∧ ∀ m ∈ l, (G.attr c).start ≤ (G.attr m).start := by
  rcases l with _ | ⟨m, rest⟩
  · cases h
  · have hc : c = rest.foldl
        (fun b2 x => if (G.attr x).start < (G.attr b2).start then x else b2) m := by
      have : argminStart G (m :: rest) = some (rest.foldl
        (fun b2 x => if (G.attr x).start < (G.attr b2).start then x else b2) m) := rfl
      rw [this] at h
      exact (Option.some_inj.mp h).symm
    obtain ⟨hmem, hleb, hall⟩ := argmin_fold_spec G rest m
    rw [← hc] at hmem hleb hall
    constructor
    · rcases hmem with h1 | h1
      · exact h1 ▸ List.mem_cons_self _ _
      · exact List.mem_cons_of_mem _ h1
    · intro y hy
      rcases List.mem_cons.mp hy with h1 | h1
      · rw [h1]
        exact hleb
      · exact hall y h1

/-- Under the valid-tree hypotheses the code's candidate choice equals the
spec's minimum. -/
theorem get_candidate_eq_argmin {G : Graph} (hnodup : G.nodeIds.Nodup)
    (hdist : ((terminalIds G).map (fun n => (G.attr n).start)).Nodup) (a s : Nat) :
    get_candidate G a s = argminStart G (specCandidates G a s) := by
  have hsubterm : ∀ {m : Nat}, m ∈ candList G a s → m ∈ terminalIds G := by
    intro m hm
    obtain ⟨-, h1, -⟩ := mem_candList_iff.mp hm
    exact (mem_terminalIds_iff hnodup).mpr ⟨mem_nodeIds_of_attr_terminal h1, h1⟩
  have hsubterm2 : ∀ {m : Nat}, m ∈ specCandidates G a s → m ∈ terminalIds G := by
    intro m hm
    exact hsubterm (mem_candList_iff.mpr (mem_specCandidates_iff.mp hm))
  rcases hsp : specCandidates G a s with _ | ⟨m0, rest⟩
  · have hnone : get_candidate G a s = none :=
      get_candidate_none_iff.mpr (specCandidates_nil_iff.mp hsp)
    rw [hnone]
    rfl
  · rcases hgc : get_candidate G a s with _ | c
    · exfalso
      have hnil := get_candidate_none_iff.mp hgc
      have hm0 : m0 ∈ candList G a s := by
        apply mem_candList_iff.mpr
        apply mem_specCandidates_iff.mp
        rw [hsp]
        exact List.mem_cons_self _ _
      rw [hnil] at hm0
      cases hm0
    · obtain ⟨hcmem, hcmin⟩ := get_candidate_some_spec hgc
      rcases ham : argminStart G (specCandidates G a s) with _ | c2
      · rw [hsp] at ham
        cases ham
      · obtain ⟨h2mem, h2min⟩ := argminStart_spec ham
        have hcs : c ∈ specCandidates G a s :=
          mem_specCandidates_iff.mpr (mem_candList_iff.mp hcmem)
      -- both are minima over membership-equal lists, and starts are distinct
        have hc2c : c2 ∈ candList G a s :=
          mem_candList_iff.mpr (mem_specCandidates_iff.mp h2mem)
        have hle1 : (G.attr c).start ≤ (G.attr c2).start := hcmin c2 hc2c
        have hle2 : (G.attr c2).start ≤ (G.attr c).start := h2min c hcs
        have heqs : (G.attr c2).start = (G.attr c).start := Nat.le_antisymm hle2 hle1
        have hc2eq : c2 = c := List.inj_on_of_nodup_map hdist (hsubterm2 h2mem) (hsubterm hcmem) heqs
        rw [← hsp, ham, hc2eq]

/-- A nonempty candidate list makes the spec predicate true, an empty one
makes it false; both phrased through the code's `get_candidate`. -/
theorem spec_pred_of_get_candidate {G : Graph} {a s : Nat} :
    (!(specCandidates G a s).isEmpty) = (get_candidate G a s).isSome := by
  rcases hgc : get_candidate G a s with _ | c
  · have h1 : candList G a s = [] := get_candidate_none_iff.mp hgc
    have h2 : specCandidates G a s = [] := specCandidates_nil_iff.mpr h1
    rw [h2]
    rfl
  · rcases hsp : specCandidates G a s with _ | ⟨m, rest⟩
    · exfalso
      have h1 : get_candidate G a s = none :=
        get_candidate_none_iff.mpr (specCandidates_nil_iff.mp hsp)
      rw [h1] at hgc
      cases hgc
    · rfl

/-- The fuelled head-search loop of the code equals the spec's bottom-up
ancestor search: find the first ancestor (along first in-edges, `n`'s
parent first) whose subtree has candidates, and return its candidate. -/
theorem select_headAux_eq_find (G : Graph) (s : Nat) :
    ∀ (k a : Nat),
    select_headAux G s (k + 1) a =
      match (ancChain G k a).find?
          (fun x => !(specCandidates G x s).isEmpty) with
      | none => none
      | some x => get_candidate G x s
  | 0, a => by
    have hred : select_headAux G s (0 + 1) a =
        (match get_candidate G a s with
          | some cand => some cand
          | none =>
            match G.inEdges a with
            | [] => none
            | e :: _ => select_headAux G s 0 e.1) := rfl
    rw [hred]
    have hanc : ancChain G 0 a = [a] := rfl
    rw [hanc]
    rcases hgc : get_candidate G a s with _ | c
    · have hpred : (!(specCandidates G a s).isEmpty) = false := by
        rw [spec_pred_of_get_candidate, hgc]
        rfl
      rw [List.find?_cons_of_neg (p := fun x => !(specCandidates G x s).isEmpty) _
        (by simp only [hpred]; exact Bool.false_ne_true)]
      rcases G.inEdges a with _ | ⟨e, rest⟩
      · rfl
      · rfl
    · have hpred : (!(specCandidates G a s).isEmpty) = true := by
        rw [spec_pred_of_get_candidate, hgc]
        rfl
      rw [List.find?_cons_of_pos (p := fun x => !(specCandidates G x s).isEmpty) _ hpred]
      exact hgc.symm
  | k + 1, a => by
    have hred : select_headAux G s (k + 1 + 1) a =
        (match get_candidate G a s with
          | some cand => some cand
          | none =>
            match G.inEdges a with
            | [] => none
            | e :: _ => select_headAux G s (k + 1) e.1) := rfl
    rw [hred]
    have hanc : ancChain G (k + 1) a =
        a :: (match G.inEdges a with
          | [] => []
          | e :: _ => ancChain G k e.1) := rfl
    rw [hanc]
    rcases hgc : get_candidate G a s with _ | c
    · have hpred : (!(specCandidates G a s).isEmpty) = false := by
        rw [spec_pred_of_get_candidate, hgc]
        rfl
      rw [List.find?_cons_of_neg (p := fun x => !(specCandidates G x s).isEmpty) _
        (by simp only [hpred]; exact Bool.false_ne_true)]
      rcases hin : G.inEdges a with _ | ⟨e, rest⟩
      · rfl
      · exact select_headAux_eq_find G s k e.1
    · have hpred : (!(specCandidates G a s).isEmpty) = true := by
        rw [spec_pred_of_get_candidate, hgc]
        rfl
      rw [List.find?_cons_of_pos (p := fun x => !(specCandidates G x s).isEmpty) _ hpred]
      exact hgc.symm

/-- On graphs with duplicate-free node ids and pairwise-distinct terminal
`start` offsets, the code's `select_head` coincides with the spec-side
head description `specHead`. -/
theorem select_head_eq_specHead {G : Graph} (hnodup : G.nodeIds.Nodup)
    (hdist : ((terminalIds G).map (fun n => (G.attr n).start)).Nodup) (n : Nat) :
    select_head G n = specHead G n := by
  have hred1 : select_head G n =
      (match G.inEdges n with
        | [] => none
        | e :: _ => select_headAux G (G.attr n).start (G.nodes.length + 1) e.1) := rfl
  have hred2 : specHead G n =
      (match G.inEdges n with
        | [] => none
        | e :: _ =>
          match (ancChain G G.nodes.length e.1).find?
              (fun a => !(specCandidates G a (G.attr n).start).isEmpty) with
          | none => none
          | some a => argminStart G (specCandidates G a (G.attr n).start)) := rfl
  rw [hred1, hred2]
  rcases hin : G.inEdges n with _ | ⟨e, rest⟩
  · rfl
  · show select_headAux G (G.attr n).start (G.nodes.length + 1) e.1 =
      (match (ancChain G G.nodes.length e.1).find?
          (fun a => !(specCandidates G a (G.attr n).start).isEmpty) with
      | none => none
      | some a => argminStart G (specCandidates G a (G.attr n).start))
    rw [select_headAux_eq_find]
    rcases hf : (ancChain G G.nodes.length e.1).find?
        (fun a => !(specCandidates G a (G.attr n).start).isEmpty) with _ | a
    · rfl
    · exact get_candidate_eq_argmin hnodup hdist a (G.attr n).start

/-- **C2.**  On every valid constituency tree the dependency root returned
by `get_root_dep_tree` is the terminal with the strictly smallest `start`
offset, and for every node `n` the head computed by `select_head` equals
the spec's rule `specHead`: the terminal with the smallest `start` among
the terminals with `start < n.start` reachable from the lowest ancestor of
`n` having any such terminal, ancestors tried bottom-up from `n`'s parent. -/
theorem c2_root_and_head_rule (G : Graph) (h : validB G = true) :
    (get_root_dep_tree G ∈ terminalIds G ∧
      ∀ t ∈ terminalIds G, t ≠ get_root_dep_tree G →
        (G.attr (get_root_dep_tree G)).start < (G.attr t).start) ∧
    (∀ n, select_head G n = specHead G n) := by
  obtain ⟨h1, -, -, -, -, -, -, -, -, h10, h11⟩ := validB_and h
  exact ⟨root_dep_spec h10 h11, fun n => select_head_eq_specHead h1 h11 n⟩

/-- **C2 witness**: the root rule and the head correspondence evaluated on
the concrete valid tree `exValid`. -/
theorem c2_root_and_head_rule_witness :
    validB exValid = true ∧
    ((get_root_dep_tree exValid ∈ terminalIds exValid ∧
      ∀ t ∈ terminalIds exValid, t ≠ get_root_dep_tree exValid →
        (exValid.attr (get_root_dep_tree exValid)).start < (exValid.attr t).start) ∧
    (∀ n, select_head exValid n = specHead exValid n)) :=
  ⟨by decide, c2_root_and_head_rule exValid (by decide)⟩

/-! ### Claim C9: the terminal collapser `solve_string_problems` -/

theorem adj_mem_iff {G : Graph} {a b : Nat} :
    (a, b) ∈ G.adj ↔ ∃ lab, (a, b, lab) ∈ G.edges := by
  unfold Graph.adj
  rw [List.mem_map]
  constructor
  · rintro ⟨e, he, heq⟩
    refine ⟨e.2.2, ?_⟩
    have h1 : e.1 = a := congrArg Prod.fst heq
    have h2 : e.2.1 = b := congrArg (fun p => p.2) heq
    rw [← h1, ← h2]
    exact he
  · rintro ⟨lab, h⟩
    exact ⟨(a, b, lab), h, rfl⟩

/-- A nonempty path starts with an edge out of its start point. -/
theorem stepPlus_first {adj : List (Nat × Nat)} {a b : Nat} (h : StepPlus adj a b) :
    ∃ c, (a, c) ∈ adj := by
  induction h with
  | single hadj => exact ⟨_, hadj⟩
  | tail hsp hadj ih => exact ih

theorem stepPlus_toReach {adj : List (Nat × Nat)} {a b : Nat} (h : StepPlus adj a b) :
    ReachL adj a b := by
  induction h with
  | single hadj => exact ReachL.step ReachL.refl hadj
  | tail hsp hadj ih => exact ReachL.step ih hadj

/-- A nonempty path ends with an edge into its endpoint. -/
theorem stepPlus_last {adj : List (Nat × Nat)} {a b : Nat} (h : StepPlus adj a b) :
    ∃ c, ReachL adj a c ∧ (c, b) ∈ adj := by
  cases h with
  | single hadj => exact ⟨a, ReachL.refl, hadj⟩
  | tail hsp hadj => exact ⟨_, stepPlus_toReach hsp, hadj⟩

theorem stepPlus_of_reachL_ne {adj : List (Nat × Nat)} {a b : Nat}
    (h : ReachL adj a b) (hne : a ≠ b) : StepPlus adj a b := by
  induction h with
  | refl => exact absurd rfl hne
  | @step v w hr hadj ih =>
    by_cases hav : a = v
    · exact hav ▸ StepPlus.single hadj
    · exact StepPlus.tail (ih hav) hadj

theorem stepPlus_trans_reach {adj : List (Nat × Nat)} {a b c : Nat}
    (h1 : StepPlus adj a b) (h2 : ReachL adj b c) : StepPlus adj a c := by
  induction h2 with
  | refl => exact h1
  | step hr hadj ih => exact StepPlus.tail ih hadj

theorem stepPlus_of_adj_reach {adj : List (Nat × Nat)} {a b c : Nat}
    (h1 : (a, b) ∈ adj) (h2 : ReachL adj b c) : StepPlus adj a c :=
  stepPlus_trans_reach (StepPlus.single h1) h2

/-- Along the bounded parent climb no node lies on a directed cycle. -/
theorem upSteps_no_cycle {G : Graph} (hval : validB G = true) :
    ∀ (k : Nat) (v : Nat), upSteps G k v = true → ¬ StepPlus G.adj v v := by
  obtain ⟨hnodup, hclosed, -, -, hrootin, hindeg, -, -, -, -, -⟩ := validB_and hval
  intro k
  induction k with
  | zero =>
    intro v hv hcyc
    have hv0 : v = 0 := by simpa [upSteps] using hv
    subst hv0
    rcases stepPlus_last hcyc with ⟨c, -, hadj⟩
    rcases adj_mem_iff.mp hadj with ⟨lab, hmem⟩
    have : (c, 0, lab) ∈ G.inEdges 0 := by
      unfold Graph.inEdges
      rw [List.mem_filter]
      exact ⟨hmem, by simp⟩
    rw [hrootin] at this
    cases this
  | succ k ih =>
    intro v hv hcyc
    by_cases hv0 : v = 0
    · subst hv0
      rcases stepPlus_last hcyc with ⟨c, -, hadj⟩
      rcases adj_mem_iff.mp hadj with ⟨lab, hmem⟩
      have : (c, 0, lab) ∈ G.inEdges 0 := by
        unfold Graph.inEdges
        rw [List.mem_filter]
        exact ⟨hmem, by simp⟩
      rw [hrootin] at this
      cases this
    · rcases stepPlus_last hcyc with ⟨c, hreach, hadj⟩
      rcases adj_mem_iff.mp hadj with ⟨lab, hmem⟩
      have hvnode : v ∈ G.nodeIds := (hclosed _ hmem).2
      have hlen : (G.inEdges v).length = 1 := hindeg v hvnode hv0
      rcases hin : G.inEdges v with _ | ⟨e, rest⟩
      · rw [hin] at hlen
        cases hlen
      · have hrest : rest = [] := by
          rw [hin] at hlen
          simpa using hlen
        have hcm : (c, v, lab) ∈ G.inEdges v := by
          unfold Graph.inEdges
          rw [List.mem_filter]
          exact ⟨hmem, by simp⟩
        rw [hin, hrest] at hcm
        have hce : (c, v, lab) = e := by simpa using hcm
        have hup : upSteps G (k + 1) v = true := hv
        have hupred : upSteps G (k + 1) v =
            (v == 0 ||
              (match G.inEdges v with
                | [] => false
                | e :: _ => upSteps G k e.1)) := rfl
        rw [hupred, hin] at hup
        have hupk : upSteps G k e.1 = true := by
          rcases Bool.or_eq_true_iff.mp hup with h | h
          · exact absurd (by simpa using h) hv0
          · exact h
        have hc1 : e.1 = c := by rw [← hce]
        rw [hc1] at hupk
        exact ih c hupk (stepPlus_of_adj_reach hadj hreach)

/-- Valid constituency trees have no directed cycles. -/
theorem valid_no_cycle {G : Graph} (hval : validB G = true) (v : Nat) :
    ¬ StepPlus G.adj v v := by
  obtain ⟨-, hclosed, -, -, -, -, -, hup, -, -, -⟩ := validB_and hval
  intro hcyc
  rcases stepPlus_last hcyc with ⟨c, -, hadj⟩
  rcases adj_mem_iff.mp hadj with ⟨lab, hmem⟩
  exact upSteps_no_cycle hval G.nodes.length v (hup v (hclosed _ hmem).2) hcyc

/-- Reachability in a valid tree is antisymmetric. -/
theorem reach_antisymm {G : Graph} (hval : validB G = true) {u v : Nat}
    (h1 : ReachL G.adj u v) (h2 : ReachL G.adj v u) : u = v := by
  by_contra hne
  exact valid_no_cycle hval u
    (stepPlus_trans_reach (stepPlus_of_reachL_ne h1 hne) h2)

theorem bool_reshuffle (a1 a2 b1 b2 : Bool) :
    ((a1 && a2) && (b1 && b2)) = ((a1 && b1) && (a2 && b2)) := by
  cases a1 <;> cases a2 <;> cases b1 <;> cases b2 <;> rfl

theorem bool_regroup (a1 a2 b1 b2 : Bool) :
    ((a1 && a2) && (b1 && b2)) = ((b1 && a1) && (b2 && a2)) := by
  cases a1 <;> cases a2 <;> cases b1 <;> cases b2 <;> rfl

theorem cons_pred_eq {R : List Nat} {v n x : Nat} (hvn : v ≠ n) :
    (!(x == v) && !(R.contains x && x != n)) = !((v :: R).contains x && x != n) := by
  by_cases hx : x = v
  · subst hx
    simp [hvn]
  · simp [List.contains_cons, hx]

theorem cons_pred_eq_self {R : List Nat} {n x : Nat} :
    (!(R.contains x && x != n)) = !((n :: R).contains x && x != n) := by
  by_cases hx : x = n
  · subst hx
    simp
  · simp [List.contains_cons, hx]

/-- The removal loop of `collapseString` in closed form: drop the listed
vertices other than `n` together with their incident edges. -/
theorem remove_fold_eq (n : Nat) :
    ∀ (R : List Nat) (g : Graph),
    R.foldl (fun h v => if v ≠ n then h.remove_node v else h) g =
      ⟨g.nodes.filter (fun p => !(R.contains p.1 && p.1 != n)),
       g.edges.filter (fun e =>
         !(R.contains e.1 && e.1 != n) && !(R.contains e.2.1 && e.2.1 != n))⟩
  | [], g => by
    have h1 : g.nodes.filter (fun p => !(([] : List Nat).contains p.1 && p.1 != n)) = g.nodes :=
      List.filter_eq_self.mpr (fun a _ => rfl)
    have h2 : g.edges.filter (fun e =>
        !(([] : List Nat).contains e.1 && e.1 != n) &&
        !(([] : List Nat).contains e.2.1 && e.2.1 != n)) = g.edges :=
      List.filter_eq_self.mpr (fun a _ => rfl)
    show g = _
    rw [h1, h2]
  | v :: R, g => by
    rw [List.foldl_cons]
    by_cases hv : v ≠ n
    · rw [if_pos hv, remove_fold_eq n R (g.remove_node v)]
      show Graph.mk _ _ = Graph.mk _ _
      unfold Graph.remove_node
      congr 1
      · rw [List.filter_filter]
        exact List.filter_congr (fun p _ => by rw [Bool.and_comm, cons_pred_eq hv])
      · rw [List.filter_filter]
        refine List.filter_congr (fun e _ => ?_)
        rw [bool_regroup (!(R.contains e.1 && e.1 != n)) (!(R.contains e.2.1 && e.2.1 != n))
          (!(e.1 == v)) (!(e.2.1 == v)), cons_pred_eq hv, cons_pred_eq hv]
    · rw [if_neg hv, remove_fold_eq n R g]
      have hvn : v = n := not_not.mp hv
      subst hvn
      show Graph.mk _ _ = Graph.mk _ _
      congr 1
      · exact List.filter_congr (fun p _ => by rw [cons_pred_eq_self])
      · refine List.filter_congr (fun e _ => ?_)
        rw [cons_pred_eq_self (R := R) (n := v) (x := e.1),
          cons_pred_eq_self (R := R) (n := v) (x := e.2.1)]

/-- `collapseString` in closed form. -/
theorem collapseString_eq (g : Graph) (n : Nat) :
    collapseString g n =
      ⟨(g.nodes.filter (fun p => !((reachable g n).contains p.1 && p.1 != n))).map
         (fun p => if p.1 == n then (p.1, { p.2 with is_terminal := true }) else p),
       g.edges.filter (fun e =>
         !((reachable g n).contains e.1 && e.1 != n) &&
         !((reachable g n).contains e.2.1 && e.2.1 != n))⟩ := by
  show ((reachable g n).foldl (fun h v => if v ≠ n then h.remove_node v else h) g).setTerminal n = _
  rw [remove_fold_eq]
  rfl

theorem bool_eq_of_iff {a b : Bool} (h : a = true ↔ b = true) : a = b := by
  cases a <;> cases b <;> simp at h ⊢

theorem list_map_congr {α β : Type} {f g : α → β} :
    ∀ {l : List α}, (∀ a ∈ l, f a = g a) → l.map f = l.map g
  | [], _ => rfl
  | a :: l, h => by
    rw [List.map_cons, List.map_cons, h a (List.mem_cons_self _ _),
      list_map_congr (fun b hb => h b (List.mem_cons_of_mem _ hb))]

theorem map_eq_self_of_eq {α : Type} {f : α → α} :
    ∀ {l : List α}, (∀ a ∈ l, f a = a) → l.map f = l
  | [], _ => rfl
  | a :: l, h => by
    rw [List.map_cons, h a (List.mem_cons_self _ _),
      map_eq_self_of_eq (fun b hb => h b (List.mem_cons_of_mem _ hb))]

theorem contains_append_singleton (P : List Nat) (n x : Nat) :
    (P ++ [n]).contains x = (P.contains x || x == n) := by
  apply bool_eq_of_iff
  rw [List.elem_iff, Bool.or_eq_true_iff, List.elem_iff, List.mem_append, beq_iff_eq]
  simp

/-- Modelled from the spec: the vertices removed after collapsing the
string nodes `P` — everything strictly below some member of `P`, with
reachability read off the original graph. -/
def removedL (G : Graph) (P : List Nat) (v : Nat) : Bool :=
  P.any (fun m => (reachable G m).contains v && v != m)

/-- Modelled from the spec: the graph after collapsing the string nodes
`P`: drop every vertex strictly below a member of `P` together with its
incident edges, and mark the surviving members of `P` terminal. -/
def pruneState (G : Graph) (P : List Nat) : Graph :=
  ⟨(G.nodes.filter (fun p => !removedL G P p.1)).map
      (fun p => if P.contains p.1 then (p.1, { p.2 with is_terminal := true }) else p),
    G.edges.filter (fun e => !removedL G P e.1 && !removedL G P e.2.1)⟩

theorem pruneState_nil (G : Graph) : pruneState G [] = G := by
  show Graph.mk _ _ = _
  have h1 : G.nodes.filter (fun p => !removedL G [] p.1) = G.nodes :=
    List.filter_eq_self.mpr (fun a _ => rfl)
  have h2 : G.edges.filter (fun e => !removedL G [] e.1 && !removedL G [] e.2.1) = G.edges :=
    List.filter_eq_self.mpr (fun a _ => rfl)
  rw [h1, h2]
  have h3 : G.nodes.map (fun p => if ([] : List Nat).contains p.1 then
      (p.1, { p.2 with is_terminal := true }) else p) = G.nodes :=
    map_eq_self_of_eq (fun a _ => rfl)
  rw [h3]

theorem removedL_append (G : Graph) (P : List Nat) (n v : Nat) :
    removedL G (P ++ [n]) v =
      (removedL G P v || ((reachable G n).contains v && v != n)) := by
  unfold removedL
  rw [List.any_append]
  simp [List.any_cons]

theorem removedL_iff {G : Graph} {P : List Nat} {v : Nat} :
    removedL G P v = true ↔ ∃ m ∈ P, ReachL G.adj m v ∧ v ≠ m := by
  unfold removedL
  rw [List.any_eq_true]
  constructor
  · rintro ⟨m, hm, hb⟩
    rcases Bool.and_eq_true_iff.mp hb with ⟨h1, h2⟩
    exact ⟨m, hm, mem_reachable_iff.mp (List.elem_iff.mp h1), by simpa using h2⟩
  · rintro ⟨m, hm, hr, hne⟩
    refine ⟨m, hm, Bool.and_eq_true_iff.mpr ⟨?_, by simpa using hne⟩⟩
    exact List.elem_iff.mpr (mem_reachable_iff.mpr hr)

/-- The removed set is closed downwards under reachability. -/
theorem removedL_closed {G : Graph} (hval : validB G = true) {P : List Nat} {w v : Nat}
    (h : removedL G P w = true) (hr : ReachL G.adj w v) : removedL G P v = true := by
  rcases removedL_iff.mp h with ⟨m, hm, hmw, hwm⟩
  refine removedL_iff.mpr ⟨m, hm, ReachL.trans hmw hr, ?_⟩
  intro hvm
  subst hvm
  exact hwm (reach_antisymm hval hmw hr).symm

theorem pruneState_adj {G : Graph} {P : List Nat} {a b : Nat} :
    (a, b) ∈ (pruneState G P).adj ↔
      (a, b) ∈ G.adj ∧ removedL G P a = false ∧ removedL G P b = false := by
  constructor
  · intro h
    rcases adj_mem_iff.mp h with ⟨lab, hmem⟩
    have hmem2 : (a, b, lab) ∈ G.edges.filter
        (fun e => !removedL G P e.1 && !removedL G P e.2.1) := hmem
    have hmem3 := List.mem_filter.mp hmem2
    rcases Bool.and_eq_true_iff.mp hmem3.2 with ⟨h1, h2⟩
    exact ⟨adj_mem_iff.mpr ⟨lab, hmem3.1⟩, by simpa using h1, by simpa using h2⟩
  · rintro ⟨h, h1, h2⟩
    rcases adj_mem_iff.mp h with ⟨lab, hmem⟩
    refine adj_mem_iff.mpr ⟨lab, ?_⟩
    show (a, b, lab) ∈ G.edges.filter (fun e => !removedL G P e.1 && !removedL G P e.2.1)
    rw [List.mem_filter]
    refine ⟨hmem, ?_⟩
    show (!removedL G P a && !removedL G P b) = true
    rw [h1, h2]
    rfl

theorem pruneState_nodeIds (G : Graph) (P : List Nat) :
    (pruneState G P).nodeIds = G.nodeIds.filter (fun v => !removedL G P v) := by
  show ((G.nodes.filter (fun p => !removedL G P p.1)).map
    (fun p => if P.contains p.1 then (p.1, { p.2 with is_terminal := true }) else p)).map
      Prod.fst = _
  rw [List.map_map]
  have h1 : (G.nodes.filter (fun p => !removedL G P p.1)).map
      (Prod.fst ∘ (fun p => if P.contains p.1 then (p.1, { p.2 with is_terminal := true }) else p)) =
      (G.nodes.filter (fun p => !removedL G P p.1)).map Prod.fst := by
    refine list_map_congr (fun p _ => ?_)
    by_cases hc : P.contains p.1 = true
    · show (if P.contains p.1 then ((p.1 : Nat), { p.2 with is_terminal := true }) else p).1 = p.1
      rw [if_pos hc]
    · show (if P.contains p.1 then ((p.1 : Nat), { p.2 with is_terminal := true }) else p).1 = p.1
      rw [if_neg hc]
  rw [h1]
  exact map_fst_filter_key G.nodes (fun v => !removedL G P v)

theorem pruneState_nodeIds_nodup {G : Graph} (h : G.nodeIds.Nodup) (P : List Nat) :
    (pruneState G P).nodeIds.Nodup := by
  rw [pruneState_nodeIds]
  exact h.filter _

theorem pruneState_attr {G : Graph} (hnodup : G.nodeIds.Nodup) {P : List Nat} {n : Nat}
    (hn : n ∈ (pruneState G P).nodeIds) :
    (pruneState G P).attr n =
      (if P.contains n then { G.attr n with is_terminal := true } else G.attr n) := by
  rw [pruneState_nodeIds] at hn
  have hmemG : n ∈ G.nodeIds := List.mem_of_mem_filter hn
  rcases exists_attr_of_mem_nodeIds hmemG with ⟨a, ha⟩
  have hattr : G.attr n = a := attr_of_mem_nodup hnodup ha
  have hsurv : (!removedL G P n) = true := (List.mem_filter.mp hn).2
  have hmem2 : (n, a) ∈ G.nodes.filter (fun p => !removedL G P p.1) :=
    List.mem_filter.mpr ⟨ha, hsurv⟩
  by_cases hc : P.contains n = true
  · have hmem3 : (n, { a with is_terminal := true }) ∈ (pruneState G P).nodes := by
      show _ ∈ (G.nodes.filter (fun p => !removedL G P p.1)).map
        (fun p => if P.contains p.1 then (p.1, { p.2 with is_terminal := true }) else p)
      refine List.mem_map.mpr ⟨(n, a), hmem2, ?_⟩
      show (if P.contains n then ((n : Nat), { a with is_terminal := true }) else (n, a)) = _
      rw [if_pos hc]
    rw [if_pos hc, hattr]
    exact attr_of_mem_nodup (pruneState_nodeIds_nodup hnodup P) hmem3
  · have hmem3 : (n, a) ∈ (pruneState G P).nodes := by
      show _ ∈ (G.nodes.filter (fun p => !removedL G P p.1)).map
        (fun p => if P.contains p.1 then (p.1, { p.2 with is_terminal := true }) else p)
      refine List.mem_map.mpr ⟨(n, a), hmem2, ?_⟩
      show (if P.contains n then ((n : Nat), { a with is_terminal := true }) else (n, a)) = _
      rw [if_neg hc]
    rw [if_neg hc, hattr]
    exact attr_of_mem_nodup (pruneState_nodeIds_nodup hnodup P) hmem3

/-- Reachability inside a pruned graph: the original paths whose endpoint
(and hence every intermediate vertex) survived the pruning. -/
theorem reach_pruneState_iff {G : Graph} (hval : validB G = true) {P : List Nat} {n v : Nat}
    (hn : removedL G P n = false) :
    ReachL (pruneState G P).adj n v ↔ (ReachL G.adj n v ∧ removedL G P v = false) := by
  constructor
  · intro h
    induction h with
    | refl => exact ⟨ReachL.refl, hn⟩
    | step hr hadj ih =>
      rcases pruneState_adj.mp hadj with ⟨hGadj, h1, h2⟩
      exact ⟨ReachL.step ih.1 hGadj, h2⟩
  · rintro ⟨h, hv⟩
    revert hv
    induction h with
    | refl => intro _; exact ReachL.refl
    | @step v1 w hr hadj ih =>
      intro hv
      rcases hb : removedL G P v1 with _ | _
      · exact ReachL.step (ih hb) (pruneState_adj.mpr ⟨hadj, hb, hv⟩)
      · have : removedL G P w = true :=
          removedL_closed hval hb (ReachL.step ReachL.refl hadj)
        rw [this] at hv
        cases hv

theorem mem_stringsOf_iff {G : Graph} (hnodup : G.nodeIds.Nodup) {n : Nat} :
    n ∈ stringsOf G ↔
      n ∈ G.nodeIds ∧ stringTypeB (G.attr n) = true ∧ (G.attr n).is_terminal = false := by
  unfold stringsOf
  constructor
  · intro h
    rcases List.mem_map.mp h with ⟨p, hp, rfl⟩
    have hmem := List.mem_of_mem_filter hp
    have hcond := (List.mem_filter.mp hp).2
    rcases Bool.and_eq_true_iff.mp hcond with ⟨h1, h2⟩
    have hattr := attr_of_mem_nodup hnodup (show (p.1, p.2) ∈ G.nodes from hmem)
    refine ⟨List.mem_map.mpr ⟨p, hmem, rfl⟩, ?_, ?_⟩
    · rw [hattr]; exact h1
    · rw [hattr]; simpa using h2
  · rintro ⟨h1, h2, h3⟩
    rcases exists_attr_of_mem_nodeIds h1 with ⟨a, ha⟩
    have hattr : G.attr n = a := attr_of_mem_nodup hnodup ha
    refine List.mem_map.mpr ⟨(n, a), ?_, rfl⟩
    rw [List.mem_filter]
    refine ⟨ha, ?_⟩
    show (stringTypeB a && !a.is_terminal) = true
    rw [← hattr, h2, h3]
    rfl

/-- Pointwise form of one collapsing step: surviving `P` and not being
strictly below `n` is surviving `P ++ [n]`. -/
theorem step_filter_pred {G : Graph} (hval : validB G = true) {P : List Nat} {n : Nat}
    (hPn : removedL G P n = false) (x : Nat) :
    (!removedL G P x && !((reachable (pruneState G P) n).contains x && x != n)) =
      !removedL G (P ++ [n]) x := by
  rw [removedL_append]
  rcases hx : removedL G P x with _ | _
  · show (true && _) = _
    rw [Bool.true_and, Bool.not_or]
    show _ = (true && _)
    rw [Bool.true_and]
    rcases hxn : (x != n) with _ | _
    · rw [Bool.and_false, Bool.and_false]
    · rw [Bool.and_true, Bool.and_true]
      have hcont : (reachable (pruneState G P) n).contains x = (reachable G n).contains x := by
        apply bool_eq_of_iff
        rw [List.elem_iff, List.elem_iff, mem_reachable_iff, mem_reachable_iff]
        rw [reach_pruneState_iff hval hPn]
        constructor
        · rintro ⟨h1, -⟩
          exact h1
        · intro h1
          exact ⟨h1, hx⟩
      rw [hcont]
  · rfl

/-- When `n` is already removed (or absent), collapsing it changes nothing
about the removed set. -/
theorem removedL_append_skip {G : Graph} (hval : validB G = true) {P : List Nat} {n : Nat}
    (hskip : n ∉ G.nodeIds ∨ removedL G P n = true) (v : Nat) :
    removedL G (P ++ [n]) v = removedL G P v := by
  rw [removedL_append]
  rcases hv : removedL G P v with _ | _
  · rw [Bool.false_or]
    rcases hc : ((reachable G n).contains v && v != n) with _ | _
    · rfl
    · exfalso
      rcases Bool.and_eq_true_iff.mp hc with ⟨h1, h2⟩
      have hreach : ReachL G.adj n v := mem_reachable_iff.mp (List.elem_iff.mp h1)
      have hne : v ≠ n := by simpa using h2
      rcases hskip with hout | hrem
      · rcases stepPlus_first (stepPlus_of_reachL_ne hreach (Ne.symm hne)) with ⟨c, hadj⟩
        rcases adj_mem_iff.mp hadj with ⟨lab, hmem⟩
        obtain ⟨-, hclosed, -, -, -, -, -, -, -, -, -⟩ := validB_and hval
        exact hout (hclosed _ hmem).1
      · have : removedL G P v = true := removedL_closed hval hrem hreach
        rw [this] at hv
        cases hv
  · rfl

/-- One step of the `solve_string_problems` loop advances the prune
state by one processed node. -/
theorem pruneState_step {G : Graph} (hval : validB G = true) (P : List Nat) (n : Nat) :
    (if (pruneState G P).hasNode n then collapseString (pruneState G P) n
      else pruneState G P) = pruneState G (P ++ [n]) := by
  by_cases hn : (pruneState G P).hasNode n = true
  · rw [if_pos hn]
    have hnmem : n ∈ (pruneState G P).nodeIds := hasNode_iff.mp hn
    rw [pruneState_nodeIds] at hnmem
    have hPn : removedL G P n = false := by
      have := (List.mem_filter.mp hnmem).2
      simpa using this
    rw [collapseString_eq]
    have hnodes : (pruneState G P).nodes = (G.nodes.filter (fun p => !removedL G P p.1)).map
        (fun p => if P.contains p.1 then (p.1, { p.2 with is_terminal := true }) else p) := rfl
    have hedges : (pruneState G P).edges = G.edges.filter
        (fun e => !removedL G P e.1 && !removedL G P e.2.1) := rfl
    show Graph.mk _ _ = Graph.mk _ _
    congr 1
    · rw [hnodes, List.filter_map, List.map_map]
      have hfp : (G.nodes.filter (fun p => !removedL G P p.1)).filter
          ((fun p => !((reachable (pruneState G P) n).contains p.1 && p.1 != n)) ∘
            (fun p => if P.contains p.1 then (p.1, { p.2 with is_terminal := true }) else p)) =
          (G.nodes.filter (fun p => !removedL G P p.1)).filter
          (fun p => !((reachable (pruneState G P) n).contains p.1 && p.1 != n)) := by
        refine List.filter_congr (fun p _ => ?_)
        by_cases hc : P.contains p.1 = true
        · show (fun p => !((reachable (pruneState G P) n).contains p.1 && p.1 != n))
            (if P.contains p.1 then ((p.1 : Nat), { p.2 with is_terminal := true }) else p) = _
          rw [if_pos hc]
        · show (fun p => !((reachable (pruneState G P) n).contains p.1 && p.1 != n))
            (if P.contains p.1 then ((p.1 : Nat), { p.2 with is_terminal := true }) else p) = _
          rw [if_neg hc]
      rw [hfp, List.filter_filter]
      have hff : G.nodes.filter (fun p =>
          !((reachable (pruneState G P) n).contains p.1 && p.1 != n) && !removedL G P p.1) =
          G.nodes.filter (fun p => !removedL G (P ++ [n]) p.1) :=
        List.filter_congr (fun p _ =>
          (Bool.and_comm _ _).trans (step_filter_pred hval hPn p.1))
      rw [hff]
      refine list_map_congr (fun p hp => ?_)
      by_cases hc : P.contains p.1 = true
      · show (fun q => if q.1 == n then ((q.1 : Nat), { q.2 with is_terminal := true }) else q)
          (if P.contains p.1 then ((p.1 : Nat), { p.2 with is_terminal := true }) else p) =
          (if (P ++ [n]).contains p.1 then ((p.1 : Nat), { p.2 with is_terminal := true }) else p)
        rw [if_pos hc]
        have happ : (P ++ [n]).contains p.1 = true := by
          rw [contains_append_singleton, hc]
          rfl
        rw [if_pos happ]
        show (if (p.1 == n) then ((p.1 : Nat), { p.2 with is_terminal := true }) else
          ((p.1 : Nat), { p.2 with is_terminal := true })) = _
        by_cases hpn : (p.1 == n) = true
        · rw [if_pos hpn]
        · rw [if_neg hpn]
      · show (fun q => if q.1 == n then ((q.1 : Nat), { q.2 with is_terminal := true }) else q)
          (if P.contains p.1 then ((p.1 : Nat), { p.2 with is_terminal := true }) else p) =
          (if (P ++ [n]).contains p.1 then ((p.1 : Nat), { p.2 with is_terminal := true }) else p)
        rw [if_neg hc]
        have hcf : P.contains p.1 = false := by
          rcases hb : P.contains p.1 with _ | _
          · rfl
          · rw [hb] at hc
            exact absurd rfl hc
        by_cases hpn : (p.1 == n) = true
        · have happ : (P ++ [n]).contains p.1 = true := by
            rw [contains_append_singleton, hpn, Bool.or_true]
          rw [if_pos happ]
          show (if (p.1 == n) then ((p.1 : Nat), { p.2 with is_terminal := true }) else p) = _
          rw [if_pos hpn]
        · have hpnf : (p.1 == n) = false := by
            rcases hb : (p.1 == n) with _ | _
            · rfl
            · rw [hb] at hpn
              exact absurd rfl hpn
          have happ : (P ++ [n]).contains p.1 = false := by
            rw [contains_append_singleton, hcf, hpnf]
            rfl
          rw [if_neg (by rw [happ]; exact Bool.false_ne_true)]
          show (if (p.1 == n) then ((p.1 : Nat), { p.2 with is_terminal := true }) else p) = p
          rw [if_neg hpn]
    · rw [hedges, List.filter_filter]
      refine List.filter_congr (fun e _ => ?_)
      rw [bool_regroup (!((reachable (pruneState G P) n).contains e.1 && e.1 != n))
        (!((reachable (pruneState G P) n).contains e.2.1 && e.2.1 != n))
        (!removedL G P e.1) (!removedL G P e.2.1),
        step_filter_pred hval hPn e.1, step_filter_pred hval hPn e.2.1]
  · rw [if_neg hn]
    have hnot : n ∉ (pruneState G P).nodeIds := fun hc => hn (hasNode_iff.mpr hc)
    rw [pruneState_nodeIds] at hnot
    have hskip : n ∉ G.nodeIds ∨ removedL G P n = true := by
      by_cases hmem : n ∈ G.nodeIds
      · right
        rcases hb : removedL G P n with _ | _
        · exact absurd (List.mem_filter.mpr ⟨hmem, by rw [hb]; rfl⟩) hnot
        · rfl
      · exact Or.inl hmem
    show Graph.mk _ _ = Graph.mk _ _
    congr 1
    · have hf : G.nodes.filter (fun p => !removedL G P p.1) =
          G.nodes.filter (fun p => !removedL G (P ++ [n]) p.1) :=
        List.filter_congr (fun p _ => by rw [removedL_append_skip hval hskip])
      rw [hf]
      refine list_map_congr (fun p hp => ?_)
      have hnotn : (p.1 == n) = false := by
        rcases hb : (p.1 == n) with _ | _
        · rfl
        · exfalso
          have hpn : p.1 = n := by simpa using hb
          have hmemG : p.1 ∈ G.nodeIds := List.mem_map.mpr ⟨p, List.mem_of_mem_filter hp, rfl⟩
          have hsurv := (List.mem_filter.mp hp).2
          rw [removedL_append_skip hval hskip] at hsurv
          rcases hskip with hout | hrem
          · rw [hpn] at hmemG
            exact hout hmemG
          · rw [hpn, hrem] at hsurv
            simp at hsurv
      have happ : (P ++ [n]).contains p.1 = P.contains p.1 := by
        rw [contains_append_singleton, hnotn, Bool.or_false]
      rw [happ]
    · refine List.filter_congr (fun e _ => ?_)
      rw [removedL_append_skip hval hskip, removedL_append_skip hval hskip]

theorem solveStringsAux_pruneState {G : Graph} (hval : validB G = true) :
    ∀ (L P : List Nat), solveStringsAux L (pruneState G P) = pruneState G (P ++ L)
  | [], P => by
    show pruneState G P = _
    rw [List.append_nil]
  | n :: L, P => by
    show (n :: L).foldl (fun g n => if g.hasNode n then collapseString g n else g)
      (pruneState G P) = _
    rw [List.foldl_cons]
    show L.foldl _ (if (pruneState G P).hasNode n then collapseString (pruneState G P) n
      else pruneState G P) = _
    rw [pruneState_step hval P n]
    have h := solveStringsAux_pruneState hval L (P ++ [n])
    show solveStringsAux L (pruneState G (P ++ [n])) = _
    rw [h, List.append_assoc]
    rfl

theorem solveStringsAux_eq {G : Graph} (hval : validB G = true) (L : List Nat) :
    solveStringsAux L G = pruneState G L := by
  have h := solveStringsAux_pruneState hval L []
  rw [pruneState_nil, List.nil_append] at h
  exact h

/-- The closed form of `solve_string_problems` on valid trees. -/
theorem solve_string_problems_eq {G : Graph} (hval : validB G = true) :
    solve_string_problems G = pruneState G (stringsOf G) :=
  solveStringsAux_eq hval (stringsOf G)

theorem removedL_congr_mem {G : Graph} {P Q : List Nat} (h : ∀ m, m ∈ P ↔ m ∈ Q) (v : Nat) :
    removedL G P v = removedL G Q v := by
  apply bool_eq_of_iff
  unfold removedL
  rw [List.any_eq_true, List.any_eq_true]
  constructor
  · rintro ⟨m, hm, hb⟩
    exact ⟨m, (h m).mp hm, hb⟩
  · rintro ⟨m, hm, hb⟩
    exact ⟨m, (h m).mpr hm, hb⟩

theorem contains_congr_mem {P Q : List Nat} (h : ∀ m, m ∈ P ↔ m ∈ Q) (v : Nat) :
    P.contains v = Q.contains v := by
  apply bool_eq_of_iff
  rw [List.elem_iff, List.elem_iff]
  exact h v

/-- The prune state only depends on the set of processed nodes, not the
processing order. -/
theorem pruneState_congr_mem {G : Graph} {P Q : List Nat} (h : ∀ m, m ∈ P ↔ m ∈ Q) :
    pruneState G P = pruneState G Q := by
  show Graph.mk _ _ = Graph.mk _ _
  congr 1
  · have hf : G.nodes.filter (fun p => !removedL G P p.1) =
        G.nodes.filter (fun p => !removedL G Q p.1) :=
      List.filter_congr (fun p _ => by rw [removedL_congr_mem h])
    rw [hf]
    exact list_map_congr (fun p _ => by rw [contains_congr_mem h])
  · exact List.filter_congr (fun e _ => by
      rw [removedL_congr_mem h e.1, removedL_congr_mem h e.2.1])

/-- **C9.**  On every valid constituency tree, `solve_string_problems`
leaves every surviving string-typed node (`type == 'string'` or containing
`'string_literal'`) terminal, with no out-edges and no other reachable
node, and with its byte span unchanged; and the outcome is the same for
every processing order of the collected string nodes (already-removed
nodes are skipped). -/
theorem c9_string_collapse (G : Graph) (h : validB G = true) :
    (∀ L, L.Perm (stringsOf G) → solveStringsAux L G = solve_string_problems G) ∧
    (∀ n ∈ (solve_string_problems G).nodeIds,
      stringTypeB ((solve_string_problems G).attr n) = true →
        ((solve_string_problems G).attr n).is_terminal = true ∧
        (solve_string_problems G).outEdges n = [] ∧
        (∀ v ∈ reachable (solve_string_problems G) n, v = n) ∧
        ((solve_string_problems G).attr n).start = (G.attr n).start ∧
        ((solve_string_problems G).attr n).stop = (G.attr n).stop) := by
  obtain ⟨hnodup, hclosed, -, -, -, -, -, -, htermout, -, -⟩ := validB_and h
  have hmain := solve_string_problems_eq h
  constructor
  · intro L hperm
    rw [solveStringsAux_eq h L, hmain]
    exact pruneState_congr_mem (fun m => hperm.mem_iff)
  · intro n hn hstr
    rw [hmain] at hn hstr ⊢
    have hn2 := hn
    rw [pruneState_nodeIds] at hn2
    have hmemG : n ∈ G.nodeIds := List.mem_of_mem_filter hn2
    have hsurv : removedL G (stringsOf G) n = false := by
      have := (List.mem_filter.mp hn2).2
      simpa using this
    have hattr := pruneState_attr hnodup hn
    have hstrG : stringTypeB (G.attr n) = true := by
      rcases hc : (stringsOf G).contains n with _ | _
      · rw [hattr, if_neg (by rw [hc]; exact Bool.false_ne_true)] at hstr
        exact hstr
      · rw [hattr, if_pos hc] at hstr
        exact hstr
    have hout : (pruneState G (stringsOf G)).outEdges n = [] := by
      rw [List.eq_nil_iff_forall_not_mem]
      intro e he
      have he2 : e ∈ (pruneState G (stringsOf G)).edges.filter (fun e2 => e2.1 == n) := he
      have hefilter : e ∈ G.edges.filter
          (fun e2 => !removedL G (stringsOf G) e2.1 && !removedL G (stringsOf G) e2.2.1) :=
        List.mem_of_mem_filter he2
      have he1 : e.1 = n := by
        have := (List.mem_filter.mp he2).2
        simpa using this
      have hmemE := List.mem_of_mem_filter hefilter
      have hboth := (List.mem_filter.mp hefilter).2
      rcases Bool.and_eq_true_iff.mp hboth with ⟨-, hb2⟩
      rcases hterm : (G.attr n).is_terminal with _ | _
      · have hnS : n ∈ stringsOf G := (mem_stringsOf_iff hnodup).mpr ⟨hmemG, hstrG, hterm⟩
        have hmemE2 : (n, e.2.1, e.2.2) ∈ G.edges := by
          rw [← he1]
          exact (show (e.1, e.2.1, e.2.2) ∈ G.edges from hmemE)
        have hadj : (n, e.2.1) ∈ G.adj := adj_mem_iff.mpr ⟨e.2.2, hmemE2⟩
        have hne : e.2.1 ≠ n := by
          intro hc
          rw [hc] at hadj
          exact valid_no_cycle h n (StepPlus.single hadj)
        have hrem : removedL G (stringsOf G) e.2.1 = true :=
          removedL_iff.mpr ⟨n, hnS, ReachL.step ReachL.refl hadj, hne⟩
        rw [hrem] at hb2
        exact Bool.false_ne_true hb2
      · have hempty : (G.outEdges n).isEmpty = true := by
          rw [← htermout n hmemG]
          exact hterm
        have hnil : G.outEdges n = [] := List.isEmpty_iff.mp hempty
        have hmemO : e ∈ G.outEdges n := by
          show e ∈ G.edges.filter (fun e2 => e2.1 == n)
          rw [List.mem_filter]
          refine ⟨hmemE, ?_⟩
          rw [he1]
          simp
        rw [hnil] at hmemO
        exact absurd hmemO (List.not_mem_nil e)
    refine ⟨?_, hout, ?_, ?_, ?_⟩
    · rcases hc : (stringsOf G).contains n with _ | _
      · rw [hattr, if_neg (by rw [hc]; exact Bool.false_ne_true)]
        rcases hterm : (G.attr n).is_terminal with _ | _
        · exfalso
          have hnS : n ∈ stringsOf G := (mem_stringsOf_iff hnodup).mpr ⟨hmemG, hstrG, hterm⟩
          have hcontra : (stringsOf G).contains n = true := List.elem_iff.mpr hnS
          rw [hc] at hcontra
          exact Bool.false_ne_true hcontra
        · rfl
      · rw [hattr, if_pos hc]
    · intro v hv
      have hre : ReachL (pruneState G (stringsOf G)).adj n v := mem_reachable_iff.mp hv
      refine ReachL.eq_of_no_out ?_ hre
      intro w hw
      rcases adj_mem_iff.mp hw with ⟨lab, hmem⟩
      have hmemO : (n, w, lab) ∈ (pruneState G (stringsOf G)).outEdges n := by
        show _ ∈ (pruneState G (stringsOf G)).edges.filter (fun e2 => e2.1 == n)
        rw [List.mem_filter]
        exact ⟨hmem, by simp⟩
      rw [hout] at hmemO
      exact absurd hmemO (List.not_mem_nil _)
    · rcases hc : (stringsOf G).contains n with _ | _
      · rw [hattr, if_neg (by rw [hc]; exact Bool.false_ne_true)]
      · rw [hattr, if_pos hc]
    · rcases hc : (stringsOf G).contains n with _ | _
      · rw [hattr, if_neg (by rw [hc]; exact Bool.false_ne_true)]
      · rw [hattr, if_pos hc]

/-- A concrete valid tree whose string literal spans bytes `[10, 20)` and
has nested delimiter sub-nodes. -/
def exString : Graph :=
  ⟨[(0, ⟨"module", false, 0, 20⟩), (1, ⟨"a", true, 0, 1⟩), (2, ⟨"string", false, 10, 20⟩),
    (3, ⟨"\"", true, 10, 11⟩), (4, ⟨"content", true, 11, 19⟩), (5, ⟨"\"", true, 19, 20⟩)],
   [(0, 1, none), (0, 2, none), (2, 3, none), (2, 4, none), (2, 5, none)]⟩

/-- **C9 witness**: the string subtree spanning `[10, 20)` collapses to a
single terminal with that very span, and the collapse facts hold on
`exString`. -/
theorem c9_string_collapse_witness :
    validB exString = true ∧
    (solve_string_problems exString).attr 2 = ⟨"string", true, 10, 20⟩ ∧
    ((∀ L, L.Perm (stringsOf exString) →
        solveStringsAux L exString = solve_string_problems exString) ∧
    (∀ n ∈ (solve_string_problems exString).nodeIds,
      stringTypeB ((solve_string_problems exString).attr n) = true →
        ((solve_string_problems exString).attr n).is_terminal = true ∧
        (solve_string_problems exString).outEdges n = [] ∧
        (∀ v ∈ reachable (solve_string_problems exString) n, v = n) ∧
        ((solve_string_problems exString).attr n).start = (exString.attr n).start ∧
        ((solve_string_problems exString).attr n).stop = (exString.attr n).stop)) :=
  ⟨by decide, by decide, c9_string_collapse exString (by decide)⟩

/-! ### Claim C6: distance-matrix round trip through the minimum spanning tree -/

theorem uconnected_iff {es : List (Nat × Nat × Nat)} {u v : Nat} :
    uconnected es u v = true ↔ ReachL (usym es) u v := by
  constructor
  · intro h
    exact reachL_of_mem_ball (List.elem_iff.mp h)
  · intro h
    exact List.elem_iff.mpr (mem_ball_of_reachL h)

theorem uconnected_refl (es : List (Nat × Nat × Nat)) (u : Nat) :
    uconnected es u u = true :=
  List.elem_iff.mpr (mem_ball_self _)

theorem usym_subset {es es' : List (Nat × Nat × Nat)} (h : ∀ e ∈ es, e ∈ es') :
    ∀ p ∈ usym es, p ∈ usym es' := by
  intro p hp
  unfold usym at hp ⊢
  rcases List.mem_append.mp hp with h1 | h1
  · rcases List.mem_map.mp h1 with ⟨e, he, rfl⟩
    exact List.mem_append_left _ (List.mem_map.mpr ⟨e, h e he, rfl⟩)
  · rcases List.mem_map.mp h1 with ⟨e, he, rfl⟩
    exact List.mem_append_right _ (List.mem_map.mpr ⟨e, h e he, rfl⟩)

theorem uconnected_mono {es es' : List (Nat × Nat × Nat)} {u v : Nat}
    (hsub : ∀ e ∈ es, e ∈ es') (h : uconnected es u v = true) :
    uconnected es' u v = true :=
  uconnected_iff.mpr (ReachL.mono (usym_subset hsub) (uconnected_iff.mp h))

/-- Kruskal's scan in closed form: on a graph whose weight-one non-loop
edges are bridges connecting the endpoints of every non-loop edge, it
keeps exactly the weight-one non-loop edges (self-loops always close a
trivial cycle and are skipped, whatever their weight). -/
theorem kruskal_fold (L : List (Nat × Nat × Nat))
    (hnodupL : L.Nodup)
    (hsorted : L.Pairwise (fun a b => a.2.2 ≤ b.2.2))
    (hposL : ∀ e ∈ L, e.1 ≠ e.2.1 → 1 ≤ e.2.2)
    (hbridgeL : ∀ e ∈ L, e.1 ≠ e.2.1 → e.2.2 = 1 →
      uconnected ((L.filter (fun x => !(x.1 == x.2.1) && x.2.2 == 1)).filter
        (fun x => !(x == e))) e.1 e.2.1 = false)
    (hconnL : ∀ e ∈ L, e.1 ≠ e.2.1 →
      uconnected (L.filter (fun x => !(x.1 == x.2.1) && x.2.2 == 1)) e.1 e.2.1 = true) :
    ∀ (rest p : List (Nat × Nat × Nat)), L = p ++ rest →
    rest.foldl (fun acc e => if uconnected acc e.1 e.2.1 then acc else acc ++ [e])
      (p.filter (fun x => !(x.1 == x.2.1) && x.2.2 == 1)) =
      L.filter (fun x => !(x.1 == x.2.1) && x.2.2 == 1)
  | [], p, h => by rw [List.foldl_nil, h, List.append_nil]
  | e :: rest, p, h => by
    rw [List.foldl_cons]
    have hmemL : e ∈ L := by
      rw [h]
      exact List.mem_append_right _ (List.mem_cons_self _ _)
    by_cases hself : e.1 = e.2.1
    · have htest : uconnected (p.filter (fun x => !(x.1 == x.2.1) && x.2.2 == 1))
          e.1 e.2.1 = true := by
        rw [hself]
        exact uconnected_refl _ _
      rw [if_pos htest]
      have hP : (!(e.1 == e.2.1) && e.2.2 == 1) = false := by
        have : (e.1 == e.2.1) = true := by simpa using hself
        rw [this]
        rfl
      have hacc : p.filter (fun x => !(x.1 == x.2.1) && x.2.2 == 1) =
          (p ++ [e]).filter (fun x => !(x.1 == x.2.1) && x.2.2 == 1) := by
        rw [List.filter_append,
          show [e].filter (fun x => !(x.1 == x.2.1) && x.2.2 == 1) = []
            by simp [List.filter_cons, hP], List.append_nil]
      rw [hacc]
      refine kruskal_fold L hnodupL hsorted hposL hbridgeL hconnL rest (p ++ [e]) ?_
      rw [h, List.append_assoc]
      rfl
    · by_cases hw : e.2.2 = 1
      · have htest : uconnected (p.filter (fun x => !(x.1 == x.2.1) && x.2.2 == 1))
            e.1 e.2.1 = false := by
          rcases hb : uconnected (p.filter (fun x => !(x.1 == x.2.1) && x.2.2 == 1))
              e.1 e.2.1 with _ | _
          · rfl
          · exfalso
            have hsub : ∀ x ∈ p.filter (fun x => !(x.1 == x.2.1) && x.2.2 == 1),
                x ∈ (L.filter (fun x => !(x.1 == x.2.1) && x.2.2 == 1)).filter
                  (fun x => !(x == e)) := by
              intro x hx
              have hxp := List.mem_of_mem_filter hx
              have hxw := (List.mem_filter.mp hx).2
              have hxL : x ∈ L := by
                rw [h]
                exact List.mem_append_left _ hxp
              have hxne : ¬(x = e) := by
                intro hxe
                subst hxe
                rw [h] at hnodupL
                exact List.disjoint_of_nodup_append hnodupL hxp (List.mem_cons_self _ _)
              rw [List.mem_filter]
              refine ⟨List.mem_filter.mpr ⟨hxL, hxw⟩, ?_⟩
              simpa using hxne
            have hcon := uconnected_mono hsub hb
            rw [hbridgeL e hmemL hself hw] at hcon
            exact Bool.false_ne_true hcon
        rw [if_neg (by rw [htest]; exact Bool.false_ne_true)]
        have hacc : p.filter (fun x => !(x.1 == x.2.1) && x.2.2 == 1) ++ [e] =
            (p ++ [e]).filter (fun x => !(x.1 == x.2.1) && x.2.2 == 1) := by
          rw [List.filter_append]
          congr 1
          have hP : (!(e.1 == e.2.1) && e.2.2 == 1) = true := by
            have h1 : (e.1 == e.2.1) = false := by
              rcases hbb : (e.1 == e.2.1) with _ | _
              · rfl
              · exact absurd (by simpa using hbb) hself
            have h2 : (e.2.2 == 1) = true := by simpa using hw
            rw [h1, h2]
            rfl
          simp [List.filter_cons, hP]
        rw [hacc]
        refine kruskal_fold L hnodupL hsorted hposL hbridgeL hconnL rest (p ++ [e]) ?_
        rw [h, List.append_assoc]
        rfl
      · have hsubrev : ∀ x ∈ L.filter (fun x => !(x.1 == x.2.1) && x.2.2 == 1),
            x ∈ p.filter (fun x => !(x.1 == x.2.1) && x.2.2 == 1) := by
          intro x hx
          have hxL := List.mem_of_mem_filter hx
          have hxw := (List.mem_filter.mp hx).2
          have hxw1 : x.2.2 = 1 := by
            rcases Bool.and_eq_true_iff.mp hxw with ⟨-, h2⟩
            simpa using h2
          rw [h] at hxL
          rcases List.mem_append.mp hxL with hp2 | hr
          · exact List.mem_filter.mpr ⟨hp2, hxw⟩
          · exfalso
            rcases List.mem_cons.mp hr with hxe | hxrest
            · rw [hxe] at hxw1
              exact hw hxw1
            · rw [h] at hsorted
              have hpw : (e :: rest).Pairwise (fun a b => a.2.2 ≤ b.2.2) :=
                (List.pairwise_append.mp hsorted).2.1
              have hle : e.2.2 ≤ x.2.2 := (List.pairwise_cons.mp hpw).1 x hxrest
              have hge : 1 ≤ e.2.2 := hposL e hmemL hself
              omega
        have htest : uconnected (p.filter (fun x => !(x.1 == x.2.1) && x.2.2 == 1))
            e.1 e.2.1 = true :=
          uconnected_mono hsubrev (hconnL e hmemL hself)
        rw [if_pos htest]
        have hacc : p.filter (fun x => !(x.1 == x.2.1) && x.2.2 == 1) =
            (p ++ [e]).filter (fun x => !(x.1 == x.2.1) && x.2.2 == 1) := by
          rw [List.filter_append]
          have hP : (!(e.1 == e.2.1) && e.2.2 == 1) = false := by
            have h2 : (e.2.2 == 1) = false := by
              rcases hbb : (e.2.2 == 1) with _ | _
              · rfl
              · exact absurd (by simpa using hbb) hw
            rw [h2, Bool.and_false]
          rw [show [e].filter (fun x => !(x.1 == x.2.1) && x.2.2 == 1) = []
            by simp [List.filter_cons, hP], List.append_nil]
        rw [hacc]
        refine kruskal_fold L hnodupL hsorted hposL hbridgeL hconnL rest (p ++ [e]) ?_
        rw [h, List.append_assoc]
        rfl

/-- `nx.minimum_spanning_tree` keeps exactly the weight-one non-loop edges
when those form a spanning forest connecting the endpoints of every
non-loop edge. -/
theorem kruskal_spec (g : UGraph)
    (hnodup : g.edges.Nodup)
    (hpos : ∀ e ∈ g.edges, e.1 ≠ e.2.1 → 1 ≤ e.2.2)
    (hbridge : ∀ e ∈ g.edges, e.1 ≠ e.2.1 → e.2.2 = 1 →
      uconnected ((g.edges.filter (fun x => !(x.1 == x.2.1) && x.2.2 == 1)).filter
        (fun x => !(x == e))) e.1 e.2.1 = false)
    (hconn : ∀ e ∈ g.edges, e.1 ≠ e.2.1 →
      uconnected (g.edges.filter (fun x => !(x.1 == x.2.1) && x.2.2 == 1))
        e.1 e.2.1 = true) :
    (minimum_spanning_tree g).edges =
      (sortEdgesByWeight g.edges).filter (fun x => !(x.1 == x.2.1) && x.2.2 == 1) := by
  have hperm : (sortEdgesByWeight g.edges).Perm g.edges := List.perm_insertionSort _ _
  have hfsub : ∀ x ∈ (sortEdgesByWeight g.edges).filter
      (fun x => !(x.1 == x.2.1) && x.2.2 == 1),
      x ∈ g.edges.filter (fun x => !(x.1 == x.2.1) && x.2.2 == 1) := by
    intro x hx
    exact List.mem_filter.mpr
      ⟨hperm.mem_iff.mp (List.mem_of_mem_filter hx), (List.mem_filter.mp hx).2⟩
  have hfsub2 : ∀ x ∈ g.edges.filter (fun x => !(x.1 == x.2.1) && x.2.2 == 1),
      x ∈ (sortEdgesByWeight g.edges).filter
        (fun x => !(x.1 == x.2.1) && x.2.2 == 1) := by
    intro x hx
    exact List.mem_filter.mpr
      ⟨hperm.mem_iff.mpr (List.mem_of_mem_filter hx), (List.mem_filter.mp hx).2⟩
  have hnodupL : (sortEdgesByWeight g.edges).Nodup := hperm.nodup_iff.mpr hnodup
  have hsorted : (sortEdgesByWeight g.edges).Pairwise (fun a b => a.2.2 ≤ b.2.2) := by
    haveI : IsTotal (Nat × Nat × Nat) (fun a b => a.2.2 ≤ b.2.2) :=
      ⟨fun a b => Nat.le_total _ _⟩
    haveI : IsTrans (Nat × Nat × Nat) (fun a b => a.2.2 ≤ b.2.2) :=
      ⟨fun a b c => Nat.le_trans⟩
    exact List.sorted_insertionSort _ _
  have hposL : ∀ e ∈ sortEdgesByWeight g.edges, e.1 ≠ e.2.1 → 1 ≤ e.2.2 :=
    fun e he => hpos e (hperm.mem_iff.mp he)
  have hbridgeL : ∀ e ∈ sortEdgesByWeight g.edges, e.1 ≠ e.2.1 → e.2.2 = 1 →
      uconnected (((sortEdgesByWeight g.edges).filter
        (fun x => !(x.1 == x.2.1) && x.2.2 == 1)).filter
        (fun x => !(x == e))) e.1 e.2.1 = false := by
    intro e he hself hw
    rcases hb : uconnected (((sortEdgesByWeight g.edges).filter
        (fun x => !(x.1 == x.2.1) && x.2.2 == 1)).filter
        (fun x => !(x == e))) e.1 e.2.1 with _ | _
    · exact hb
    · exfalso
      have hsub : ∀ x ∈ ((sortEdgesByWeight g.edges).filter
          (fun x => !(x.1 == x.2.1) && x.2.2 == 1)).filter (fun x => !(x == e)),
          x ∈ (g.edges.filter (fun x => !(x.1 == x.2.1) && x.2.2 == 1)).filter
            (fun x => !(x == e)) := by
        intro x hx
        exact List.mem_filter.mpr
          ⟨hfsub x (List.mem_of_mem_filter hx), (List.mem_filter.mp hx).2⟩
      have hcon := uconnected_mono hsub hb
      rw [hbridge e (hperm.mem_iff.mp he) hself hw] at hcon
      exact Bool.false_ne_true hcon
  have hconnL : ∀ e ∈ sortEdgesByWeight g.edges, e.1 ≠ e.2.1 →
      uconnected ((sortEdgesByWeight g.edges).filter
        (fun x => !(x.1 == x.2.1) && x.2.2 == 1)) e.1 e.2.1 = true :=
    fun e he hself => uconnected_mono hfsub2 (hconn e (hperm.mem_iff.mp he) hself)
  exact kruskal_fold (sortEdgesByWeight g.edges) hnodupL hsorted hposL hbridgeL
    hconnL (sortEdgesByWeight g.edges) [] rfl

/-- Helper: `uadd_edge` unfolded. -/
theorem uadd_edge_eq (g : UGraph) (i j w : Nat) :
    g.uadd_edge i j w =
      (if g.edges.any (fun e => e.1 == min i j && e.2.1 == max i j) then
        { g with edges := g.edges.map (fun e =>
            if e.1 == min i j && e.2.1 == max i j then (min i j, max i j, w) else e) }
      else { g with edges := g.edges ++ [(min i j, max i j, w)] }) := rfl

/-- The lower-triangular band of the complete edge list built by the double
loop of `get_tree_from_distances`: the canonical pairs `(u, v)` with
`u < i`, `u ≤ v < n` — self-loops `(u, u)` included, exactly as the Python
adds `G.add_edge(i, j, ...)` for every pair including `i == j`. -/
def bandEdges (d : List (List Nat)) (n i : Nat) : List (Nat × Nat × Nat) :=
  (List.range i).flatMap (fun u => (List.range' u (n - u)).map
    (fun v => (u, v, dmat d u v)))

/-- All unordered index pairs (self-loops included) with their matrix
weights. -/
def completeEdges (d : List (List Nat)) (n : Nat) : List (Nat × Nat × Nat) :=
  bandEdges d n n

/-- The distance-one pairs — the edges of the original tree under the
sorted-node relabelling. -/
def treeEdges (d : List (List Nat)) (n : Nat) : List (Nat × Nat × Nat) :=
  (completeEdges d n).filter (fun x => !(x.1 == x.2.1) && x.2.2 == 1)

theorem mem_bandEdges_iff {d : List (List Nat)} {n i : Nat} (hin : i ≤ n)
    {e : Nat × Nat × Nat} :
    e ∈ bandEdges d n i ↔ ∃ u v, u < i ∧ u ≤ v ∧ v < n ∧ e = (u, v, dmat d u v) := by
  unfold bandEdges
  rw [List.mem_flatMap]
  constructor
  · rintro ⟨u, hu, hmem⟩
    rcases List.mem_map.mp hmem with ⟨v, hv, rfl⟩
    have hu2 : u < i := List.mem_range.mp hu
    have hv2 := List.mem_range'_1.mp hv
    exact ⟨u, v, hu2, by omega, by omega, rfl⟩
  · rintro ⟨u, v, h1, h2, h3, rfl⟩
    refine ⟨u, List.mem_range.mpr h1, List.mem_map.mpr ⟨v, ?_, rfl⟩⟩
    rw [List.mem_range'_1]
    omega

theorem bandEdges_succ (d : List (List Nat)) (n i : Nat) :
    bandEdges d n (i + 1) = bandEdges d n i ++
      (List.range' i (n - i)).map (fun v => (i, v, dmat d i v)) := by
  unfold bandEdges
  rw [List.range_succ, List.flatMap_append]
  congr 1
  show (i :: ([] : List Nat)).flatMap _ = _
  rw [List.flatMap_cons, List.flatMap_nil, List.append_nil]

theorem bandEdges_nodup (d : List (List Nat)) (n : Nat) :
    ∀ i, i ≤ n → (bandEdges d n i).Nodup
  | 0, _ => List.nodup_nil
  | i + 1, h => by
    rw [bandEdges_succ]
    refine List.Nodup.append (bandEdges_nodup d n i (by omega)) ?_ ?_
    · refine List.Nodup.map ?_ (List.nodup_range' _ _)
      intro a b hab
      exact congrArg (fun p => p.2.1) hab
    · intro x hx1 hx2
      rcases (mem_bandEdges_iff (by omega) (e := x)).mp hx1 with ⟨u, v, hu, -, -, rfl⟩
      rcases List.mem_map.mp hx2 with ⟨v2, -, heq⟩
      have : i = u := congrArg (fun p => p.1) heq
      omega

/-- The inner `for j in range(n)` loop of `get_tree_from_distances`, on a
symmetric matrix: writes to already-present pairs are no-ops, the
self-loop `(i, i)` and the new pairs `(i, j)` with `j > i` are appended in
order. -/
theorem inner_fold (d : List (List Nat)) (n : Nat) (N : List (Nat × List UInt8))
    (hsym : ∀ u, u < n → ∀ v, v < n → dmat d u v = dmat d v u) (i : Nat) (hi : i < n) :
    ∀ (k j0 : Nat), j0 + k = n →
    (List.range' j0 k).foldl
      (fun (g : UGraph) j => g.uadd_edge i j (dmat d i j))
      (UGraph.mk N (bandEdges d n i ++ (List.range' i (j0 - i)).map
        (fun v => (i, v, dmat d i v)))) =
    UGraph.mk N (bandEdges d n i ++ (List.range' i (n - i)).map
      (fun v => (i, v, dmat d i v)))
  | 0, j0, h => by
    have hj0 : j0 = n := by omega
    subst hj0
    rfl
  | k + 1, j0, h => by
    have hcons : List.range' j0 (k + 1) = j0 :: List.range' (j0 + 1) k := rfl
    rw [hcons, List.foldl_cons]
    show (List.range' (j0 + 1) k).foldl _
      ((UGraph.mk N (bandEdges d n i ++ (List.range' i (j0 - i)).map
        (fun v => (i, v, dmat d i v)))).uadd_edge i j0 (dmat d i j0)) = _
    rw [uadd_edge_eq]
    rcases Nat.lt_or_ge j0 i with hlt | hge
    · -- j0 < i : the pair (j0, i) is already present, the overwrite is a no-op
      have hmin : min i j0 = j0 := by omega
      have hmax : max i j0 = i := by omega
      rw [hmin, hmax]
      have hmemb : ((j0, i, dmat d j0 i) : Nat × Nat × Nat) ∈ bandEdges d n i :=
        (mem_bandEdges_iff (by omega)).mpr ⟨j0, i, hlt, by omega, hi, rfl⟩
      have hany : (bandEdges d n i ++ (List.range' i (j0 - i)).map
          (fun v => (i, v, dmat d i v))).any
          (fun e => e.1 == j0 && e.2.1 == i) = true := by
        refine List.any_eq_true.mpr ⟨(j0, i, dmat d j0 i), List.mem_append_left _ hmemb, ?_⟩
        simp
      rw [if_pos hany]
      have hmapid : (bandEdges d n i ++ (List.range' i (j0 - i)).map
          (fun v => (i, v, dmat d i v))).map
          (fun e => if e.1 == j0 && e.2.1 == i then (j0, i, dmat d i j0) else e) =
          bandEdges d n i ++ (List.range' i (j0 - i)).map
            (fun v => (i, v, dmat d i v)) := by
        refine map_eq_self_of_eq (fun e he => ?_)
        by_cases hkey : (e.1 == j0 && e.2.1 == i) = true
        · rw [if_pos hkey]
          rcases Bool.and_eq_true_iff.mp hkey with ⟨hk1, hk2⟩
          have hk1e : e.1 = j0 := by simpa using hk1
          have hk2e : e.2.1 = i := by simpa using hk2
          rcases List.mem_append.mp he with hb | hb
          · rcases (mem_bandEdges_iff (by omega)).mp hb with ⟨u, v, hu, huv, hvn, heq⟩
            have hu2 : u = j0 := by
              have he1 : e.1 = u := by rw [heq]
              omega
            have hv2 : v = i := by
              have he2 : e.2.1 = v := by rw [heq]
              omega
            rw [heq, hu2, hv2, hsym i hi j0 (by omega)]
          · exfalso
            rcases List.mem_map.mp hb with ⟨v2, -, heq⟩
            have hi1 : e.1 = i := (congrArg (fun p => p.1) heq).symm
            omega
        · rw [if_neg hkey]
      rw [hmapid]
      have hcnt : j0 - i = (j0 + 1) - i := by omega
      show (List.range' (j0 + 1) k).foldl _
        (UGraph.mk N (bandEdges d n i ++ (List.range' i (j0 - i)).map
          (fun v => (i, v, dmat d i v)))) = _
      rw [hcnt]
      exact inner_fold d n N hsym i hi k (j0 + 1) (by omega)
    · -- i ≤ j0 : the pair (i, j0) (the self-loop when j0 = i) is new, appended
      have hmin : min i j0 = i := by omega
      have hmax : max i j0 = j0 := by omega
      rw [hmin, hmax]
      have hany : (bandEdges d n i ++ (List.range' i (j0 - i)).map
          (fun v => (i, v, dmat d i v))).any
          (fun e => e.1 == i && e.2.1 == j0) = false := by
        rcases hb : (bandEdges d n i ++ (List.range' i (j0 - i)).map
            (fun v => (i, v, dmat d i v))).any (fun e => e.1 == i && e.2.1 == j0) with _ | _
        · rfl
        · exfalso
          rcases List.any_eq_true.mp hb with ⟨e, he, hkey⟩
          rcases Bool.and_eq_true_iff.mp hkey with ⟨hk1, hk2⟩
          have hk1e : e.1 = i := by simpa using hk1
          have hk2e : e.2.1 = j0 := by simpa using hk2
          rcases List.mem_append.mp he with hb2 | hb2
          · rcases (mem_bandEdges_iff (by omega)).mp hb2 with ⟨u, v, hu, -, -, heq⟩
            have : e.1 = u := by rw [heq]
            omega
          · rcases List.mem_map.mp hb2 with ⟨v2, hv2, heq⟩
            have hv2r := List.mem_range'_1.mp hv2
            have he21 : e.2.1 = v2 := by rw [← heq]
            omega
      rw [if_neg (by rw [hany]; exact Bool.false_ne_true)]
      show (List.range' (j0 + 1) k).foldl _
        (UGraph.mk N ((bandEdges d n i ++ (List.range' i (j0 - i)).map
          (fun v => (i, v, dmat d i v))) ++ [(i, j0, dmat d i j0)])) = _
      have hext : (bandEdges d n i ++ (List.range' i (j0 - i)).map
          (fun v => (i, v, dmat d i v))) ++ [(i, j0, dmat d i j0)] =
          bandEdges d n i ++ (List.range' i ((j0 + 1) - i)).map
            (fun v => (i, v, dmat d i v)) := by
        rw [List.append_assoc]
        congr 1
        have hcnt : (j0 + 1) - i = (j0 - i) + 1 := by omega
        rw [hcnt, List.range'_concat, List.map_append]
        congr 1
        have hj0e : i + 1 * (j0 - i) = j0 := by omega
        rw [hj0e]
        rfl
      rw [hext]
      exact inner_fold d n N hsym i hi k (j0 + 1) (by omega)

/-- The outer `for i in range(n)` loop of `get_tree_from_distances`. -/
theorem outer_fold (d : List (List Nat)) (n : Nat) (N : List (Nat × List UInt8))
    (hsym : ∀ u, u < n → ∀ v, v < n → dmat d u v = dmat d v u) :
    ∀ (k i0 : Nat), i0 + k = n →
    (List.range' i0 k).foldl
      (fun (g : UGraph) i => (List.range n).foldl
        (fun (g : UGraph) j => g.uadd_edge i j (dmat d i j)) g)
      (UGraph.mk N (bandEdges d n i0)) = UGraph.mk N (bandEdges d n n)
  | 0, i0, h => by
    have : i0 = n := by omega
    subst this
    rfl
  | k + 1, i0, h => by
    have hcons : List.range' i0 (k + 1) = i0 :: List.range' (i0 + 1) k := rfl
    rw [hcons, List.foldl_cons]
    have hi0 : i0 < n := by omega
    have hstart : (List.range n).foldl
        (fun (g : UGraph) j => g.uadd_edge i0 j (dmat d i0 j))
        (UGraph.mk N (bandEdges d n i0)) = UGraph.mk N (bandEdges d n (i0 + 1)) := by
      have h0 : UGraph.mk N (bandEdges d n i0) =
          UGraph.mk N (bandEdges d n i0 ++ (List.range' i0 (0 - i0)).map
            (fun v => (i0, v, dmat d i0 v))) := by
        have hz : 0 - i0 = 0 := by omega
        rw [hz, show (List.range' i0 0).map
          (fun v => (i0, v, dmat d i0 v)) = [] from rfl, List.append_nil]
      rw [List.range_eq_range', h0, inner_fold d n N hsym i0 hi0 n 0 (by omega),
        ← bandEdges_succ]
    rw [hstart]
    exact outer_fold d n N hsym k (i0 + 1) (by omega)

/-- The complete weighted graph built inside `get_tree_from_distances`. -/
theorem get_tree_from_distances_eq (d : List (List Nat)) (tokens : List (List UInt8))
    (hsym : ∀ u, u < tokens.length → ∀ v, v < tokens.length →
      dmat d u v = dmat d v u) :
    get_tree_from_distances d tokens =
      minimum_spanning_tree (UGraph.mk tokens.enum (completeEdges d tokens.length)) := by
  show minimum_spanning_tree ((List.range tokens.length).foldl _
    ⟨tokens.enum, []⟩) = _
  congr 1
  have h0 : (⟨tokens.enum, []⟩ : UGraph) = UGraph.mk tokens.enum
      (bandEdges d tokens.length 0) := rfl
  rw [h0]
  nth_rewrite 2 [List.range_eq_range']
  exact outer_fold d tokens.length tokens.enum hsym tokens.length 0 (by omega)

theorem foldl_weight_ones :
    ∀ (l : List (Nat × Nat × Nat)) (s : Nat), (∀ e ∈ l, e.2.2 = 1) →
    l.foldl (fun s e => s + e.2.2) s = s + l.length
  | [], s, _ => by simp
  | e :: l, s, h => by
    rw [List.foldl_cons, h e (List.mem_cons_self _ _),
      foldl_weight_ones l (s + 1) (fun x hx => h x (List.mem_cons_of_mem _ hx)),
      List.length_cons]
    omega

/-- Directed paths of a given length along an adjacency list. -/
inductive PathN (adj : List (Nat × Nat)) : Nat → Nat → Nat → Prop
  | refl (u : Nat) : PathN adj 0 u u
  | step {k u v w : Nat} : PathN adj k u v → (v, w) ∈ adj → PathN adj (k + 1) u w

theorem pathN_of_mem_ball {adj : List (Nat × Nat)} {u : Nat} :
    ∀ {k v : Nat}, v ∈ ball adj u k → ∃ m, m ≤ k ∧ PathN adj m u v := by
  intro k
  induction k with
  | zero =>
    intro v hv
    have : v = u := by simpa [ball] using hv
    subst this
    exact ⟨0, Nat.le_refl _, PathN.refl v⟩
  | succ k ih =>
    intro v hv
    rcases mem_ball_succ_iff.mp hv with h | ⟨w, hw, hadj⟩
    · rcases ih h with ⟨m, hm, hp⟩
      exact ⟨m, by omega, hp⟩
    · rcases ih hw with ⟨m, hm, hp⟩
      exact ⟨m + 1, by omega, PathN.step hp hadj⟩

theorem mem_ball_of_pathN {adj : List (Nat × Nat)} {u v m : Nat}
    (h : PathN adj m u v) : ∀ {k : Nat}, m ≤ k → v ∈ ball adj u k := by
  induction h with
  | refl => intro k _; exact mem_ball_self _
  | @step m2 u2 v2 w2 hp hadj ih =>
    intro k hk
    rcases k with _ | k2
    · omega
    · exact mem_ball_succ_iff.mpr (Or.inr ⟨v2, ih (by omega), hadj⟩)

theorem pathN_front {adj : List (Nat × Nat)} {u v w m : Nat}
    (h1 : (u, v) ∈ adj) (h2 : PathN adj m v w) : PathN adj (m + 1) u w := by
  induction h2 with
  | refl => exact PathN.step (PathN.refl u) h1
  | step hp hadj ih => exact PathN.step (ih h1) hadj

theorem pathN_rev {adj : List (Nat × Nat)} (hs : ∀ p ∈ adj, (p.2, p.1) ∈ adj)
    {u v m : Nat} (h : PathN adj m u v) : PathN adj m v u := by
  induction h with
  | refl => exact PathN.refl _
  | @step k u2 v2 w2 hp hadj ih => exact pathN_front (hs (v2, w2) hadj) ih

theorem reachL_symm {adj : List (Nat × Nat)} (hs : ∀ p ∈ adj, (p.2, p.1) ∈ adj)
    {u v : Nat} (h : ReachL adj u v) : ReachL adj v u := by
  induction h with
  | refl => exact ReachL.refl
  | @step v2 w2 hr hadj ih =>
    exact ReachL.trans (ReachL.step ReachL.refl (hs (v2, w2) hadj)) ih

theorem find?_congr {α : Type} {p q : α → Bool} :
    ∀ {l : List α}, (∀ x ∈ l, p x = q x) → l.find? p = l.find? q
  | [], _ => rfl
  | a :: l, h => by
    by_cases hp : p a = true
    · rw [List.find?_cons_of_pos _ hp,
        List.find?_cons_of_pos _ (by rw [← h a (List.mem_cons_self _ _)]; exact hp)]
    · rw [List.find?_cons_of_neg _ hp,
        List.find?_cons_of_neg _ (by rw [← h a (List.mem_cons_self _ _)]; exact hp),
        find?_congr (fun x hx => h x (List.mem_cons_of_mem _ hx))]

theorem symAdj_symm (T : Graph) : ∀ p ∈ symAdj T, (p.2, p.1) ∈ symAdj T := by
  intro p hp
  unfold symAdj at hp ⊢
  rcases List.mem_append.mp hp with h1 | h1
  · exact List.mem_append_right _ (List.mem_map.mpr ⟨p, h1, rfl⟩)
  · rcases List.mem_map.mp h1 with ⟨q, hq, rfl⟩
    exact List.mem_append_left _ hq

theorem symAdj_of_adj {T : Graph} {a b : Nat} (h : (a, b) ∈ T.adj) :
    (a, b) ∈ symAdj T :=
  List.mem_append_left _ h

theorem mem_symAdj_iff {T : Graph} {a b : Nat} :
    (a, b) ∈ symAdj T ↔ (a, b) ∈ T.adj ∨ (b, a) ∈ T.adj := by
  unfold symAdj
  rw [List.mem_append]
  constructor
  · rintro (h | h)
    · exact Or.inl h
    · rcases List.mem_map.mp h with ⟨q, hq, heq⟩
      refine Or.inr ?_
      have h1 : q.2 = a := congrArg Prod.fst heq
      have h2 : q.1 = b := congrArg Prod.snd heq
      rw [← h1, ← h2]
      exact hq
  · rintro (h | h)
    · exact Or.inl h
    · exact Or.inr (List.mem_map.mpr ⟨(b, a), h, rfl⟩)

/-- Hop distance is symmetric over a symmetric adjacency list. -/
theorem bdist_symm {adj : List (Nat × Nat)} (hs : ∀ p ∈ adj, (p.2, p.1) ∈ adj)
    (u v : Nat) : bdist adj u v = bdist adj v u := by
  unfold bdist
  refine find?_congr (fun k _ => ?_)
  apply bool_eq_of_iff
  rw [List.elem_iff, List.elem_iff]
  constructor
  · intro h
    rcases pathN_of_mem_ball h with ⟨m, hm, hp⟩
    exact mem_ball_of_pathN (pathN_rev hs hp) hm
  · intro h
    rcases pathN_of_mem_ball h with ⟨m, hm, hp⟩
    exact mem_ball_of_pathN (pathN_rev hs hp) hm

theorem floyd_symm (T : Graph) (u v : Nat) :
    floyd_entry T u v = floyd_entry T v u := by
  unfold floyd_entry
  rw [bdist_symm (symAdj_symm T)]

theorem bdist_self (adj : List (Nat × Nat)) (u : Nat) : bdist adj u u = some 0 := by
  unfold bdist
  rw [List.range_succ_eq_map]
  rw [List.find?_cons_of_pos (p := fun k => (ball adj u k).contains u) _
    (List.elem_iff.mpr (mem_ball_self _))]

theorem floyd_entry_none {T : Graph} {u v : Nat} (h : bdist (symAdj T) u v = none) :
    floyd_entry T u v = 2 * T.edges.length + 2 := by
  unfold floyd_entry
  rw [h]

theorem floyd_entry_some {T : Graph} {u v k : Nat} (h : bdist (symAdj T) u v = some k) :
    floyd_entry T u v = k := by
  unfold floyd_entry
  rw [h]

theorem floyd_self (T : Graph) (u : Nat) : floyd_entry T u u = 0 :=
  floyd_entry_some (bdist_self _ _)

theorem floyd_pos {T : Graph} {u v : Nat} (h : u ≠ v) : 1 ≤ floyd_entry T u v := by
  rcases hb : bdist (symAdj T) u v with _ | k
  · rw [floyd_entry_none hb]
    omega
  · rw [floyd_entry_some hb]
    have hk := List.find?_some hb
    rcases k with _ | k2
    · exfalso
      have h1 : v ∈ ball (symAdj T) u 0 := List.elem_iff.mp hk
      have h2 : v = u := by simpa [ball] using h1
      exact h h2.symm
    · omega

theorem floyd_one_iff {T : Graph} {u v : Nat} :
    floyd_entry T u v = 1 ↔ (u ≠ v ∧ (u, v) ∈ symAdj T) := by
  constructor
  · intro h
    rcases hb : bdist (symAdj T) u v with _ | k
    · rw [floyd_entry_none hb] at h
      omega
    · rw [floyd_entry_some hb] at h
      subst h
      unfold bdist at hb
      rw [List.range_succ_eq_map] at hb
      have hp0 : ((ball (symAdj T) u 0).contains v) = false := by
        rcases hc : ((ball (symAdj T) u 0).contains v) with _ | _
        · rfl
        · exfalso
          rw [List.find?_cons_of_pos (p := fun k => (ball (symAdj T) u k).contains v)
            _ hc] at hb
          cases hb
      rw [List.find?_cons_of_neg (p := fun k => (ball (symAdj T) u k).contains v) _
        (by show ¬((ball (symAdj T) u 0).contains v) = true
            rw [hp0]; exact Bool.false_ne_true)] at hb
      have hp1 := List.find?_some hb
      have hvne : u ≠ v := by
        intro hc
        subst hc
        rw [show ((ball (symAdj T) u 0).contains u) = true from
          List.elem_iff.mpr (mem_ball_self _)] at hp0
        cases hp0
      refine ⟨hvne, ?_⟩
      have hv1 : v ∈ ball (symAdj T) u 1 := List.elem_iff.mp hp1
      rcases mem_ball_succ_iff.mp hv1 with h1 | ⟨w, hw, hadj⟩
      · exfalso
        rw [show ((ball (symAdj T) u 0).contains v) = true from List.elem_iff.mpr h1]
          at hp0
        cases hp0
      · have hwu : w = u := by simpa [ball] using hw
        rw [← hwu]
        exact hadj
  · rintro ⟨hne, hadj⟩
    have hp0 : ((ball (symAdj T) u 0).contains v) = false := by
      rcases hc : ((ball (symAdj T) u 0).contains v) with _ | _
      · rfl
      · exfalso
        have h1 : v ∈ ball (symAdj T) u 0 := List.elem_iff.mp hc
        have h2 : v = u := by simpa [ball] using h1
        exact hne h2.symm
    have hp1 : ((ball (symAdj T) u 1).contains v) = true := by
      refine List.elem_iff.mpr (mem_ball_succ_iff.mpr (Or.inr ⟨u, ?_, hadj⟩))
      exact mem_ball_self _
    have hbd : bdist (symAdj T) u v = some 1 := by
      unfold bdist
      rcases hL : (symAdj T).length with _ | L2
      · exfalso
        have : symAdj T = [] := List.length_eq_zero.mp hL
        rw [this] at hadj
        cases hadj
      · rw [List.range_succ_eq_map,
          List.find?_cons_of_neg (p := fun k => (ball (symAdj T) u k).contains v) _
            (by show ¬((ball (symAdj T) u 0).contains v) = true
                rw [hp0]; exact Bool.false_ne_true),
          List.range_succ_eq_map, List.map_cons,
          List.find?_cons_of_pos (p := fun k => (ball (symAdj T) u k).contains v) _ hp1]
    exact floyd_entry_some hbd

theorem usym_pair_symm (es : List (Nat × Nat × Nat)) :
    ∀ p ∈ usym es, (p.2, p.1) ∈ usym es := by
  intro p hp
  unfold usym at hp ⊢
  rcases List.mem_append.mp hp with h1 | h1
  · rcases List.mem_map.mp h1 with ⟨e, he, rfl⟩
    exact List.mem_append_right _ (List.mem_map.mpr ⟨e, he, rfl⟩)
  · rcases List.mem_map.mp h1 with ⟨e, he, rfl⟩
    exact List.mem_append_left _ (List.mem_map.mpr ⟨e, he, rfl⟩)

theorem mem_usym_iff {es : List (Nat × Nat × Nat)} {a b : Nat} :
    (a, b) ∈ usym es ↔ (∃ e ∈ es, e.1 = a ∧ e.2.1 = b) ∨ (∃ e ∈ es, e.1 = b ∧ e.2.1 = a) := by
  unfold usym
  rw [List.mem_append]
  constructor
  · rintro (h | h)
    · rcases List.mem_map.mp h with ⟨e, he, heq⟩
      exact Or.inl ⟨e, he, congrArg Prod.fst heq, congrArg Prod.snd heq⟩
    · rcases List.mem_map.mp h with ⟨e, he, heq⟩
      exact Or.inr ⟨e, he, congrArg Prod.snd heq, congrArg Prod.fst heq⟩
  · rintro (⟨e, he, h1, h2⟩ | ⟨e, he, h1, h2⟩)
    · refine Or.inl (List.mem_map.mpr ⟨e, he, ?_⟩)
      rw [h1, h2]
    · refine Or.inr (List.mem_map.mpr ⟨e, he, ?_⟩)
      rw [h1, h2]

/-- Along index-increasing directed edges, reachability only moves right. -/
theorem index_reach_le {es : List (Nat × Nat × Nat)}
    (hinc : ∀ e ∈ es, e.1 < e.2.1) {b x : Nat}
    (h : ReachL (es.map (fun e => (e.1, e.2.1))) b x) : b ≤ x := by
  induction h with
  | refl => exact Nat.le_refl _
  | step hr hadj ih =>
    rcases List.mem_map.mp hadj with ⟨e, he, heq⟩
    have h1 := congrArg Prod.fst heq
    have h2 := congrArg Prod.snd heq
    have := hinc e he
    simp only at h1 h2
    omega

/-- In an index-increasing forest with unique parents, every directed edge
is a bridge: its endpoints are disconnected once it is removed. -/
theorem index_bridge (es : List (Nat × Nat × Nat))
    (hinc : ∀ e ∈ es, e.1 < e.2.1)
    (huniq : ∀ e1 ∈ es, ∀ e2 ∈ es, e1.2.1 = e2.2.1 → e1.1 = e2.1)
    (hkeys : ∀ e1 ∈ es, ∀ e2 ∈ es, e1.1 = e2.1 → e1.2.1 = e2.2.1 → e1 = e2)
    {e : Nat × Nat × Nat} (he : e ∈ es) :
    uconnected (es.filter (fun x => !(x == e))) e.1 e.2.1 = false := by
  rcases hb : uconnected (es.filter (fun x => !(x == e))) e.1 e.2.1 with _ | _
  · rfl
  · exfalso
    have hreach : ReachL (usym (es.filter (fun x => !(x == e)))) e.1 e.2.1 :=
      uconnected_iff.mp hb
    have hrev : ReachL (usym (es.filter (fun x => !(x == e)))) e.2.1 e.1 :=
      reachL_symm (usym_pair_symm _) hreach
    have hD : ∀ x, ReachL (usym (es.filter (fun x => !(x == e)))) e.2.1 x →
        ReachL (es.map (fun e2 => (e2.1, e2.2.1))) e.2.1 x := by
      intro x hx
      induction hx with
      | refl => exact ReachL.refl
      | @step v w hr hadj ih =>
        rcases mem_usym_iff.mp hadj with ⟨f, hf, hf1, hf2⟩ | ⟨f, hf, hf1, hf2⟩
        · exact ReachL.step ih (List.mem_map.mpr
            ⟨f, List.mem_of_mem_filter hf, by rw [hf1, hf2]⟩)
        · -- a backwards step: `f` is the in-edge of `v`
          have hfes : f ∈ es := List.mem_of_mem_filter hf
          have hfne : ¬(f = e) := by
            have := (List.mem_filter.mp hf).2
            simpa using this
          by_cases hvb : v = e.2.1
          · exfalso
            have hsame : f.1 = e.1 := huniq f hfes e he (by rw [hf2, hvb])
            exact hfne (hkeys f hfes e he hsame (by rw [hf2, hvb]))
          · have hplus : StepPlus (es.map (fun e2 => (e2.1, e2.2.1))) e.2.1 v :=
              stepPlus_of_reachL_ne ih (fun hc => hvb hc.symm)
            rcases stepPlus_last hplus with ⟨c, hc1, hc2⟩
            rcases List.mem_map.mp hc2 with ⟨g, hg, hgeq⟩
            have hg1 : g.1 = c := congrArg Prod.fst hgeq
            have hg2 : g.2.1 = v := congrArg Prod.snd hgeq
            have hsame : g.1 = f.1 := huniq g hg f hfes (by rw [hg2, hf2])
            have hcw : c = w := by rw [← hg1, hsame, hf1]
            exact hcw ▸ hc1
    have hle := index_reach_le hinc (hD e.1 hrev)
    have := hinc e he
    omega

/-- Every index is reachable from index `0` when every positive index has
an in-edge with a smaller source. -/
theorem index_conn (es : List (Nat × Nat × Nat)) (n : Nat)
    (hinc : ∀ e ∈ es, e.1 < e.2.1)
    (hexist : ∀ j, 0 < j → j < n → ∃ e ∈ es, e.2.1 = j) :
    ∀ j, j < n → ReachL (usym es) 0 j := by
  have haux : ∀ (k j : Nat), j ≤ k → j < n → ReachL (usym es) 0 j := by
    intro k
    induction k with
    | zero =>
      intro j hj _
      have : j = 0 := by omega
      subst this
      exact ReachL.refl
    | succ k ih =>
      intro j hj hjn
      rcases Nat.eq_zero_or_pos j with h0 | hpos
      · subst h0
        exact ReachL.refl
      · rcases hexist j hpos hjn with ⟨e, he, htgt⟩
        have hlt := hinc e he
        have hr := ih e.1 (by omega) (by omega)
        refine ReachL.step hr ?_
        have : (e.1, e.2.1) ∈ usym es :=
          List.mem_append_left _ (List.mem_map.mpr ⟨e, he, rfl⟩)
        rw [htgt] at this
        exact this
  exact fun j hj => haux j j (Nat.le_refl _) hj

/-- Indexing into the matrix of a doubly-mapped list. -/
theorem dmat_map (F : Nat → Nat → Nat) (ns : List Nat) (a b : Nat)
    (ha : a < ns.length) (hb : b < ns.length) :
    dmat (ns.map (fun i => ns.map (fun j => F i j))) a b =
      F (ns.getD a 0) (ns.getD b 0) := by
  unfold dmat
  have h1 : (ns.map (fun i => ns.map (fun j => F i j))).getD a [] =
      ns.map (fun j => F (ns.getD a 0) j) := by
    rw [List.getD_eq_getElem _ _ (by rw [List.length_map]; exact ha), List.getElem_map,
      ← List.getD_eq_getElem ns 0 ha]
  rw [h1, List.getD_eq_getElem _ _ (by rw [List.length_map]; exact hb), List.getElem_map,
    ← List.getD_eq_getElem ns 0 hb]

/-- Attributes in the terminal subgraph agree with the original graph. -/
theorem dep_tree_attr {G : Graph} (hnodup : G.nodeIds.Nodup)
    (deps : List (Nat × Nat × Option String)) {m : Nat} (hm : m ∈ terminalIds G) :
    (Graph.mk (G.nodes.filter (fun p => p.2.is_terminal)) deps).attr m = G.attr m := by
  have hTnodup : (Graph.mk (G.nodes.filter (fun p => p.2.is_terminal)) deps).nodeIds.Nodup :=
    terminalIds_nodup hnodup
  obtain ⟨hmem, hterm⟩ := (mem_terminalIds_iff hnodup).mp hm
  rcases exists_attr_of_mem_nodeIds hmem with ⟨a, ha⟩
  have haG : G.attr m = a := attr_of_mem_nodup hnodup ha
  have hmemT : (m, a) ∈ (Graph.mk (G.nodes.filter (fun p => p.2.is_terminal)) deps).nodes := by
    show (m, a) ∈ G.nodes.filter (fun p => p.2.is_terminal)
    refine List.mem_filter.mpr ⟨ha, ?_⟩
    show a.is_terminal = true
    rw [← haG]
    exact hterm
  rw [attr_of_mem_nodup hTnodup hmemT, haG]

/-- **C6.**  Round trip through the distance matrix: on every valid
constituency tree, feeding the matrix and tokens produced by
`get_matrix_and_tokens_dep` on its dependency tree back through
`get_tree_from_distances` reconstructs, up to permutation, exactly the
weight-one index pairs (the dependency edges under the sorted-node
relabelling): the result has the same number of edges as the dependency
tree, every edge has weight one, and the total edge weight equals that
edge count. -/
theorem c6_tree_round_trip (G : Graph) (code : List UInt8) (h : validB G = true) :
    (get_tree_from_distances
        (get_matrix_and_tokens_dep (get_dependency_tree (enrich_ast_with_deps G)) code).1
        (get_matrix_and_tokens_dep (get_dependency_tree (enrich_ast_with_deps G)) code).2).edges.Perm
      (treeEdges
        (get_matrix_and_tokens_dep (get_dependency_tree (enrich_ast_with_deps G)) code).1
        (get_matrix_and_tokens_dep (get_dependency_tree (enrich_ast_with_deps G)) code).2.length) ∧
    (get_tree_from_distances
        (get_matrix_and_tokens_dep (get_dependency_tree (enrich_ast_with_deps G)) code).1
        (get_matrix_and_tokens_dep (get_dependency_tree (enrich_ast_with_deps G)) code).2).edges.length =
      (get_dependency_tree (enrich_ast_with_deps G)).edges.length ∧
    (∀ e ∈ (get_tree_from_distances
        (get_matrix_and_tokens_dep (get_dependency_tree (enrich_ast_with_deps G)) code).1
        (get_matrix_and_tokens_dep (get_dependency_tree (enrich_ast_with_deps G)) code).2).edges,
      e.2.2 = 1) ∧
    (get_tree_from_distances
        (get_matrix_and_tokens_dep (get_dependency_tree (enrich_ast_with_deps G)) code).1
        (get_matrix_and_tokens_dep (get_dependency_tree (enrich_ast_with_deps G)) code).2).edges.foldl
        (fun s e => s + e.2.2) 0 =
      (get_dependency_tree (enrich_ast_with_deps G)).edges.length := by
  obtain ⟨hnodup, hclosed, hunlab, hroot0, hrootin, hindeg, hreach, hup, htermout, htne,
    hdist⟩ := validB_and h
  obtain ⟨hrmem, hrmin⟩ := root_dep_spec htne hdist
  obtain ⟨deps, heqD, hmap, hgood⟩ := dep_tree_spec h
  rw [heqD]
  set TT : Graph := Graph.mk (G.nodes.filter (fun p => p.2.is_terminal)) deps with hTT
  set ns : List Nat := sortByStart TT (TT.nodes.map (·.1)) with hns
  have hmat : (get_matrix_and_tokens_dep TT code).1 =
      ns.map (fun i => ns.map (fun j => floyd_entry TT i j)) := rfl
  have htoklen : (get_matrix_and_tokens_dep TT code).2.length = ns.length := by
    show (get_tokens_dep TT code).length = ns.length
    unfold get_tokens_dep
    rw [List.length_map, hns]
  have hTTattr : ∀ m ∈ terminalIds G, TT.attr m = G.attr m :=
    fun m hm => dep_tree_attr hnodup deps hm
  have hnsperm : ns.Perm (terminalIds G) := by
    have h1 := sortByStart_perm TT (TT.nodes.map (·.1))
    rw [← hns] at h1
    exact h1
  have hnsnodup : ns.Nodup := hnsperm.nodup_iff.mpr (terminalIds_nodup hnodup)
  have hnssorted : ns.Sorted (fun a b => (TT.attr a).start ≤ (TT.attr b).start) := by
    have h1 := sortByStart_sorted TT (TT.nodes.map (·.1))
    rw [← hns] at h1
    exact h1
  set σ : Nat → Nat := fun a => ns.getD a 0 with hσ
  have hσget : ∀ (a : Nat) (ha : a < ns.length), σ a = ns.get ⟨a, ha⟩ := by
    intro a ha
    show ns.getD a 0 = ns.get ⟨a, ha⟩
    rw [List.getD_eq_getElem ns 0 ha]
    rfl
  have hσmem : ∀ a, a < ns.length → σ a ∈ terminalIds G := by
    intro a ha
    rw [hσget a ha]
    exact hnsperm.mem_iff.mp (List.mem_iff_get.mpr ⟨⟨a, ha⟩, rfl⟩)
  have hσinj : ∀ a b, a < ns.length → b < ns.length → σ a = σ b → a = b := by
    intro a b ha hb heq
    rw [hσget a ha, hσget b hb] at heq
    have h1 := (List.Nodup.get_inj_iff hnsnodup).mp heq
    exact congrArg Fin.val h1
  have hσsurj : ∀ t ∈ terminalIds G, ∃ a, a < ns.length ∧ σ a = t := by
    intro t ht
    have h1 : t ∈ ns := hnsperm.mem_iff.mpr ht
    rcases List.mem_iff_get.mp h1 with ⟨i, hi⟩
    refine ⟨i.1, i.2, ?_⟩
    rw [hσget i.1 i.2]
    exact hi
  have hmono : ∀ a b, a < ns.length → b < ns.length → a < b →
      (G.attr (σ a)).start < (G.attr (σ b)).start := by
    intro a b ha hb hab
    have hle : (TT.attr (σ a)).start ≤ (TT.attr (σ b)).start := by
      have hp := List.pairwise_iff_get.mp hnssorted ⟨a, ha⟩ ⟨b, hb⟩ hab
      rw [hσget a ha, hσget b hb]
      exact hp
    rw [hTTattr _ (hσmem a ha), hTTattr _ (hσmem b hb)] at hle
    rcases Nat.lt_or_ge (G.attr (σ a)).start (G.attr (σ b)).start with hlt | hge
    · exact hlt
    · exfalso
      have heq : (G.attr (σ a)).start = (G.attr (σ b)).start := Nat.le_antisymm hle hge
      have hss : σ a = σ b :=
        List.inj_on_of_nodup_map hdist (hσmem a ha) (hσmem b hb) heq
      have := hσinj a b ha hb hss
      omega
  have hmono2 : ∀ a b, a < ns.length → b < ns.length →
      (G.attr (σ a)).start < (G.attr (σ b)).start → a < b := by
    intro a b ha hb hlt
    rcases Nat.lt_or_ge a b with h1 | h1
    · exact h1
    · exfalso
      rcases Nat.eq_or_lt_of_le h1 with h2 | h2
      · rw [h2] at hlt
        omega
      · have := hmono b a hb ha h2
        omega
  have hdmat : ∀ a b, a < ns.length → b < ns.length →
      dmat (get_matrix_and_tokens_dep TT code).1 a b = floyd_entry TT (σ a) (σ b) := by
    intro a b ha hb
    rw [hmat]
    exact dmat_map (floyd_entry TT) ns a b ha hb
  have hadj1 : ∀ a b, a < ns.length → b < ns.length → a < b →
      (dmat (get_matrix_and_tokens_dep TT code).1 a b = 1 ↔ (σ a, σ b) ∈ TT.adj) := by
    intro a b ha hb hab
    rw [hdmat a b ha hb]
    constructor
    · intro h1
      obtain ⟨hne2, hsym2⟩ := floyd_one_iff.mp h1
      rcases mem_symAdj_iff.mp hsym2 with hf | hr
      · exact hf
      · exfalso
        rcases adj_mem_iff.mp hr with ⟨lab, hmem2⟩
        obtain ⟨-, -, hlt2, -, -, -⟩ := hgood (σ b, σ a, lab) hmem2
        have := hmono a b ha hb hab
        simp only at hlt2
        omega
    · intro hedge
      apply floyd_one_iff.mpr
      refine ⟨?_, symAdj_of_adj hedge⟩
      intro hc
      have := hσinj a b ha hb hc
      omega
  have hmemC : ∀ e : Nat × Nat × Nat, e ∈ completeEdges (get_matrix_and_tokens_dep TT code).1
      ns.length ↔ ∃ u v, u < ns.length ∧ u ≤ v ∧ v < ns.length ∧
        e = (u, v, dmat (get_matrix_and_tokens_dep TT code).1 u v) := by
    intro e
    exact mem_bandEdges_iff (Nat.le_refl _)
  have hmemT : ∀ e : Nat × Nat × Nat, e ∈ treeEdges (get_matrix_and_tokens_dep TT code).1
      ns.length ↔ ∃ a b, a < b ∧ b < ns.length ∧ (σ a, σ b) ∈ TT.adj ∧ e = (a, b, 1) := by
    intro e
    unfold treeEdges
    rw [List.mem_filter]
    constructor
    · rintro ⟨hc, hcond⟩
      rcases (hmemC e).mp hc with ⟨u, v, hu, huv, hv, rfl⟩
      rw [Bool.and_eq_true] at hcond
      obtain ⟨ha2, hb2⟩ := hcond
      have hne3 : ¬ u = v := by simpa using ha2
      have hw3 : dmat (get_matrix_and_tokens_dep TT code).1 u v = 1 := by simpa using hb2
      have huv2 : u < v := Nat.lt_of_le_of_ne huv hne3
      exact ⟨u, v, huv2, hv, (hadj1 u v hu hv huv2).mp hw3, by rw [hw3]⟩
    · rintro ⟨a, b, hab, hb, hedge, rfl⟩
      have ha : a < ns.length := by omega
      have hw : dmat (get_matrix_and_tokens_dep TT code).1 a b = 1 :=
        (hadj1 a b ha hb hab).mpr hedge
      refine ⟨(hmemC (a, b, 1)).mpr ⟨a, b, ha, by omega, hb, by rw [hw]⟩, ?_⟩
      show (!(a == b) && (1 == 1)) = true
      have hne2 : (a == b) = false := beq_eq_false_iff_ne.mpr (by omega)
      rw [hne2]
      rfl
  have hinlen : ∀ t : Nat, (deps.filter (fun e => e.2.1 == t)).length =
      if t ∈ depTargets G then 1 else 0 := by
    intro t
    have h1 := length_filter_map_eq (fun e => e.2.1) (fun x => x == t) deps
    rw [hmap] at h1
    rw [← h1]
    exact length_filter_beq_of_nodup (depTargets_nodup hnodup) t
  have huniqdep : ∀ e1 ∈ deps, ∀ e2 ∈ deps, e1.2.1 = e2.2.1 → e1.1 = e2.1 := by
    intro e1 he1 e2 he2 htgt
    have hmem1 : e1 ∈ deps.filter (fun e => e.2.1 == e1.2.1) :=
      List.mem_filter.mpr ⟨he1, by simp⟩
    have hmem2 : e2 ∈ deps.filter (fun e => e.2.1 == e1.2.1) :=
      List.mem_filter.mpr ⟨he2, by simp [htgt]⟩
    have hlen : (deps.filter (fun e => e.2.1 == e1.2.1)).length ≤ 1 := by
      rw [hinlen]
      split <;> omega
    rcases hfe : deps.filter (fun e => e.2.1 == e1.2.1) with _ | ⟨x, xs⟩
    · rw [hfe] at hmem1
      cases hmem1
    · rw [hfe] at hmem1 hmem2 hlen
      cases xs with
      | nil =>
        have h1 : e1 = x := by simpa using hmem1
        have h2 : e2 = x := by simpa using hmem2
        rw [h1, h2]
      | cons y ys =>
        rw [List.length_cons, List.length_cons] at hlen
        omega
  have hincT : ∀ f ∈ treeEdges (get_matrix_and_tokens_dep TT code).1 ns.length,
      f.1 < f.2.1 := by
    intro f hf
    rcases (hmemT f).mp hf with ⟨a, b, hab, hb, -, rfl⟩
    exact hab
  have huniqT : ∀ f1 ∈ treeEdges (get_matrix_and_tokens_dep TT code).1 ns.length,
      ∀ f2 ∈ treeEdges (get_matrix_and_tokens_dep TT code).1 ns.length,
      f1.2.1 = f2.2.1 → f1.1 = f2.1 := by
    intro f1 hf1 f2 hf2 htgt
    rcases (hmemT f1).mp hf1 with ⟨a1, b1, hab1, hb1, hedge1, rfl⟩
    rcases (hmemT f2).mp hf2 with ⟨a2, b2, hab2, hb2, hedge2, rfl⟩
    have hb12 : b1 = b2 := htgt
    subst hb12
    rcases adj_mem_iff.mp hedge1 with ⟨l1, hm1⟩
    rcases adj_mem_iff.mp hedge2 with ⟨l2, hm2⟩
    have hsame := huniqdep (σ a1, σ b1, l1) hm1 (σ a2, σ b1, l2) hm2 rfl
    show a1 = a2
    exact hσinj a1 a2 (by omega) (by omega) hsame
  have hkeysT : ∀ f1 ∈ treeEdges (get_matrix_and_tokens_dep TT code).1 ns.length,
      ∀ f2 ∈ treeEdges (get_matrix_and_tokens_dep TT code).1 ns.length,
      f1.1 = f2.1 → f1.2.1 = f2.2.1 → f1 = f2 := by
    intro f1 hf1 f2 hf2 h1 h2
    rcases (hmemT f1).mp hf1 with ⟨a1, b1, -, -, -, rfl⟩
    rcases (hmemT f2).mp hf2 with ⟨a2, b2, -, -, -, rfl⟩
    have e1 : a1 = a2 := h1
    have e2 : b1 = b2 := h2
    rw [e1, e2]
  have hroot_ne : ∀ j, 0 < j → j < ns.length → σ j ≠ get_root_dep_tree G := by
    intro j hj hjn hc
    have h0 : (0 : Nat) < ns.length := by omega
    have hmem0 := hσmem 0 h0
    by_cases hr0 : σ 0 = get_root_dep_tree G
    · have := hσinj 0 j h0 hjn (by rw [hr0, hc])
      omega
    · have hlt := hrmin (σ 0) hmem0 hr0
      have hlt2 := hmono 0 j h0 hjn hj
      rw [hc] at hlt2
      omega
  have hexistT : ∀ j, 0 < j → j < ns.length →
      ∃ f ∈ treeEdges (get_matrix_and_tokens_dep TT code).1 ns.length, f.2.1 = j := by
    intro j hj hjn
    have htmem : σ j ∈ depTargets G :=
      (mem_depTargets_iff hnodup).mpr ⟨hσmem j hjn, hroot_ne j hj hjn⟩
    have h1 : σ j ∈ deps.map (fun e => e.2.1) := by rw [hmap]; exact htmem
    rcases List.mem_map.mp h1 with ⟨e, he, heq⟩
    obtain ⟨ht1, ht2, hlt, hlab, hm1, hm2⟩ := hgood e he
    have hsrc_term : e.1 ∈ terminalIds G := (mem_terminalIds_iff hnodup).mpr ⟨hm1, ht1⟩
    rcases hσsurj e.1 hsrc_term with ⟨i, hi, hσi⟩
    have hij : i < j := by
      apply hmono2 i j hi hjn
      rw [hσi, ← heq]
      exact hlt
    have hedge : (σ i, σ j) ∈ TT.adj := by
      apply adj_mem_iff.mpr
      refine ⟨e.2.2, ?_⟩
      rw [hσi, ← heq]
      exact he
    exact ⟨(i, j, 1), (hmemT (i, j, 1)).mpr ⟨i, j, hij, hjn, hedge, rfl⟩, rfl⟩
  have hnodupC : (completeEdges (get_matrix_and_tokens_dep TT code).1 ns.length).Nodup :=
    bandEdges_nodup (get_matrix_and_tokens_dep TT code).1 ns.length ns.length (Nat.le_refl _)
  have hposC : ∀ e ∈ completeEdges (get_matrix_and_tokens_dep TT code).1 ns.length,
      e.1 ≠ e.2.1 → 1 ≤ e.2.2 := by
    intro e he hne2
    rcases (hmemC e).mp he with ⟨u, v, hu, huv, hv, rfl⟩
    show 1 ≤ dmat (get_matrix_and_tokens_dep TT code).1 u v
    rw [hdmat u v hu hv]
    refine floyd_pos ?_
    intro hc
    exact hne2 (hσinj u v hu hv hc)
  have hbridgeC : ∀ e ∈ completeEdges (get_matrix_and_tokens_dep TT code).1 ns.length,
      e.1 ≠ e.2.1 → e.2.2 = 1 →
      uconnected (((completeEdges (get_matrix_and_tokens_dep TT code).1 ns.length).filter
          (fun x => !(x.1 == x.2.1) && x.2.2 == 1)).filter
        (fun x => !(x == e))) e.1 e.2.1 = false := by
    intro e he hne2 hw
    have heT : e ∈ treeEdges (get_matrix_and_tokens_dep TT code).1 ns.length := by
      unfold treeEdges
      refine List.mem_filter.mpr ⟨he, ?_⟩
      have h1 : (e.1 == e.2.1) = false := beq_eq_false_iff_ne.mpr hne2
      rw [h1, hw]
      rfl
    exact index_bridge (treeEdges (get_matrix_and_tokens_dep TT code).1 ns.length)
      hincT huniqT hkeysT heT
  have hconnC : ∀ e ∈ completeEdges (get_matrix_and_tokens_dep TT code).1 ns.length,
      e.1 ≠ e.2.1 →
      uconnected ((completeEdges (get_matrix_and_tokens_dep TT code).1 ns.length).filter
        (fun x => !(x.1 == x.2.1) && x.2.2 == 1)) e.1 e.2.1 = true := by
    intro e he hne2
    rcases (hmemC e).mp he with ⟨u, v, hu, huv, hv, rfl⟩
    refine uconnected_iff.mpr ?_
    have h0u := index_conn (treeEdges (get_matrix_and_tokens_dep TT code).1 ns.length)
      ns.length hincT hexistT u hu
    have h0v := index_conn (treeEdges (get_matrix_and_tokens_dep TT code).1 ns.length)
      ns.length hincT hexistT v hv
    exact ReachL.trans (reachL_symm (usym_pair_symm _) h0u) h0v
  have hsymM : ∀ u, u < (get_matrix_and_tokens_dep TT code).2.length →
      ∀ v, v < (get_matrix_and_tokens_dep TT code).2.length →
      dmat (get_matrix_and_tokens_dep TT code).1 u v =
        dmat (get_matrix_and_tokens_dep TT code).1 v u := by
    intro u hu v hv
    rw [htoklen] at hu hv
    rw [hdmat u v hu hv, hdmat v u hv hu]
    exact floyd_symm TT (σ u) (σ v)
  have hGT := get_tree_from_distances_eq (get_matrix_and_tokens_dep TT code).1
    (get_matrix_and_tokens_dep TT code).2 hsymM
  have hK : (minimum_spanning_tree (UGraph.mk (get_matrix_and_tokens_dep TT code).2.enum
      (completeEdges (get_matrix_and_tokens_dep TT code).1 ns.length))).edges =
      (sortEdgesByWeight (completeEdges (get_matrix_and_tokens_dep TT code).1
        ns.length)).filter (fun x => !(x.1 == x.2.1) && x.2.2 == 1) :=
    kruskal_spec _ hnodupC hposC hbridgeC hconnC
  have hmain : (get_tree_from_distances (get_matrix_and_tokens_dep TT code).1
      (get_matrix_and_tokens_dep TT code).2).edges =
      (sortEdgesByWeight (completeEdges (get_matrix_and_tokens_dep TT code).1
        ns.length)).filter (fun x => !(x.1 == x.2.1) && x.2.2 == 1) := by
    rw [hGT, htoklen]
    exact hK
  have hperm2 : ((sortEdgesByWeight (completeEdges (get_matrix_and_tokens_dep TT code).1
      ns.length)).filter (fun x => !(x.1 == x.2.1) && x.2.2 == 1)).Perm
      (treeEdges (get_matrix_and_tokens_dep TT code).1 ns.length) :=
    List.Perm.filter _ (List.perm_insertionSort _ _)
  have hnodupT : (treeEdges (get_matrix_and_tokens_dep TT code).1 ns.length).Nodup :=
    List.Nodup.filter _ hnodupC
  have hmapinj : ((treeEdges (get_matrix_and_tokens_dep TT code).1 ns.length).map
      (fun f => (σ f.1, σ f.2.1))).Nodup := by
    refine List.Nodup.map_on ?_ hnodupT
    intro f1 hf1 f2 hf2 heq2
    have h1 : σ f1.1 = σ f2.1 := congrArg Prod.fst heq2
    have h2 : σ f1.2.1 = σ f2.2.1 := congrArg Prod.snd heq2
    rcases (hmemT f1).mp hf1 with ⟨a1, b1, hab1, hb1, -, rfl⟩
    rcases (hmemT f2).mp hf2 with ⟨a2, b2, hab2, hb2, -, rfl⟩
    have e1 : a1 = a2 := hσinj a1 a2 (by omega) (by omega) h1
    have e2 : b1 = b2 := hσinj b1 b2 hb1 hb2 h2
    rw [e1, e2]
  have hmap2nodup : (deps.map (fun e => (e.1, e.2.1))).Nodup := by
    have h1 : ((deps.map (fun e => (e.1, e.2.1))).map Prod.snd).Nodup := by
      rw [List.map_map]
      have h2 : (Prod.snd ∘ fun (e : Nat × Nat × Option String) => (e.1, e.2.1)) =
          fun e => e.2.1 := rfl
      rw [h2, hmap]
      exact depTargets_nodup hnodup
    exact h1.of_map
  have hsetiff : ∀ q : Nat × Nat,
      q ∈ (treeEdges (get_matrix_and_tokens_dep TT code).1 ns.length).map
        (fun f => (σ f.1, σ f.2.1)) ↔
      q ∈ deps.map (fun e => (e.1, e.2.1)) := by
    intro q
    constructor
    · intro hq
      rcases List.mem_map.mp hq with ⟨f, hf, rfl⟩
      rcases (hmemT f).mp hf with ⟨a, b, hab, hb, hedge, rfl⟩
      rcases adj_mem_iff.mp hedge with ⟨lab, hm2⟩
      exact List.mem_map.mpr ⟨(σ a, σ b, lab), hm2, rfl⟩
    · intro hq
      rcases List.mem_map.mp hq with ⟨e, he, rfl⟩
      obtain ⟨ht1, ht2, hlt, hlab, hm1, hm2⟩ := hgood e he
      rcases hσsurj e.1 ((mem_terminalIds_iff hnodup).mpr ⟨hm1, ht1⟩) with ⟨a, ha, hσa⟩
      rcases hσsurj e.2.1 ((mem_terminalIds_iff hnodup).mpr ⟨hm2, ht2⟩) with ⟨b, hb, hσb⟩
      have hab : a < b := by
        apply hmono2 a b ha hb
        rw [hσa, hσb]
        exact hlt
      have hedge : (σ a, σ b) ∈ TT.adj := by
        apply adj_mem_iff.mpr
        refine ⟨e.2.2, ?_⟩
        rw [hσa, hσb]
        exact he
      refine List.mem_map.mpr ⟨(a, b, 1),
        (hmemT (a, b, 1)).mpr ⟨a, b, hab, hb, hedge, rfl⟩, ?_⟩
      show (σ a, σ b) = (e.1, e.2.1)
      rw [hσa, hσb]
  have hpermmaps : ((treeEdges (get_matrix_and_tokens_dep TT code).1 ns.length).map
      (fun f => (σ f.1, σ f.2.1))).Perm (deps.map (fun e => (e.1, e.2.1))) :=
    (List.perm_ext_iff_of_nodup hmapinj hmap2nodup).mpr hsetiff
  have hcount : (treeEdges (get_matrix_and_tokens_dep TT code).1 ns.length).length =
      deps.length := by
    have h1 := hpermmaps.length_eq
    rw [List.length_map, List.length_map] at h1
    exact h1
  have hwts : ∀ e ∈ (get_tree_from_distances (get_matrix_and_tokens_dep TT code).1
      (get_matrix_and_tokens_dep TT code).2).edges, e.2.2 = 1 := by
    intro e he
    rw [hmain] at he
    have h1 := (List.mem_filter.mp he).2
    rw [Bool.and_eq_true] at h1
    simpa using h1.2
  refine ⟨?_, ?_, hwts, ?_⟩
  · rw [hmain, htoklen]
    exact hperm2
  · show (get_tree_from_distances (get_matrix_and_tokens_dep TT code).1
      (get_matrix_and_tokens_dep TT code).2).edges.length = deps.length
    rw [hmain, hperm2.length_eq]
    exact hcount
  · show (get_tree_from_distances (get_matrix_and_tokens_dep TT code).1
      (get_matrix_and_tokens_dep TT code).2).edges.foldl (fun s e => s + e.2.2) 0 =
      deps.length
    have hfold := foldl_weight_ones ((get_tree_from_distances
      (get_matrix_and_tokens_dep TT code).1
      (get_matrix_and_tokens_dep TT code).2).edges) 0 hwts
    rw [hfold, hmain, hperm2.length_eq, hcount]
    omega

/-- A concrete code buffer covering the byte spans of `exValid`. -/
def exCode : List UInt8 := [104, 101, 108, 108, 111, 32, 119, 111, 114, 108]

/-- **C6 witness**: the round trip evaluated on the chain fixture
`module → (a, expr → (b, c))` — the dependency tree is the 3-chain
`a → b → c` with hop distances `d(a,b) = d(b,c) = 1`, `d(a,c) = 2`, and the
reconstruction returns exactly the index edges `(0,1)` and `(1,2)` of
weight one, not `(0,2)`. -/
theorem c6_tree_round_trip_witness :
    validB exValid = true ∧
    (get_tree_from_distances
        (get_matrix_and_tokens_dep (get_dependency_tree (enrich_ast_with_deps exValid))
          exCode).1
        (get_matrix_and_tokens_dep (get_dependency_tree (enrich_ast_with_deps exValid))
          exCode).2).edges = [(0, 1, 1), (1, 2, 1)] ∧
    ((get_tree_from_distances
        (get_matrix_and_tokens_dep (get_dependency_tree (enrich_ast_with_deps exValid))
          exCode).1
        (get_matrix_and_tokens_dep (get_dependency_tree (enrich_ast_with_deps exValid))
          exCode).2).edges.Perm
      (treeEdges
        (get_matrix_and_tokens_dep (get_dependency_tree (enrich_ast_with_deps exValid))
          exCode).1
        (get_matrix_and_tokens_dep (get_dependency_tree (enrich_ast_with_deps exValid))
          exCode).2.length) ∧
    (get_tree_from_distances
        (get_matrix_and_tokens_dep (get_dependency_tree (enrich_ast_with_deps exValid))
          exCode).1
        (get_matrix_and_tokens_dep (get_dependency_tree (enrich_ast_with_deps exValid))
          exCode).2).edges.length =
      (get_dependency_tree (enrich_ast_with_deps exValid)).edges.length ∧
    (∀ e ∈ (get_tree_from_distances
        (get_matrix_and_tokens_dep (get_dependency_tree (enrich_ast_with_deps exValid))
          exCode).1
        (get_matrix_and_tokens_dep (get_dependency_tree (enrich_ast_with_deps exValid))
          exCode).2).edges,
      e.2.2 = 1) ∧
    (get_tree_from_distances
        (get_matrix_and_tokens_dep (get_dependency_tree (enrich_ast_with_deps exValid))
          exCode).1
        (get_matrix_and_tokens_dep (get_dependency_tree (enrich_ast_with_deps exValid))
          exCode).2).edges.foldl
        (fun s e => s + e.2.2) 0 =
      (get_dependency_tree (enrich_ast_with_deps exValid)).edges.length) :=
  ⟨by decide, by decide, c6_tree_round_trip exValid exCode (by decide)⟩

end Code2Ast
